import Mathlib

/-! # changelogger: a verification development

Shallow embedding of `tag_reader.go`, `commit_extractor.go` and
`changelogger.go`.  Go strings are byte sequences and are modelled as lists
of natural numbers (each byte a number below 256); arithmetic on `byte`
values is written with an explicit `% 256`.
-/

namespace Changelogger

/-! ## Strings -/

/-- Go `string` / `[]byte`: a sequence of bytes. -/
abbrev GoString := List Nat

/-- The bytes of an ASCII literal. -/
def ascii (s : String) : GoString := s.toList.map Char.toNat

/-- Go's `<` on strings: byte-wise lexicographic comparison. -/
def bytesLt : GoString → GoString → Bool
  | [], [] => false
  | [], _ :: _ => true
  | _ :: _, [] => false
  | a :: as, b :: bs => if a < b then true else if b < a then false else bytesLt as bs

/-- Decimal numeral of a natural number, most significant digit first, no
leading zeros (`0` is written "0"). -/
def dec (m : Nat) : GoString :=
  if m = 0 then [48] else (Nat.digits 10 m).reverse.map (fun d => d + 48)

/-! ## tag_reader.go: VersionOrdinal -/

/-- The two ways in which `VersionOrdinal` can panic. -/
inductive VOError where
  /-- The explicit `panic("VersionOrdinal: invalid version")`. -/
  | invalidVersion
  /-- The run-time panic of an index expression that is out of range. -/
  | indexOutOfRange
  deriving DecidableEq, Repr

deriving instance DecidableEq for Except

/-- The loop state of `VersionOrdinal`: the buffer `vo` and the index `j`. -/
structure VOState where
  vo : List Nat
  j : Int
  deriving DecidableEq, Repr

/-- The constant `maxByte = 1<<8 - 1`. -/
def maxByte : Nat := (1 <<< 8) - 1

/-- The index expression `vo[k]` as a read. -/
def byteAt (vo : List Nat) (k : Int) : Except VOError Nat :=
  if k < 0 then .error .indexOutOfRange
  else match vo.get? k.toNat with
    | some x => .ok x
    | none => .error .indexOutOfRange

/-- The index expression `vo[k] = x` as a write. -/
def setByte (vo : List Nat) (k : Int) (x : Nat) : Except VOError (List Nat) :=
  if k < 0 then .error .indexOutOfRange
  else if k.toNat < vo.length then .ok (vo.set k.toNat x)
  else .error .indexOutOfRange

/-- One iteration of the loop of `VersionOrdinal` on the byte `b`. -/
def voStep (st : VOState) (b : Nat) : Except VOError VOState :=
  if 48 > b ∨ b > 57 then
    .ok ⟨st.vo ++ [b], -1⟩
  else
    -- if j == -1 { vo = append(vo, 0x00); j = len(vo) - 1 }
    let st1 : VOState :=
      if st.j = -1 then ⟨st.vo ++ [0], ((st.vo ++ [0]).length : Int) - 1⟩ else st
    -- vo[j] == 1 && vo[j+1] == '0'
    match byteAt st1.vo st1.j with
    | .error e => .error e
    | .ok c =>
      let cond : Except VOError Bool :=
        if c = 1 then
          match byteAt st1.vo (st1.j + 1) with
          | .error e => .error e
          | .ok d => .ok (decide (d = 48))
        else .ok false
      match cond with
      | .error e => .error e
      | .ok true =>
        match setByte st1.vo (st1.j + 1) b with
        | .error e => .error e
        | .ok vo2 => .ok ⟨vo2, st1.j⟩
      | .ok false =>
        -- vo[j]+1 > maxByte, computed in the type byte
        if (c + 1) % 256 > maxByte then .error .invalidVersion
        else
          let vo2 := st1.vo ++ [b]
          match byteAt vo2 st1.j with
          | .error e => .error e
          | .ok c2 =>
            match setByte vo2 st1.j ((c2 + 1) % 256) with
            | .error e => .error e
            | .ok vo3 => .ok ⟨vo3, st1.j⟩

/-- The loop of `VersionOrdinal` from a given state. -/
def voRun (st : VOState) (version : GoString) : Except VOError VOState :=
  version.foldlM voStep st

/-- The function `VersionOrdinal`: the final buffer, or the panic. -/
def VersionOrdinal (version : GoString) : Except VOError GoString :=
  match voRun ⟨[], -1⟩ version with
  | .error e => .error e
  | .ok st => .ok st.vo

/-! ### An abstract view of the loop state

Between two iterations the buffer is `pre` (everything before the digit run
in progress) followed, when a run is in progress, by the run's length byte,
its first stored digit and its further stored digits; `j` is `-1` or the
position of the length byte. -/

/-- A digit run in progress: the length byte and the digits stored so far. -/
structure DigitRun where
  count : Nat
  first : Nat
  rest : List Nat
  deriving DecidableEq, Repr

/-- Abstract loop state: finished output and the run in progress, if any. -/
structure AbsState where
  pre : List Nat
  run : Option DigitRun
  deriving DecidableEq, Repr

/-- The bytes of a run as they lie in the buffer. -/
def DigitRun.bytes (r : DigitRun) : List Nat := r.count :: r.first :: r.rest

/-- The buffer of an abstract state. -/
def AbsState.out (a : AbsState) : List Nat :=
  match a.run with
  | none => a.pre
  | some r => a.pre ++ r.bytes

/-- The concrete loop state an abstract state stands for. -/
def AbsState.conc (a : AbsState) : VOState :=
  match a.run with
  | none => ⟨a.pre, -1⟩
  | some r => ⟨a.pre ++ r.bytes, (a.pre.length : Int)⟩

/-- One loop iteration on abstract states. -/
def absStep (a : AbsState) (b : Nat) : AbsState :=
  if 48 > b ∨ b > 57 then ⟨a.out ++ [b], none⟩
  else match a.run with
    | none => ⟨a.pre, some ⟨1, b, []⟩⟩
    | some r =>
      if r.count = 1 ∧ r.first = 48 then ⟨a.pre, some ⟨r.count, b, r.rest⟩⟩
      else ⟨a.pre, some ⟨(r.count + 1) % 256, r.first, r.rest ++ [b]⟩⟩

/-- The loop on abstract states. -/
def absRun (a : AbsState) (version : GoString) : AbsState :=
  version.foldl absStep a

/-- The buffer the abstract loop ends with. -/
def absEncode (version : GoString) : GoString := (absRun ⟨[], none⟩ version).out

/-- The state with `front` written before its buffer. -/
def AbsState.shift (front : List Nat) (a : AbsState) : AbsState :=
  ⟨front ++ a.pre, a.run⟩

/-- The text is empty or ends in a byte that is not a digit. -/
def EndsNonDigit (p : GoString) : Prop :=
  p = [] ∨ ∃ q c, p = q ++ [c] ∧ (48 > c ∨ c > 57)

/-- The text is empty or starts with a byte that is not a digit. -/
def StartsNonDigit (s : GoString) : Prop :=
  s = [] ∨ ∃ c t, s = c :: t ∧ (48 > c ∨ c > 57)

/-- Every byte of the text is a digit. -/
def AllDigits (l : GoString) : Prop := ∀ b ∈ l, ¬ (48 > b ∨ b > 57)

/-- The digit values of the decimal numeral, most significant first. -/
def decDigits (m : Nat) : List Nat :=
  if m = 0 then [0] else (Nat.digits 10 m).reverse

/-- The value of a list of digit values, most significant first. -/
def beVal (l : List Nat) : Nat := Nat.ofDigits 10 l.reverse

/-! ## The library function sort.Slice

`sort.Slice` belongs to Go's standard library.  It is taken as a parameter:
a function from the comparison and the slice to the rearranged slice, of
which only what the library documents is assumed. -/

/-- The type of `sort.Slice`, the comparison being read on elements. -/
abbrev SortSlice := (α : Type) → (α → α → Bool) → List α → List α

/-- The requirement the library puts on `less`: a transitive ordering whose
incomparability is transitive as well. -/
structure StrictWeakOrder {α : Type} (less : α → α → Bool) : Prop where
  irrefl : ∀ a, less a a = false
  trans : ∀ a b c, less a b = true → less b c = true → less a c = true
  incomp_trans : ∀ a b c, less a b = false → less b c = false → less a c = false

/-- What the library promises of `sort.Slice`: it only rearranges the slice,
and when `less` meets the requirement no later element is less than an
earlier one afterwards.  Stability is not promised. -/
structure SortSliceLawful (sortSlice : SortSlice) : Prop where
  perm : ∀ (α : Type) (less : α → α → Bool) (xs : List α),
    (sortSlice α less xs).Perm xs
  sorted : ∀ (α : Type) (less : α → α → Bool) (xs : List α), StrictWeakOrder less →
    (sortSlice α less xs).Pairwise (fun a b => less b a = false)

/-- A function meeting the promise: the stable insertion sort. -/
def insertionSortSlice : SortSlice :=
  fun _ less xs => xs.insertionSort (fun a b => less b a = false)

/-! ## tag_reader.go: tags -/

/-- The type `time.Time`, of which only equality is used. -/
structure Time where
  unixNano : Int
  deriving DecidableEq, Repr

/-- The type `chglog.RelateTag`. -/
structure RelateTag where
  Name : GoString
  Subject : GoString
  Date : Time
  deriving DecidableEq, Repr

/-- The type `chglog.Tag`; a nil `Next` or `Previous` is `none`. -/
structure Tag where
  Name : GoString
  Subject : GoString
  Date : Time
  Next : Option RelateTag
  Previous : Option RelateTag
  deriving DecidableEq, Repr

/-- The comparison `VersionOrdinal(x) > VersionOrdinal(y)` on two names.  A
panic of `VersionOrdinal` would end the comparison without a value; by
`VersionOrdinal_eq` there is none. -/
def ordinalGt (x y : GoString) : Bool :=
  match VersionOrdinal x, VersionOrdinal y with
  | .ok a, .ok b => bytesLt b a
  | _, _ => false

/-- The comparison function handed to `sort.Slice` by `sortTags`. -/
def tagLess (a b : Tag) : Bool := ordinalGt a.Name b.Name

/-- The method `sortTags`. -/
def sortTags (sortSlice : SortSlice) (tags : List Tag) : List Tag :=
  sortSlice Tag tagLess tags

/-- The ordinal of `a`'s name is not below that of `b`'s name. -/
def OrdinalGe (a b : Tag) : Prop :=
  ∃ x y, VersionOrdinal a.Name = .ok x ∧ VersionOrdinal b.Name = .ok y ∧ bytesLt x y = false

/-- The ordinal of `a`'s name is strictly above that of `b`'s name. -/
def OrdinalGt (a b : Tag) : Prop :=
  ∃ x y, VersionOrdinal a.Name = .ok x ∧ VersionOrdinal b.Name = .ok y ∧ bytesLt y x = true

/-- A tag named "v01". -/
def tagV01 : Tag := ⟨ascii "v01", [], ⟨0⟩, none, none⟩

/-- A tag named "v1". -/
def tagV1 : Tag := ⟨ascii "v1", [], ⟨0⟩, none, none⟩

/-- The composite literal `&chglog.RelateTag{Name: t.Name, Subject: t.Subject,
Date: t.Date}`: a copy of the three fields. -/
def relateTag (t : Tag) : RelateTag := ⟨t.Name, t.Subject, t.Date⟩

/-- The body of the loop of `assignPreviousAndNextTag` at index `i`; `none`
is the run-time panic of an index out of range. -/
def assignAt (tags : List Tag) (i : Nat) : Option (List Tag) :=
  let total := tags.length
  let next : Option (Option RelateTag) :=
    if i > 0 then (tags[i - 1]?).map (fun t => some (relateTag t)) else some none
  let prev : Option (Option RelateTag) :=
    if i + 1 < total then (tags[i + 1]?).map (fun t => some (relateTag t)) else some none
  match tags[i]?, next, prev with
  | some tag, some next, some prev =>
    some (tags.set i { tag with Next := next, Previous := prev })
  | _, _, _ => none

/-- The method `assignPreviousAndNextTag`: the loop over all indices. -/
def assignPreviousAndNextTag (tags : List Tag) : Option (List Tag) :=
  (List.range tags.length).foldlM assignAt tags

/-! ## Library functions on strings -/

/-- Go's `strings.Split(s, sep)` for a separator that is not empty (the
separators used here are ".", "\n" and a fixed token): `skip` counts the
bytes of a separator just found that are still to be passed over, `cur`
holds the field being read, reversed. -/
def splitLoop (sep : GoString) : Nat → GoString → GoString → List GoString
  | _, cur, [] => [cur.reverse]
  | skip + 1, cur, _ :: rest => splitLoop sep skip cur rest
  | 0, cur, c :: rest =>
    if sep.isPrefixOf (c :: rest) then cur.reverse :: splitLoop sep (sep.length - 1) [] rest
    else splitLoop sep 0 (c :: cur) rest

/-- Go's `strings.Split(s, sep)`, `sep` not empty. -/
def goSplit (s sep : GoString) : List GoString := splitLoop sep 0 [] s

/-- The scan behind `strings.LastIndex`: `i` is the position of the rest of
the text, `best` the last position found so far. -/
def lastIndexLoop (substr : GoString) : GoString → Nat → Int → Int
  | [], i, best => if substr.isPrefixOf [] then (i : Int) else best
  | c :: rest, i, best =>
    lastIndexLoop substr rest (i + 1) (if substr.isPrefixOf (c :: rest) then (i : Int) else best)

/-- Go's `strings.LastIndex(s, substr)`: the position of the last occurrence
of `substr` in `s`, or `-1`. -/
def lastIndex (s substr : GoString) : Int := lastIndexLoop substr s 0 (-1)

/-! ## commit_extractor.go -/

/-- The type `chglog.Note`. -/
structure Note where
  Title : GoString
  Body : GoString
  deriving DecidableEq, Repr

/-- The type `chglog.Merge`. -/
structure Merge where
  Ref : GoString
  Source : GoString
  deriving DecidableEq, Repr

/-- The type `chglog.Revert`. -/
structure Revert where
  Header : GoString
  deriving DecidableEq, Repr

/-- The type `chglog.Commit`, with the fields this package reads; a nil
`Merge` or `Revert` is `none`. -/
structure Commit where
  Hash : GoString
  Header : GoString
  Merge : Option Merge
  Revert : Option Revert
  Notes : List Note
  deriving DecidableEq, Repr

/-- The type `chglog.CommitGroup`. -/
structure CommitGroup where
  RawTitle : GoString
  Title : GoString
  Commits : List Commit
  deriving DecidableEq, Repr

/-- The type `chglog.NoteGroup`. -/
structure NoteGroup where
  Title : GoString
  Notes : List Note
  deriving DecidableEq, Repr

/-- The values `dotGet` hands to `compare`: a string, a number, a time, or a
value of another kind. -/
inductive Value where
  | str (s : GoString)
  | int (n : Int)
  | time (t : Time)
  | other
  deriving DecidableEq, Repr

/-- The type `chglog.Options`, with the fields the extractor reads.  The
commit filters are held as the predicate they stand for. -/
structure Options where
  CommitFilters : Commit → Bool
  CommitSortBy : GoString
  CommitGroupBy : GoString
  CommitGroupSortBy : GoString
  CommitGroupTitleMaps : List (GoString × GoString)

/-- What the extractor calls and this package's sources under study do not
define: `sort.Slice`, `strings.Title` and `strings.ToLower` of the standard
library, and the package's helpers `dotGet` (on a commit group and on a
commit) and `compare` (with the operator "<"; `none` is its error). -/
structure Env where
  sortSlice : SortSlice
  title : GoString → GoString
  toLower : GoString → GoString
  dotGetGroup : CommitGroup → GoString → Option Value
  dotGetCommit : Commit → GoString → Option Value
  compare : Value → Value → Option Bool

/-- Modelled from the spec: commitFilter (its source is not part of the files
under study) applies the configured predicate set to the full input list and
yields the filtered subset, in input order. -/
def commitFilter (commits : List Commit) (filters : Commit → Bool) : List Commit :=
  commits.filter filters

/-- The test of `getTypeByCommit` on one key:
`strings.LastIndex(commit.Header, fmt.Sprintf("(%s)", key)) > 0`. -/
def keyMatches (header key : GoString) : Bool :=
  decide (lastIndex header ([40] ++ key ++ [41]) > 0)

/-- The loop of `getTypeByCommit` over the keys. -/
def getTypeLoop (header : GoString) : List GoString → GoString × Bool
  | [] => ([], false)
  | key :: rest => if keyMatches header key then (key, true) else getTypeLoop header rest

/-- The function `getTypeByCommit`. -/
def getTypeByCommit (commit : Commit) (prop : GoString) : GoString × Bool :=
  let path := goSplit prop [46]
  if path.length = 0 then ([], false) else getTypeLoop commit.Header path

/-- The method `commitGroupTitle`: the raw title and the display title. -/
def commitGroupTitle (env : Env) (opts : Options) (commit : Commit) : GoString × GoString :=
  match getTypeByCommit commit opts.CommitGroupBy with
  | (title, true) =>
    match opts.CommitGroupTitleMaps.lookup title with
    | some t => (title, t)
    | none => (title, env.title title)
  | (_, false) => ([], [])

/-- The search loop of `processCommitGroups`: `group` ends as the last group
whose `RawTitle` is `raw`, held as its index. -/
def findGroup (raw : GoString) : List CommitGroup → Nat → Option Nat → Option Nat
  | [], _, group => group
  | g :: rest, i, group => findGroup raw rest (i + 1) (if g.RawTitle = raw then some i else group)

/-- The method `processCommitGroups`. -/
def processCommitGroups (env : Env) (opts : Options) (groups : List CommitGroup)
    (commit : Commit) : List CommitGroup :=
  let (raw, ttl) := commitGroupTitle env opts commit
  match findGroup raw groups 0 none with
  | some i =>
    match groups[i]? with
    | some g => groups.set i { g with Commits := g.Commits ++ [commit] }
    | none => groups
  | none =>
    if raw ≠ [] then groups ++ [⟨raw, ttl, [commit]⟩] else groups

/-- The method `appendNoteToNoteGroups`: the note is appended to every group
of its title, and a new group is made when there is none. -/
def appendNoteToNoteGroups (groups : List NoteGroup) (note : Note) : List NoteGroup :=
  let exist := groups.any (fun g => decide (g.Title = note.Title))
  let groups2 := groups.map
    (fun g => if g.Title = note.Title then { g with Notes := g.Notes ++ [note] } else g)
  if exist then groups2 else groups2 ++ [⟨note.Title, [note]⟩]

/-- The method `processNoteGroups`. -/
def processNoteGroups (groups : List NoteGroup) (commit : Commit) : List NoteGroup :=
  commit.Notes.foldl appendNoteToNoteGroups groups

/-- The comparison of `sortCommitGroups` on two values found by `dotGet`. -/
def lessBy (env : Env) (a b : Option Value) : Bool :=
  match a with
  | none => false
  | some x =>
    match b with
    | none => false
    | some y =>
      match env.compare x y with
      | none => false
      | some res => res

/-- The method `sortCommitGroups`: the groups are sorted, then the commits of
every group. -/
def sortCommitGroups (env : Env) (opts : Options) (groups : List CommitGroup) :
    List CommitGroup :=
  let sorted := env.sortSlice CommitGroup
    (fun a b => lessBy env (env.dotGetGroup a opts.CommitGroupSortBy)
      (env.dotGetGroup b opts.CommitGroupSortBy)) groups
  sorted.map (fun group =>
    { group with
      Commits := env.sortSlice Commit
        (fun a b => lessBy env (env.dotGetCommit a opts.CommitSortBy)
          (env.dotGetCommit b opts.CommitSortBy)) group.Commits })

/-- The method `sortNoteGroups`. -/
def sortNoteGroups (env : Env) (groups : List NoteGroup) : List NoteGroup :=
  let sorted := env.sortSlice NoteGroup
    (fun a b => bytesLt (env.toLower a.Title) (env.toLower b.Title)) groups
  sorted.map (fun group =>
    { group with
      Notes := env.sortSlice Note
        (fun a b => bytesLt (env.toLower a.Title) (env.toLower b.Title)) group.Notes })

/-- The four results of `Extract`. -/
structure Extracted where
  commitGroups : List CommitGroup
  mergeCommits : List Commit
  revertCommits : List Commit
  noteGroups : List NoteGroup

/-- The first loop of `Extract`, over the unfiltered commits: the state is
the merge list and the revert list. -/
def partitionStep (st : List Commit × List Commit) (commit : Commit) :
    List Commit × List Commit :=
  if commit.Merge ≠ none then (st.1 ++ [commit], st.2)
  else if commit.Revert ≠ none then (st.1, st.2 ++ [commit])
  else st

/-- The second loop of `Extract`, over the filtered commits: the state is the
commit groups and the note groups. -/
def groupStep (env : Env) (opts : Options) (st : List CommitGroup × List NoteGroup)
    (commit : Commit) : List CommitGroup × List NoteGroup :=
  let groups :=
    if commit.Merge = none ∧ commit.Revert = none then
      processCommitGroups env opts st.1 commit
    else st.1
  (groups, processNoteGroups st.2 commit)

/-- The method `Extract`. -/
def Extract (env : Env) (opts : Options) (commits : List Commit) : Extracted :=
  let filteredCommits := commitFilter commits opts.CommitFilters
  let mr := commits.foldl partitionStep ([], [])
  let gn := filteredCommits.foldl (groupStep env opts) ([], [])
  { commitGroups := sortCommitGroups env opts gn.1
    mergeCommits := mr.1
    revertCommits := mr.2
    noteGroups := sortNoteGroups env gn.2 }

/-- The commits of all groups, group after group. -/
def groupMembers : List CommitGroup → List Commit
  | [] => []
  | g :: rest => g.Commits ++ groupMembers rest

/-- The commits the second loop of `Extract` puts in a group: neither merge
nor revert commits, with a raw title that is not empty. -/
def groupable (env : Env) (opts : Options) (c : Commit) : Bool :=
  decide (c.Merge = none ∧ c.Revert = none ∧ (commitGroupTitle env opts c).1 ≠ [])

/-- What holds of the commit groups throughout `Extract`: raw titles are
pairwise distinct and not empty, no group is empty, and every member is
neither a merge nor a revert commit and is classified under its group's raw
title. -/
structure GroupsInv (opts : Options) (groups : List CommitGroup) : Prop where
  nodup : (groups.map CommitGroup.RawTitle).Nodup
  key_ne : ∀ g ∈ groups, g.RawTitle ≠ []
  commits_ne : ∀ g ∈ groups, g.Commits ≠ []
  member : ∀ g ∈ groups, ∀ c ∈ g.Commits,
    getTypeByCommit c opts.CommitGroupBy = (g.RawTitle, true) ∧
      c.Merge = none ∧ c.Revert = none

/-! ## changelogger.go: readVersions -/

/-- A Go `error`, held as its message. -/
abbrev GoError := GoString

/-- The type `chglog.Version`. -/
structure Version where
  Tag : Tag
  CommitGroups : List CommitGroup
  Commits : List Commit
  MergeCommits : List Commit
  RevertCommits : List Commit
  NoteGroups : List NoteGroup
  deriving DecidableEq, Repr

/-- The revision range `readVersions` computes for the tag at index `i`. -/
def revisionRange (tags : List Tag) (first : GoString) (i : Nat) (tag : Tag) : GoString :=
  if h : i + 1 < tags.length then
    tags[i + 1].Name ++ ascii ".." ++ tag.Name
  else if first ≠ [] then
    first ++ ascii ".." ++ tag.Name
  else
    tag.Name

/-- The composite literal `&chglog.Version{...}` of `readVersions`, from the
tag, the parsed commits and the four results of `Extract` on them. -/
def mkVersion (env : Env) (opts : Options) (tag : Tag) (commits : List Commit) : Version :=
  { Tag := tag
    CommitGroups := (Extract env opts commits).commitGroups
    Commits := commits
    MergeCommits := (Extract env opts commits).mergeCommits
    RevertCommits := (Extract env opts commits).revertCommits
    NoteGroups := (Extract env opts commits).noteGroups }

/-- What a run of `readVersions` does and returns: the revision ranges handed
to the commit parser, in order of the calls, and the returned versions or error. -/
structure ReadRun where
  calls : List GoString
  result : Except GoError (List Version)

/-- The loop of `readVersions` from index `i` on the tags still to come.  The
commit parser `parse` is the collaborator `commitParser.Parse`. -/
def readVersionsLoop (env : Env) (opts : Options)
    (parse : GoString → Except GoError (List Commit)) (tags : List Tag) (first : GoString) :
    Nat → List Tag → List Version → List GoString → ReadRun
  | _, [], versions, calls => ⟨calls, .ok versions⟩
  | i, tag :: rest, versions, calls =>
    match parse (revisionRange tags first i tag) with
    | .error err => ⟨calls ++ [revisionRange tags first i tag], .error err⟩
    | .ok commits =>
      readVersionsLoop env opts parse tags first (i + 1) rest
        (versions ++ [mkVersion env opts tag commits])
        (calls ++ [revisionRange tags first i tag])

/-- The method `readVersions`. -/
def readVersions (env : Env) (opts : Options)
    (parse : GoString → Except GoError (List Commit)) (tags : List Tag) (first : GoString) :
    ReadRun :=
  readVersionsLoop env opts parse tags first 0 tags [] []

/-- The revision ranges of the tags from index `i` on. -/
def rangesFrom (tags : List Tag) (first : GoString) : Nat → List Tag → List GoString
  | _, [] => []
  | i, tag :: rest => revisionRange tags first i tag :: rangesFrom tags first (i + 1) rest

/-- The ranges of a list up to and including the first one the parser fails on. -/
def cutAtFailure (parse : GoString → Except GoError (List Commit)) :
    List GoString → List GoString
  | [] => []
  | r :: rest =>
    match parse r with
    | .ok _ => r :: cutAtFailure parse rest
    | .error _ => [r]

/-- A tag with the given name and nothing else. -/
def plainTag (name : GoString) : Tag := ⟨name, [], ⟨0⟩, none, none⟩

/-! ## Concrete collaborators and configuration, for examples -/

/-- Upper case of an ASCII byte. -/
def asciiUpper (b : Nat) : Nat := if 97 ≤ b ∧ b ≤ 122 then b - 32 else b

/-- Lower case of an ASCII byte. -/
def asciiLower (b : Nat) : Nat := if 65 ≤ b ∧ b ≤ 90 then b + 32 else b

/-- An ASCII byte that is a letter, a digit or the underscore: the bytes
`strings.Title` does not take for word separators. -/
def isWordByte (b : Nat) : Bool :=
  decide ((97 ≤ b ∧ b ≤ 122) ∨ (65 ≤ b ∧ b ≤ 90) ∨ (48 ≤ b ∧ b ≤ 57) ∨ b = 95)

/-- The loop of `strings.Title` on ASCII text: a byte that follows a
separator is put in upper case. -/
def asciiTitleLoop : Nat → GoString → GoString
  | _, [] => []
  | prev, b :: rest =>
    (if isWordByte prev then b else asciiUpper b) :: asciiTitleLoop b rest

/-- Go's `strings.Title` on ASCII text. -/
def asciiTitle (s : GoString) : GoString := asciiTitleLoop 32 s

/-- An environment for examples: the insertion sort, the ASCII forms of
`strings.Title` and `strings.ToLower`, a `dotGet` that knows the fields
`RawTitle`, `Title` and `Header`, and a `compare` on strings and numbers. -/
def sampleEnv : Env where
  sortSlice := insertionSortSlice
  title := asciiTitle
  toLower := fun s => s.map asciiLower
  dotGetGroup := fun g path =>
    if path = ascii "RawTitle" then some (.str g.RawTitle)
    else if path = ascii "Title" then some (.str g.Title)
    else none
  dotGetCommit := fun c path =>
    if path = ascii "Header" then some (.str c.Header) else none
  compare := fun a b =>
    match a, b with
    | .str x, .str y => some (bytesLt x y)
    | .int x, .int y => some (decide (x < y))
    | _, _ => none

/-- The options `NewChangeLogger` sets: the group keys, the title overrides,
no commit filter and no sort keys. -/
def defaultOptions : Options where
  CommitFilters := fun _ => true
  CommitSortBy := []
  CommitGroupBy := ascii "bugfix.feat.hotfix.fix.feature"
  CommitGroupSortBy := []
  CommitGroupTitleMaps := [(ascii "fix", ascii "Bugfix"), (ascii "feat", ascii "Feature")]

/-- The options of the second scenario: priority list "feat.fix" with the
same title overrides. -/
def scenarioOptions : Options :=
  { defaultOptions with CommitGroupBy := ascii "feat.fix" }

/-- A commit with the given header and nothing else. -/
def plainCommit (header : GoString) : Commit := ⟨[], header, none, none, []⟩

/-- A commit that carries both a merge and a revert record. -/
def mergeRevertCommit : Commit :=
  ⟨[], ascii "Merge branch Revert-x (fix)", some ⟨ascii "x", ascii "y"⟩, some ⟨ascii "x"⟩, []⟩

/-- A merge commit whose header also carries a classification key. -/
def mergeFixCommit : Commit :=
  ⟨[], ascii "Merge branch x (fix)", some ⟨ascii "x", ascii "y"⟩, none, []⟩

/-- The capitalised form in the words of the specification: the first letter
upper-cased, the rest unchanged. -/
def capitalizeFirst : GoString → GoString
  | [] => []
  | b :: rest => asciiUpper b :: rest

/-- Options whose priority string is the single key "hot-fix", which has no
title override. -/
def hyphenOptions : Options :=
  { defaultOptions with CommitGroupBy := ascii "hot-fix" }

/-! ## Note groups and sort keys of Extract -/

/-- The notes of all note groups, group after group. -/
def noteMembers : List NoteGroup → List Note
  | [] => []
  | g :: rest => g.Notes ++ noteMembers rest

/-- The notes of all commits of a list, commit after commit. -/
def commitNotes : List Commit → List Note
  | [] => []
  | c :: rest => c.Notes ++ commitNotes rest

/-- What holds of the note groups throughout `Extract`: titles are pairwise
distinct and every note has the title of its group. -/
structure NotesInv (groups : List NoteGroup) : Prop where
  nodup : (groups.map NoteGroup.Title).Nodup
  member : ∀ g ∈ groups, ∀ n ∈ g.Notes, n.Title = g.Title

/-- The commit groups of `Extract` as the second loop leaves them, before
`sortCommitGroups`. -/
def groupsBeforeSort (env : Env) (opts : Options) (commits : List Commit) :
    List CommitGroup :=
  ((commitFilter commits opts.CommitFilters).foldl (groupStep env opts) ([], [])).1

/-- The note groups of `Extract` as the second loop leaves them, before
`sortNoteGroups`. -/
def notesBeforeSort (env : Env) (opts : Options) (commits : List Commit) :
    List NoteGroup :=
  ((commitFilter commits opts.CommitFilters).foldl (groupStep env opts) ([], [])).2

/-- The comparison `sortCommitGroups` hands to `sort.Slice` for the groups. -/
def groupLess (env : Env) (opts : Options) (a b : CommitGroup) : Bool :=
  lessBy env (env.dotGetGroup a opts.CommitGroupSortBy)
    (env.dotGetGroup b opts.CommitGroupSortBy)

/-- The comparison `sortCommitGroups` hands to `sort.Slice` for the commits
of a group. -/
def commitLess (env : Env) (opts : Options) (a b : Commit) : Bool :=
  lessBy env (env.dotGetCommit a opts.CommitSortBy) (env.dotGetCommit b opts.CommitSortBy)

/-- The comparison `sortNoteGroups` hands to `sort.Slice` for the groups. -/
def noteGroupLess (env : Env) (a b : NoteGroup) : Bool :=
  bytesLt (env.toLower a.Title) (env.toLower b.Title)

/-- A plain commit with two notes. -/
def notedCommit : Commit :=
  ⟨[], ascii "a (fix)", none, none,
    [⟨ascii "BREAKING CHANGE", ascii "x"⟩, ⟨ascii "Note", ascii "y"⟩]⟩

/-- A merge commit with a note. -/
def notedMergeCommit : Commit :=
  ⟨[], ascii "Merge branch x", some ⟨ascii "x", ascii "y"⟩, none,
    [⟨ascii "breaking change", ascii "z"⟩]⟩

/-- The requirement of the library on `less`, asked of the elements of the
slice only: `sort.Slice` calls `less` on positions of the slice. -/
structure StrictWeakOrderOn {α : Type} (less : α → α → Bool) (xs : List α) : Prop where
  irrefl : ∀ a ∈ xs, less a a = false
  trans : ∀ a ∈ xs, ∀ b ∈ xs, ∀ c ∈ xs,
    less a b = true → less b c = true → less a c = true
  incomp_trans : ∀ a ∈ xs, ∀ b ∈ xs, ∀ c ∈ xs,
    less a b = false → less b c = false → less a c = false

/-- The promise of `sort.Slice` with the requirement asked of the elements of
the slice only. -/
structure SortSliceLawfulOn (sortSlice : SortSlice) : Prop where
  perm : ∀ (α : Type) (less : α → α → Bool) (xs : List α),
    (sortSlice α less xs).Perm xs
  sorted : ∀ (α : Type) (less : α → α → Bool) (xs : List α), StrictWeakOrderOn less xs →
    (sortSlice α less xs).Pairwise (fun a b => less b a = false)

/-- The sort key `get` resolves on every element of `xs`, to values that
`compare` compares without an error and orders. -/
structure SortKeyOrdered (env : Env) {α : Type} (get : α → Option Value) (xs : List α) :
    Prop where
  resolves : ∀ a ∈ xs, ∃ v, get a = some v
  comparable : ∀ a ∈ xs, ∀ b ∈ xs, ∀ x y, get a = some x → get b = some y →
    ∃ r, env.compare x y = some r
  order : StrictWeakOrderOn (fun a b => lessBy env (get a) (get b)) xs

/-- Options with sort keys: groups by `RawTitle`, commits by `Header`. -/
def sortOptions : Options :=
  { defaultOptions with
    CommitGroupSortBy := ascii "RawTitle"
    CommitSortBy := ascii "Header" }

/-! ## changelogger.go: the ChangeLogger -/

/-- The type `ChangeLogger`, with what its methods use: the options of its
configuration, the result of `tagReader.ReadAll()`, and the collaborators
`tagSelector.Select` (the narrowed tags and the boundary, or an error) and
`commitParser.Parse`. -/
structure ChangeLogger where
  env : Env
  opts : Options
  readAll : Except GoError (List Tag)
  select : List Tag → GoString → Except GoError (List Tag × GoString)
  parse : GoString → Except GoError (List Commit)

/-- The method `getTags`: the tags and the boundary `first`, or the error. -/
def getTags (c : ChangeLogger) (query : GoString) : Except GoError (List Tag × GoString) :=
  match c.readAll with
  | .error err => .error err
  | .ok tags =>
    if tags.length = 0 then .error (ascii "git-tag does not exist")
    else if query ≠ [] then
      match c.select tags query with
      | .error err => .error err
      | .ok (selected, first) => .ok (selected, first)
    else .ok (tags, [])

/-- The method `GetChangeLog`: the versions, or the error (with which the
returned list is nil). -/
def GetChangeLog (c : ChangeLogger) (query : GoString) : Except GoError (List Version) :=
  match getTags c query with
  | .error err => .error err
  | .ok (tags, first) =>
    match (readVersions c.env c.opts c.parse tags first).result with
    | .error err => .error err
    | .ok versions => .ok versions

/-- The method `GetVersionChangeLog`. -/
def GetVersionChangeLog (c : ChangeLogger) (query : GoString) : Except GoError Version :=
  match GetChangeLog c query with
  | .error err => .error err
  | .ok v =>
    match v with
    | [] => .error (ascii "Version " ++ query ++ ascii " not found")
    | v0 :: _ => .ok v0

/-- A logger for examples: the given result of `ReadAll`, a selector that
fails with "not found" and a parser that finds one commit for every range. -/
def sampleLogger (readAll : Except GoError (List Tag)) : ChangeLogger where
  env := sampleEnv
  opts := defaultOptions
  readAll := readAll
  select := fun _ _ => .error (ascii "not found")
  parse := fun _ => .ok [plainCommit (ascii "a (fix)")]

/-- A logger for examples whose parser succeeds on the range "v1..v2" and
fails on every other range. -/
def failingLogger : ChangeLogger where
  env := sampleEnv
  opts := defaultOptions
  readAll := .ok [plainTag (ascii "v2"), plainTag (ascii "v1")]
  select := fun tags _ => .ok (tags, [])
  parse := fun rev => if rev = ascii "v1..v2" then .ok [] else .error (ascii "bad revision")

/-! ## tag_reader.go: reading the tags -/

/-- The library functions the tag reader calls: `sort.Slice`, `time.Parse`
with the layout "Mon Jan 2 15:04:05 2006 -0700", and `strings.TrimSpace`. -/
structure TagEnv where
  sortSlice : SortSlice
  timeParse : GoString → Except GoError Time
  trimSpace : GoString → GoString

/-- The type `tagReader`: `exec` is what `client.Exec("for-each-ref", ...)`
returns (the output text, or an error), `reFilter` is nil (`none`) or the
`MatchString` of the compiled pattern. -/
structure tagReader where
  exec : Except GoError GoString
  separator : GoString
  reFilter : Option (GoString → Bool)

/-- The function `newTagReader`; `matchString` is `MatchString` of
`regexp.MustCompile(filterPattern)`. -/
def newTagReader (exec : Except GoError GoString) (matchString : GoString → Bool) :
    tagReader where
  exec := exec
  separator := ascii "@@__CHGLOG__@@"
  reFilter := some matchString

/-- Go's `strings.Replace(s, old, new, 1)` for an `old` that is not empty:
the first occurrence of `old` is replaced. -/
def replaceFirst (old new : GoString) : GoString → GoString
  | [] => []
  | c :: rest =>
    if old.isPrefixOf (c :: rest) then new ++ (c :: rest).drop old.length
    else c :: replaceFirst old new rest

/-- The method `parseRefname`. -/
def parseRefname (input : GoString) : GoString :=
  replaceFirst (ascii "refs/tags/") [] input

/-- The method `parseSubject`. -/
def parseSubject (env : TagEnv) (input : GoString) : GoString := env.trimSpace input

/-- The method `parseDate`. -/
def parseDate (env : TagEnv) (input : GoString) : Except GoError Time := env.timeParse input

/-- The body of the loop of `ReadAll` on one line: an error ends `ReadAll`,
`none` is a `continue` and a tag is appended. -/
def readAllLine (env : TagEnv) (r : tagReader) (line : GoString) :
    Except GoError (Option Tag) :=
  match goSplit line r.separator with
  | [t0, t1, t2, t3] =>
    let name := parseRefname t0
    let subject := parseSubject env t1
    match (match parseDate env t2 with
           | .ok date => Except.ok date
           | .error _ => parseDate env t3) with
    | .error err2 => .error err2
    | .ok date =>
      if (match r.reFilter with
          | some matchString => !(matchString name)
          | none => false) then .ok none
      else .ok (some ⟨name, subject, date, none, none⟩)
  | _ => .ok none

/-- The loop of `ReadAll` over the lines. -/
def readAllLoop (env : TagEnv) (r : tagReader) :
    List GoString → List Tag → Except GoError (List Tag)
  | [], tags => .ok tags
  | line :: rest, tags =>
    match readAllLine env r line with
    | .error err => .error err
    | .ok none => readAllLoop env r rest tags
    | .ok (some tag) => readAllLoop env r rest (tags ++ [tag])

/-- The method `ReadAll`: the tags or the error; `none` is a run-time panic
of an index out of range in `assignPreviousAndNextTag`. -/
def ReadAll (env : TagEnv) (r : tagReader) : Option (Except GoError (List Tag)) :=
  match r.exec with
  | .error err => some (.error (ascii "failed to get git-tag: " ++ err))
  | .ok out =>
    match readAllLoop env r (goSplit out [10]) [] with
    | .error err => some (.error err)
    | .ok tags => (assignPreviousAndNextTag (sortTags env.sortSlice tags)).map .ok

/-- The date of a line in the words of the specification: the parsed tagger
date when it parses, otherwise the parsed author date, and none when both
fail to parse. -/
def lineDate (env : TagEnv) (tagger author : GoString) : Option Time :=
  match env.timeParse tagger with
  | .ok t => some t
  | .error _ =>
    match env.timeParse author with
    | .ok t => some t
    | .error _ => none

/-- The tag of a line in the words of the specification: a line of exactly
four fields stands for the tag named by the first field without
"refs/tags/", with the trimmed second field as subject and the date of the
line; any other line stands for none. -/
def lineTag (env : TagEnv) (sep line : GoString) : Option RelateTag :=
  match goSplit line sep with
  | [a, b, c, d] => (lineDate env c d).map (fun t => ⟨parseRefname a, env.trimSpace b, t⟩)
  | _ => none

/-- Whether the filter of the reader lets a name through. -/
def accepts (r : tagReader) (name : GoString) : Bool :=
  match r.reFilter with
  | some matchString => matchString name
  | none => true

/-- A tag with the three fields of `t` and no neighbours. -/
def tagOf (t : RelateTag) : Tag := ⟨t.Name, t.Subject, t.Date, none, none⟩

/-- Whether a byte is one of the ASCII white space characters. -/
def isSpaceByte (c : Nat) : Bool := c = 32 || (9 ≤ c && c ≤ 13)

/-- The function `strings.TrimSpace` on ASCII text. -/
def asciiTrimSpace (s : GoString) : GoString :=
  ((s.dropWhile isSpaceByte).reverse.dropWhile isSpaceByte).reverse

/-- Library functions for examples: insertion sort, a `time.Parse` that
knows one date and ASCII trimming. -/
def sampleTagEnv : TagEnv where
  sortSlice := insertionSortSlice
  timeParse := fun s =>
    if s = ascii "Mon Jan 1 00:00:00 2024 +0000" then .ok ⟨1704067200⟩
    else .error (ascii "parsing time")
  trimSpace := asciiTrimSpace

/-- An output of two tag lines, the first without tagger date, followed by
an empty line. -/
def sampleOutput : GoString :=
  ascii "refs/tags/v1@@__CHGLOG__@@ first @@__CHGLOG__@@@@__CHGLOG__@@Mon Jan 1 00:00:00 2024 +0000\nrefs/tags/v2@@__CHGLOG__@@second@@__CHGLOG__@@Mon Jan 1 00:00:00 2024 +0000@@__CHGLOG__@@\n"

/-! # Theorems -/

theorem byteAt_natCast (vo : List Nat) (n : Nat) :
    byteAt vo (n : Int) =
      match vo.get? n with
      | some x => .ok x
      | none => .error .indexOutOfRange := by
  have h : ¬ ((n : Int) < 0) := by omega
  simp only [byteAt, h, if_false, Int.toNat_ofNat]

theorem byteAt_natCast_succ (vo : List Nat) (n : Nat) :
    byteAt vo ((n : Int) + 1) =
      match vo.get? (n + 1) with
      | some x => .ok x
      | none => .error .indexOutOfRange := by
  have h : (n : Int) + 1 = ((n + 1 : Nat) : Int) := by omega
  rw [h, byteAt_natCast]

theorem setByte_natCast (vo : List Nat) (n x : Nat) (h : n < vo.length) :
    setByte vo (n : Int) x = .ok (vo.set n x) := by
  have h0 : ¬ ((n : Int) < 0) := by omega
  simp only [setByte, h0, if_false, Int.toNat_ofNat, h, if_true]

theorem setByte_natCast_succ (vo : List Nat) (n x : Nat) (h : n + 1 < vo.length) :
    setByte vo ((n : Int) + 1) x = .ok (vo.set (n + 1) x) := by
  have h0 : (n : Int) + 1 = ((n + 1 : Nat) : Int) := by omega
  rw [h0, setByte_natCast _ _ _ h]

theorem get?_append_length (pre : List Nat) (x : Nat) (xs : List Nat) :
    (pre ++ x :: xs).get? pre.length = some x := by
  rw [List.get?_eq_getElem?, List.getElem?_append_right (le_refl _)]; simp

theorem get?_append_length_succ (pre : List Nat) (x y : Nat) (xs : List Nat) :
    (pre ++ x :: y :: xs).get? (pre.length + 1) = some y := by
  rw [List.get?_eq_getElem?, List.getElem?_append_right (by omega)]; simp

theorem set_append_length (pre : List Nat) (x v : Nat) (xs : List Nat) :
    (pre ++ x :: xs).set pre.length v = pre ++ v :: xs := by
  rw [List.set_append_right _ _ (le_refl _)]; simp

theorem set_append_length_succ (pre : List Nat) (x y v : Nat) (xs : List Nat) :
    (pre ++ x :: y :: xs).set (pre.length + 1) v = pre ++ x :: v :: xs := by
  rw [List.set_append_right _ _ (by omega)]; simp

theorem voStep_nondigit (st : VOState) (b : Nat) (hb : 48 > b ∨ b > 57) :
    voStep st b = .ok ⟨st.vo ++ [b], -1⟩ := by
  simp only [voStep, hb, if_true]

theorem voStep_fresh (vo : List Nat) (b : Nat) (hb : ¬ (48 > b ∨ b > 57)) :
    voStep ⟨vo, -1⟩ b = .ok ⟨vo ++ [1, b], (vo.length : Int)⟩ := by
  have hlen : (((vo ++ [0]).length : Int) - 1) = (vo.length : Int) := by simp
  have e1 : byteAt (vo ++ [0]) (vo.length : Int) = .ok 0 := by
    rw [byteAt_natCast, get?_append_length]
  have e2 : byteAt (vo ++ [0] ++ [b]) (vo.length : Int) = .ok 0 := by
    rw [byteAt_natCast, List.append_assoc, List.singleton_append, get?_append_length]
  have e3 : setByte (vo ++ [0] ++ [b]) (vo.length : Int) ((0 + 1) % 256)
      = .ok (vo ++ [1, b]) := by
    rw [setByte_natCast _ _ _ (by simp), List.append_assoc, List.singleton_append,
      set_append_length]
  have hlt : ¬ ((0 + 1) % 256 > maxByte) := by decide
  simp only [voStep, hb, if_false, if_true, hlen, e1]
  simp only [Nat.zero_ne_one, if_false, hlt, e2, e3]

theorem voStep_zero (pre ds : List Nat) (b : Nat) (hb : ¬ (48 > b ∨ b > 57)) :
    voStep ⟨pre ++ 1 :: 48 :: ds, (pre.length : Int)⟩ b
      = .ok ⟨pre ++ 1 :: b :: ds, (pre.length : Int)⟩ := by
  have hj : ¬ ((pre.length : Int) = -1) := by omega
  have e1 : byteAt (pre ++ 1 :: 48 :: ds) (pre.length : Int) = .ok 1 := by
    rw [byteAt_natCast, get?_append_length]
  have e2 : byteAt (pre ++ 1 :: 48 :: ds) ((pre.length : Int) + 1) = .ok 48 := by
    rw [byteAt_natCast_succ, get?_append_length_succ]
  have e3 : setByte (pre ++ 1 :: 48 :: ds) ((pre.length : Int) + 1) b
      = .ok (pre ++ 1 :: b :: ds) := by
    rw [setByte_natCast_succ _ _ _ (by simp), set_append_length_succ]
  simp only [voStep, hb, if_false, hj, e1]
  simp only [if_true, e2, decide_True, e3]

theorem voStep_grow (pre ds : List Nat) (k d b : Nat) (hb : ¬ (48 > b ∨ b > 57))
    (hkd : ¬ (k = 1 ∧ d = 48)) :
    voStep ⟨pre ++ k :: d :: ds, (pre.length : Int)⟩ b
      = .ok ⟨pre ++ ((k + 1) % 256) :: d :: (ds ++ [b]), (pre.length : Int)⟩ := by
  have hj : ¬ ((pre.length : Int) = -1) := by omega
  have e1 : byteAt (pre ++ k :: d :: ds) (pre.length : Int) = .ok k := by
    rw [byteAt_natCast, get?_append_length]
  have e2 : byteAt (pre ++ k :: d :: ds) ((pre.length : Int) + 1) = .ok d := by
    rw [byteAt_natCast_succ, get?_append_length_succ]
  have e4 : byteAt (pre ++ k :: d :: ds ++ [b]) (pre.length : Int) = .ok k := by
    rw [byteAt_natCast, List.append_assoc, List.cons_append, get?_append_length]
  have e5 : setByte (pre ++ k :: d :: ds ++ [b]) (pre.length : Int) ((k + 1) % 256)
      = .ok (pre ++ ((k + 1) % 256) :: d :: (ds ++ [b])) := by
    rw [setByte_natCast _ _ _ (by simp), List.append_assoc, List.cons_append,
      set_append_length]; rfl
  have hlt : ¬ ((k + 1) % 256 > maxByte) := by
    have : (k + 1) % 256 < 256 := Nat.mod_lt _ (by norm_num)
    have hm : maxByte = 255 := by decide
    omega
  simp only [voStep, hb, if_false, hj, e1]
  by_cases hk : k = 1
  · have hd : ¬ (d = 48) := fun h => hkd ⟨hk, h⟩
    subst hk
    simp only [if_true, e2, hd, decide_False, hlt, if_false, e4, e5]
  · simp only [hk, if_false, hlt, e4, e5]

/-- The abstract step is the concrete step: `voStep` never fails on a state
that stands for an abstract one, and lands on the abstract successor. -/
theorem voStep_conc (a : AbsState) (b : Nat) :
    voStep a.conc b = .ok (absStep a b).conc := by
  by_cases hb : 48 > b ∨ b > 57
  · rcases a with ⟨pre, _ | r⟩ <;>
      simp [voStep_nondigit _ _ hb, absStep, hb, AbsState.conc, AbsState.out]
  · rcases a with ⟨pre, _ | ⟨k, d, ds⟩⟩
    · have := voStep_fresh pre b hb
      simpa [absStep, hb, AbsState.conc, DigitRun.bytes] using this
    · by_cases hkd : k = 1 ∧ d = 48
      · obtain ⟨hk, hd⟩ := hkd
        subst hk; subst hd
        have := voStep_zero pre ds b hb
        simpa [absStep, hb, AbsState.conc, DigitRun.bytes] using this
      · have := voStep_grow pre ds k d b hb hkd
        simpa [absStep, hb, hkd, AbsState.conc, DigitRun.bytes] using this

/-- The abstract loop is the concrete loop. -/
theorem voRun_conc (version : GoString) (a : AbsState) :
    voRun a.conc version = .ok (absRun a version).conc := by
  induction version generalizing a with
  | nil => rfl
  | cons b bs ih =>
    simp only [voRun, List.foldlM_cons, voStep_conc, absRun, List.foldl_cons]
    exact ih (absStep a b)

/-- `VersionOrdinal` returns the final buffer of the abstract loop. -/
theorem VersionOrdinal_eq (version : GoString) :
    VersionOrdinal version = .ok (absRun ⟨[], none⟩ version).out := by
  have h := voRun_conc version ⟨[], none⟩
  have hc : (⟨[], none⟩ : AbsState).conc = ⟨[], -1⟩ := rfl
  rw [hc] at h
  simp only [VersionOrdinal, h]
  rcases absRun ⟨[], none⟩ version with ⟨pre, _ | r⟩ <;> rfl

/-! ### Facts about the abstract loop -/

theorem absRun_append (a : AbsState) (xs ys : GoString) :
    absRun a (xs ++ ys) = absRun (absRun a xs) ys := by
  simp [absRun, List.foldl_append]

theorem out_shift (front : List Nat) (a : AbsState) :
    (a.shift front).out = front ++ a.out := by
  rcases a with ⟨pre, _ | r⟩ <;> simp [AbsState.shift, AbsState.out]

theorem absStep_shift (front : List Nat) (a : AbsState) (b : Nat) :
    absStep (a.shift front) b = (absStep a b).shift front := by
  by_cases hb : 48 > b ∨ b > 57
  · simp only [absStep, hb, if_true, out_shift]
    simp [AbsState.shift]
  · rcases a with ⟨pre, _ | r⟩
    · simp [absStep, hb, AbsState.shift]
    · by_cases hr : r.count = 1 ∧ r.first = 48 <;>
        simp [absStep, hb, hr, AbsState.shift]

theorem absRun_shift (front : List Nat) (version : GoString) (a : AbsState) :
    absRun (a.shift front) version = (absRun a version).shift front := by
  induction version generalizing a with
  | nil => rfl
  | cons b bs ih =>
    simp only [absRun, List.foldl_cons, absStep_shift]
    exact ih (absStep a b)

theorem absRun_endsNonDigit (p : GoString) (hp : EndsNonDigit p) :
    (absRun ⟨[], none⟩ p).run = none := by
  rcases hp with rfl | ⟨q, c, rfl, hc⟩
  · rfl
  · rw [absRun_append]
    simp [absRun, absStep, hc]

theorem absRun_startsNonDigit (s : GoString) (hs : StartsNonDigit s) (a : AbsState) :
    (absRun a s).out = a.out ++ (absRun ⟨[], none⟩ s).out := by
  rcases hs with rfl | ⟨c, t, rfl, hc⟩
  · simp [absRun, AbsState.out]
  · have h1 : absRun a (c :: t) = (absRun ⟨[c], none⟩ t).shift a.out := by
      rw [← absRun_shift]
      simp [absRun, absStep, hc, AbsState.shift]
    have h2 : absRun ⟨[], none⟩ (c :: t) = absRun ⟨[c], none⟩ t := by
      simp [absRun, absStep, hc, AbsState.out]
    rw [h1, h2, out_shift]

theorem absRun_grow (pre : List Nat) (d : Nat) (hd : d ≠ 48) (ds2 : GoString) :
    ∀ (k : Nat) (ds : List Nat), AllDigits ds2 → k + ds2.length ≤ 255 →
      absRun ⟨pre, some ⟨k, d, ds⟩⟩ ds2 = ⟨pre, some ⟨k + ds2.length, d, ds ++ ds2⟩⟩ := by
  induction ds2 with
  | nil => intro k ds _ _; simp [absRun]
  | cons b bs ih =>
    intro k ds hall hlen
    have hb : ¬ (48 > b ∨ b > 57) := hall b (List.mem_cons_self _ _)
    have hall2 : AllDigits bs := fun x hx => hall x (List.mem_cons_of_mem _ hx)
    simp only [List.length_cons] at hlen
    have hmod : (k + 1) % 256 = k + 1 := Nat.mod_eq_of_lt (by omega)
    have hstep : absStep ⟨pre, some ⟨k, d, ds⟩⟩ b = ⟨pre, some ⟨k + 1, d, ds ++ [b]⟩⟩ := by
      simp [absStep, hb, hd, hmod]
    have := ih (k + 1) (ds ++ [b]) hall2 (by omega)
    simp only [absRun, List.foldl_cons, hstep] at this ⊢
    rw [this]
    simp [Nat.add_assoc, Nat.add_comm 1]

/-- A digit run without a leading zero (or the single digit zero), of at most
255 digits, read from a state with no run in progress, is stored behind its
length. -/
theorem absRun_numeral (pre : List Nat) (d : Nat) (rest : GoString)
    (hall : AllDigits (d :: rest)) (hlead : d ≠ 48 ∨ rest = [])
    (hlen : (d :: rest).length ≤ 255) :
    absRun ⟨pre, none⟩ (d :: rest) = ⟨pre, some ⟨(d :: rest).length, d, rest⟩⟩ := by
  have hd : ¬ (48 > d ∨ d > 57) := hall d (List.mem_cons_self _ _)
  have hstep : absStep ⟨pre, none⟩ d = ⟨pre, some ⟨1, d, []⟩⟩ := by
    simp [absStep, hd]
  rcases hlead with h | h
  · have hall2 : AllDigits rest := fun x hx => hall x (List.mem_cons_of_mem _ hx)
    simp only [List.length_cons] at hlen
    have := absRun_grow pre d h rest 1 [] hall2 (by omega)
    simp only [absRun, List.foldl_cons, hstep] at this ⊢
    rw [this]
    simp [Nat.add_comm]
  · subst h
    simp [absRun, hstep]

/-! ### Decimal numerals and byte-wise comparison -/

theorem dec_eq_map (m : Nat) : dec m = (decDigits m).map (fun d => d + 48) := by
  by_cases h : m = 0 <;> simp [dec, decDigits, h]

theorem decDigits_lt (m : Nat) : ∀ d ∈ decDigits m, d < 10 := by
  intro d hd
  by_cases h : m = 0
  · simp [decDigits, h] at hd; omega
  · simp only [decDigits, h, if_false, List.mem_reverse] at hd
    exact Nat.digits_lt_base (by norm_num) hd

theorem decDigits_ne_nil (m : Nat) : decDigits m ≠ [] := by
  by_cases h : m = 0
  · simp [decDigits, h]
  · simp [decDigits, h, Nat.digits_ne_nil_iff_ne_zero]

theorem beVal_decDigits (m : Nat) : beVal (decDigits m) = m := by
  by_cases h : m = 0
  · simp [beVal, decDigits, h]
  · simp [beVal, decDigits, h, Nat.ofDigits_digits]

theorem decDigits_head (m d : Nat) (rest : List Nat) (h : decDigits m = d :: rest) :
    d ≠ 0 ∨ rest = [] := by
  by_cases hm : m = 0
  · right
    simp [decDigits, hm] at h
    exact h.2
  · left
    simp only [decDigits, hm, if_false] at h
    have h2 : Nat.digits 10 m = rest.reverse ++ [d] := by
      have := congrArg List.reverse h
      simpa using this
    have h3 := Nat.getLast_digit_ne_zero 10 hm
    simp only [h2, List.getLast_append_singleton] at h3
    exact h3

theorem beVal_cons (a : Nat) (l : List Nat) :
    beVal (a :: l) = beVal l + 10 ^ l.length * a := by
  simp [beVal, Nat.ofDigits_append]

theorem beVal_lt (l : List Nat) (hl : ∀ d ∈ l, d < 10) : beVal l < 10 ^ l.length := by
  have := Nat.ofDigits_lt_base_pow_length (b := 10) (l := l.reverse) (by norm_num)
    (fun x hx => hl x (List.mem_reverse.mp hx))
  simpa [beVal] using this

theorem bytesLt_irrefl (a : GoString) : bytesLt a a = false := by
  induction a with
  | nil => rfl
  | cons x xs ih => simp [bytesLt, ih]

theorem bytesLt_append_left (front a b : GoString) :
    bytesLt (front ++ a) (front ++ b) = bytesLt a b := by
  induction front with
  | nil => rfl
  | cons x xs ih => simp [bytesLt, ih]

/-- Numerals of the same length, followed by the same text, compare byte-wise
as their values compare. -/
theorem bytesLt_digits (tail : GoString) :
    ∀ (l1 l2 : List Nat), l1.length = l2.length →
      (∀ d ∈ l1, d < 10) → (∀ d ∈ l2, d < 10) →
      (bytesLt (l1.map (fun d => d + 48) ++ tail) (l2.map (fun d => d + 48) ++ tail) = true
        ↔ beVal l1 < beVal l2) := by
  intro l1
  induction l1 with
  | nil =>
    intro l2 hlen _ _
    have : l2 = [] := List.length_eq_zero.mp hlen.symm
    subst this
    simp [bytesLt_irrefl, beVal]
  | cons a as ih =>
    intro l2 hlen h1 h2
    cases l2 with
    | nil => simp at hlen
    | cons b bs =>
      simp only [List.length_cons, Nat.add_right_cancel_iff] at hlen
      have ha : ∀ d ∈ as, d < 10 := fun d hd => h1 d (List.mem_cons_of_mem _ hd)
      have hb : ∀ d ∈ bs, d < 10 := fun d hd => h2 d (List.mem_cons_of_mem _ hd)
      have va := beVal_lt as ha
      have vb := beVal_lt bs hb
      rw [hlen] at va
      have hpos : 0 < 10 ^ bs.length := Nat.pos_pow_of_pos _ (by norm_num)
      simp only [List.map_cons, List.cons_append, bytesLt, beVal_cons, hlen]
      rcases Nat.lt_trichotomy a b with hab | hab | hab
      · have h48 : a + 48 < b + 48 := by omega
        simp only [h48, if_true, true_iff]
        have : 10 ^ bs.length * (a + 1) ≤ 10 ^ bs.length * b :=
          Nat.mul_le_mul_left _ hab
        have e : 10 ^ bs.length * (a + 1) = 10 ^ bs.length * a + 10 ^ bs.length := by ring
        omega
      · subst hab
        have h48 : ¬ (a + 48 < a + 48) := by omega
        simp only [h48, if_false, List.append_eq]
        rw [ih bs hlen ha hb]
        omega
      · have h48 : ¬ (a + 48 < b + 48) := by omega
        have h48b : b + 48 < a + 48 := by omega
        simp only [h48, h48b, if_false, if_true]
        have : 10 ^ bs.length * (b + 1) ≤ 10 ^ bs.length * a :=
          Nat.mul_le_mul_left _ hab
        have e : 10 ^ bs.length * (b + 1) = 10 ^ bs.length * b + 10 ^ bs.length := by ring
        constructor
        · intro h; cases h
        · intro h; omega

/-- A numeral with fewer digits has the smaller value. -/
theorem lt_of_decDigits_length_lt (m n : Nat)
    (h : (decDigits m).length < (decDigits n).length) : m < n := by
  have hm := beVal_lt (decDigits m) (decDigits_lt m)
  rw [beVal_decDigits] at hm
  rcases hn : decDigits n with _ | ⟨d, rest⟩
  · exact absurd hn (decDigits_ne_nil n)
  · have hv := beVal_decDigits n
    rw [hn, beVal_cons] at hv
    rw [hn, List.length_cons] at h
    have hrest : rest ≠ [] := by
      intro e
      have h0 := List.length_pos.mpr (decDigits_ne_nil m)
      rw [e, List.length_nil] at h
      omega
    have hd : d ≠ 0 := (decDigits_head n d rest hn).resolve_right hrest
    have h1 : 10 ^ (decDigits m).length ≤ 10 ^ rest.length :=
      Nat.pow_le_pow_right (by norm_num) (by omega)
    have h2 : 10 ^ rest.length * 1 ≤ 10 ^ rest.length * d :=
      Nat.mul_le_mul_left _ (by omega)
    omega

theorem dec_allDigits (m : Nat) : AllDigits (dec m) := by
  intro b hb
  rw [dec_eq_map] at hb
  obtain ⟨d, hd, rfl⟩ := List.mem_map.mp hb
  have := decDigits_lt m d hd
  omega

/-- The encoding of a text whose middle part is a decimal numeral standing on
its own: the numeral is stored behind its number of digits. -/
theorem VersionOrdinal_numeral (p s : GoString) (m : Nat)
    (hp : EndsNonDigit p) (hs : StartsNonDigit s) (hm : (dec m).length ≤ 255) :
    VersionOrdinal (p ++ dec m ++ s)
      = .ok ((absRun ⟨[], none⟩ p).out ++ ((dec m).length :: dec m
          ++ (absRun ⟨[], none⟩ s).out)) := by
  rw [VersionOrdinal_eq, absRun_append, absRun_append, absRun_startsNonDigit s hs]
  have hrun := absRun_endsNonDigit p hp
  have hP : absRun ⟨[], none⟩ p = ⟨(absRun ⟨[], none⟩ p).out, none⟩ := by
    rcases h : absRun ⟨[], none⟩ p with ⟨pre, r⟩
    rw [h] at hrun
    simp only at hrun
    subst hrun
    rfl
  have hall := dec_allDigits m
  have hmap := dec_eq_map m
  rcases hdd : decDigits m with _ | ⟨d, rest⟩
  · exact absurd hdd (decDigits_ne_nil m)
  · have hlead := decDigits_head m d rest hdd
    rw [hdd] at hmap
    simp only [List.map_cons] at hmap
    have hlead2 : d + 48 ≠ 48 ∨ rest.map (fun d => d + 48) = [] := by
      rcases hlead with h | h
      · left; omega
      · right; simp [h]
    rw [hmap] at hall hm ⊢
    rw [hP, absRun_numeral _ _ _ hall hlead2 hm]
    simp [AbsState.out, DigitRun.bytes]

/-- C1: for a text `p` that is empty or ends in a non-digit, a text `s` that
is empty or starts with a non-digit, and numbers `m`, `n` whose decimal
numerals have at most 255 digits, `VersionOrdinal` returns an encoding for
`p ++ dec m ++ s` and for `p ++ dec n ++ s`, and the first is byte-wise below
the second exactly when `m < n`.  The encodings of "v2.0" and "v1.9" are below
those of "v10.0" and "v1.10", although as plain strings "v10.0" is below "v2.0"
and "v1.10" is below "v1.9". -/
theorem versionOrdinal_numeric_order (p s : GoString) (m n : Nat)
    (hp : EndsNonDigit p) (hs : StartsNonDigit s)
    (hm : (dec m).length ≤ 255) (hn : (dec n).length ≤ 255) :
    (∃ a b, VersionOrdinal (p ++ dec m ++ s) = .ok a ∧
        VersionOrdinal (p ++ dec n ++ s) = .ok b ∧
        (bytesLt a b = true ↔ m < n)) ∧
    (∃ a b, VersionOrdinal (ascii "v2.0") = .ok a ∧
        VersionOrdinal (ascii "v10.0") = .ok b ∧ bytesLt a b = true ∧
        bytesLt (ascii "v10.0") (ascii "v2.0") = true) ∧
    (∃ a b, VersionOrdinal (ascii "v1.9") = .ok a ∧
        VersionOrdinal (ascii "v1.10") = .ok b ∧ bytesLt a b = true ∧
        bytesLt (ascii "v1.10") (ascii "v1.9") = true) := by
  refine ⟨?_, ?_, ?_⟩
  · refine ⟨_, _, VersionOrdinal_numeral p s m hp hs hm,
      VersionOrdinal_numeral p s n hp hs hn, ?_⟩
    rw [bytesLt_append_left]
    simp only [List.cons_append, bytesLt]
    rcases Nat.lt_trichotomy (dec m).length (dec n).length with h | h | h
    · simp only [h, if_true, true_iff]
      apply lt_of_decDigits_length_lt
      simpa [dec_eq_map] using h
    · have hnlt : ¬ ((dec n).length < (dec n).length) := by omega
      simp only [h, hnlt, if_false, List.append_eq]
      have hl : (decDigits m).length = (decDigits n).length := by
        simpa [dec_eq_map] using h
      have := bytesLt_digits (absRun ⟨[], none⟩ s).out (decDigits m) (decDigits n) hl
        (decDigits_lt m) (decDigits_lt n)
      rw [beVal_decDigits, beVal_decDigits, ← dec_eq_map, ← dec_eq_map] at this
      exact this
    · have hnlt : ¬ ((dec m).length < (dec n).length) := by omega
      simp only [h, hnlt, if_false, if_true]
      have : n < m := by
        apply lt_of_decDigits_length_lt
        simpa [dec_eq_map] using h
      constructor
      · intro hf; cases hf
      · intro hf; omega
  · exact ⟨_, _, rfl, rfl, by decide, by decide⟩
  · exact ⟨_, _, rfl, rfl, by decide, by decide⟩

/-- Witness for C1 at `p = "v"`, `m = 2`, `n = 10`, `s = ".0"`. -/
theorem versionOrdinal_numeric_order_witness :
    ∃ a b, VersionOrdinal (ascii "v" ++ dec 2 ++ ascii ".0") = .ok a ∧
      VersionOrdinal (ascii "v" ++ dec 10 ++ ascii ".0") = .ok b ∧
      (bytesLt a b = true ↔ 2 < 10) :=
  (versionOrdinal_numeric_order (ascii "v") (ascii ".0") 2 10
    (Or.inr ⟨[], 118, by decide, by decide⟩)
    (Or.inr ⟨46, [48], by decide, by decide⟩)
    (by simp [dec]) (by simp [dec])).1

theorem insertionSortSlice_lawful : SortSliceLawful insertionSortSlice where
  perm := fun _ less xs => List.perm_insertionSort (fun a b => less b a = false) xs
  sorted := by
    intro α less xs h
    haveI : IsTotal α (fun a b => less b a = false) := ⟨by
      intro a b
      by_cases hba : less b a = true
      · right
        by_contra hab
        have hab2 : less a b = true := by simpa using hab
        have := h.trans a b a hab2 hba
        rw [h.irrefl] at this
        cases this
      · left; simpa using hba⟩
    haveI : IsTrans α (fun a b => less b a = false) := ⟨by
      intro a b c hab hbc
      exact h.incomp_trans c b a hbc hab⟩
    exact List.sorted_insertionSort (fun a b => less b a = false) xs

/-! ### sortTags -/

theorem bytesLt_asymm (a : GoString) : ∀ b, bytesLt a b = true → bytesLt b a = false := by
  induction a with
  | nil => intro b _; cases b <;> rfl
  | cons x xs ih =>
    intro b h
    cases b with
    | nil => simp [bytesLt] at h
    | cons y ys =>
      simp only [bytesLt] at h ⊢
      rcases Nat.lt_trichotomy x y with hxy | hxy | hxy
      · have : ¬ (y < x) := by omega
        simp [this, hxy]
      · subst hxy
        simp only [Nat.lt_irrefl, if_false] at h ⊢
        exact ih ys h
      · have : ¬ (x < y) := by omega
        simp [this, hxy] at h

theorem bytesLt_trans (a : GoString) :
    ∀ b c, bytesLt a b = true → bytesLt b c = true → bytesLt a c = true := by
  induction a with
  | nil =>
    intro b c h1 h2
    cases b with
    | nil => simp [bytesLt] at h1
    | cons y ys =>
      cases c with
      | nil => simp [bytesLt] at h2
      | cons z zs => rfl
  | cons x xs ih =>
    intro b c h1 h2
    cases b with
    | nil => simp [bytesLt] at h1
    | cons y ys =>
      cases c with
      | nil => simp [bytesLt] at h2
      | cons z zs =>
        simp only [bytesLt] at h1 h2 ⊢
        by_cases hxy : x < y
        · by_cases hyz : y < z
          · have : x < z := by omega
            simp [this]
          · by_cases hzy : z < y
            · simp [hyz, hzy] at h2
            · have : x < z := by omega
              simp [this]
        · by_cases hyx : y < x
          · simp [hxy, hyx] at h1
          · have hxy2 : x = y := by omega
            subst hxy2
            simp only [Nat.lt_irrefl, if_false] at h1
            by_cases hxz : x < z
            · simp [hxz]
            · by_cases hzx : z < x
              · simp [hxz, hzx] at h2
              · simp only [hxz, hzx, if_false] at h2 ⊢
                exact ih ys zs h1 h2

theorem bytesLt_connex (a : GoString) :
    ∀ b, a ≠ b → bytesLt a b = true ∨ bytesLt b a = true := by
  induction a with
  | nil =>
    intro b h
    cases b with
    | nil => exact absurd rfl h
    | cons y ys => left; rfl
  | cons x xs ih =>
    intro b h
    cases b with
    | nil => right; rfl
    | cons y ys =>
      simp only [bytesLt]
      rcases Nat.lt_trichotomy x y with hxy | hxy | hxy
      · left; simp [hxy]
      · subst hxy
        have hne : xs ≠ ys := fun e => h (by rw [e])
        simpa using ih ys hne
      · right; simp [hxy]

theorem ordinalGt_eq (x y : GoString) :
    ordinalGt x y = bytesLt (absEncode y) (absEncode x) := by
  simp [ordinalGt, VersionOrdinal_eq, absEncode]

theorem tagLess_strictWeakOrder : StrictWeakOrder tagLess where
  irrefl := fun a => by simp [tagLess, ordinalGt_eq, bytesLt_irrefl]
  trans := fun a b c h1 h2 => by
    simp only [tagLess, ordinalGt_eq] at h1 h2 ⊢
    exact bytesLt_trans _ _ _ h2 h1
  incomp_trans := fun a b c h1 h2 => by
    simp only [tagLess, ordinalGt_eq] at h1 h2 ⊢
    by_contra h3
    have h3 : bytesLt (absEncode c.Name) (absEncode a.Name) = true := by simpa using h3
    by_cases e : absEncode c.Name = absEncode b.Name
    · rw [e] at h3; rw [h3] at h1; cases h1
    · rcases bytesLt_connex _ _ e with h | h
      · rw [h] at h2; cases h2
      · have := bytesLt_trans _ _ _ h h3
        rw [this] at h1; cases h1

theorem ordinalGe_of_tagLess (a b : Tag) (h : tagLess b a = false) : OrdinalGe a b := by
  refine ⟨_, _, VersionOrdinal_eq a.Name, VersionOrdinal_eq b.Name, ?_⟩
  simpa [tagLess, ordinalGt_eq] using h

theorem ordinalGt_of_tagLess (a b : Tag) (h : tagLess b a = false)
    (hne : VersionOrdinal a.Name ≠ VersionOrdinal b.Name) : OrdinalGt a b := by
  refine ⟨_, _, VersionOrdinal_eq a.Name, VersionOrdinal_eq b.Name, ?_⟩
  have h1 : bytesLt (absEncode a.Name) (absEncode b.Name) = false := by
    simpa [tagLess, ordinalGt_eq] using h
  have hne2 : absEncode a.Name ≠ absEncode b.Name := by
    intro e
    apply hne
    rw [VersionOrdinal_eq, VersionOrdinal_eq]
    exact congrArg Except.ok e
  rcases bytesLt_connex _ _ hne2 with h2 | h2
  · rw [h2] at h1; cases h1
  · exact h2

theorem ordinalGt_asymm (x y : GoString) (h1 : ordinalGt x y = true)
    (h2 : ordinalGt y x = true) : x = y := by
  rw [ordinalGt_eq] at h1 h2
  have := bytesLt_asymm _ _ h1
  rw [h2] at this
  cases this

/-- C2 (amended): for a `sort.Slice` that keeps the library's promise,
`sortTags` leaves a permutation of the input in which no tag's ordinal is
below that of the tag after it; the order is strictly descending when the
ordinals of the names are pairwise distinct.  Tags named v1.0.0, v1.2.0 and
v1.10.0, in any input order, come out as v1.10.0, v1.2.0, v1.0.0. -/
theorem sortTags_descending (sortSlice : SortSlice) (hs : SortSliceLawful sortSlice)
    (tags : List Tag) :
    (sortTags sortSlice tags).Perm tags ∧
    List.Chain' OrdinalGe (sortTags sortSlice tags) ∧
    ((tags.map (fun t => VersionOrdinal t.Name)).Nodup →
      List.Chain' OrdinalGt (sortTags sortSlice tags)) ∧
    (∀ ts : List Tag,
      (ts.map Tag.Name).Perm [ascii "v1.0.0", ascii "v1.2.0", ascii "v1.10.0"] →
      (sortTags sortSlice ts).map Tag.Name
        = [ascii "v1.10.0", ascii "v1.2.0", ascii "v1.0.0"]) := by
  have hperm : ∀ l, (sortTags sortSlice l).Perm l := fun l => hs.perm Tag tagLess l
  have hsorted : ∀ l, (sortTags sortSlice l).Pairwise (fun a b => tagLess b a = false) :=
    fun l => hs.sorted Tag tagLess l tagLess_strictWeakOrder
  have hstrict : ∀ l : List Tag, (l.map (fun t => VersionOrdinal t.Name)).Nodup →
      (sortTags sortSlice l).Pairwise
        (fun a b => tagLess b a = false ∧ VersionOrdinal a.Name ≠ VersionOrdinal b.Name) := by
    intro l hnd
    have hnd2 : ((sortTags sortSlice l).map (fun t => VersionOrdinal t.Name)).Nodup :=
      (((hperm l).map _).nodup_iff).mpr hnd
    have hp2 : (sortTags sortSlice l).Pairwise
        (fun a b => VersionOrdinal a.Name ≠ VersionOrdinal b.Name) := by
      simpa [List.Nodup, List.pairwise_map] using hnd2
    exact (hsorted l).and hp2
  refine ⟨hperm tags, ?_, ?_, ?_⟩
  · exact ((hsorted tags).imp (fun {a b} h => ordinalGe_of_tagLess a b h)).chain'
  · intro hnd
    exact ((hstrict tags hnd).imp (fun {a b} h => ordinalGt_of_tagLess a b h.1 h.2)).chain'
  · intro ts hts
    have hnames : ((sortTags sortSlice ts).map Tag.Name).Perm
        [ascii "v1.10.0", ascii "v1.2.0", ascii "v1.0.0"] :=
      (((hperm ts).map Tag.Name).trans hts).trans (by decide)
    have hnd : (ts.map (fun t => VersionOrdinal t.Name)).Nodup := by
      have h1 : (ts.map (fun t => VersionOrdinal t.Name))
          = (ts.map Tag.Name).map VersionOrdinal := by simp
      rw [h1]
      refine ((hts.map VersionOrdinal).nodup_iff).mpr ?_
      decide
    have hsort : ((sortTags sortSlice ts).map Tag.Name).Pairwise
        (fun x y => ordinalGt x y = true) := by
      rw [List.pairwise_map]
      refine (hstrict ts hnd).imp ?_
      intro a b h
      obtain ⟨x, y, hx, hy, hlt⟩ := ordinalGt_of_tagLess a b h.1 h.2
      simp [ordinalGt, hx, hy, hlt]
    haveI : IsAntisymm GoString (fun x y => ordinalGt x y = true) :=
      ⟨fun x y h1 h2 => ordinalGt_asymm x y h1 h2⟩
    exact List.eq_of_perm_of_sorted hnames hsort (by decide)

/-- Witness for C2 with the insertion sort and the tags v1.2.0, v1.10.0. -/
theorem sortTags_descending_witness :
    (sortTags insertionSortSlice
        [⟨ascii "v1.2.0", [], ⟨0⟩, none, none⟩, ⟨ascii "v1.10.0", [], ⟨1⟩, none, none⟩]).Perm
      [⟨ascii "v1.2.0", [], ⟨0⟩, none, none⟩, ⟨ascii "v1.10.0", [], ⟨1⟩, none, none⟩] ∧
    List.Chain' OrdinalGe (sortTags insertionSortSlice
        [⟨ascii "v1.2.0", [], ⟨0⟩, none, none⟩, ⟨ascii "v1.10.0", [], ⟨1⟩, none, none⟩]) :=
  ⟨(sortTags_descending insertionSortSlice insertionSortSlice_lawful _).1,
   (sortTags_descending insertionSortSlice insertionSortSlice_lawful _).2.1⟩

/-- C2 as stated fails: the names "v01" and "v1" are distinct and have the
same ordinal, so no arrangement of the two tags, whatever `sort.Slice` does,
is strictly descending. -/
theorem sortTags_not_strict :
    ([tagV01, tagV1].map Tag.Name).Nodup ∧
    VersionOrdinal tagV01.Name = VersionOrdinal tagV1.Name ∧
    sortTags insertionSortSlice [tagV01, tagV1] = [tagV01, tagV1] ∧
    ¬ List.Chain' OrdinalGt (sortTags insertionSortSlice [tagV01, tagV1]) ∧
    (∀ sortSlice : SortSlice, ¬ ((sortTags sortSlice [tagV01, tagV1]).Perm [tagV01, tagV1] ∧
      List.Chain' OrdinalGt (sortTags sortSlice [tagV01, tagV1]))) := by
  have key : ∀ out : List Tag, out.Perm [tagV01, tagV1] → ¬ List.Chain' OrdinalGt out := by
    intro out hp hc
    have hmem : ∀ t ∈ out, VersionOrdinal t.Name = .ok [118, 1, 49] := by
      intro t ht
      have := hp.subset ht
      simp only [List.mem_cons, List.mem_singleton, List.not_mem_nil, or_false] at this
      rcases this with rfl | rfl <;> rfl
    have hlen := hp.length_eq
    match out, hlen, hc, hmem with
    | [a, b], _, hc, hmem =>
      have hab : OrdinalGt a b := by simpa using hc
      obtain ⟨x, y, hx, hy, hlt⟩ := hab
      rw [hmem a (by simp)] at hx
      rw [hmem b (by simp)] at hy
      cases hx; cases hy
      rw [bytesLt_irrefl] at hlt
      cases hlt
  refine ⟨by decide, rfl, by decide, ?_, ?_⟩
  · exact key _ (insertionSortSlice_lawful.perm _ _ _)
  · intro sortSlice h
    exact key _ h.1 h.2

/-! ### assignPreviousAndNextTag -/

theorem assignAt_spec (cur : List Tag) (i : Nat) (hi : i < cur.length) :
    ∃ t, cur[i]? = some t ∧
      assignAt cur i = some (cur.set i
        { t with
          Next := if i > 0 then (cur[i - 1]?).map relateTag else none
          Previous := if i + 1 < cur.length then (cur[i + 1]?).map relateTag else none }) := by
  refine ⟨cur[i], List.getElem?_eq_getElem hi, ?_⟩
  have h0 : cur[i]? = some cur[i] := List.getElem?_eq_getElem hi
  by_cases hpos : i > 0
  · have h1 : cur[i - 1]? = some cur[i - 1] := List.getElem?_eq_getElem (by omega)
    by_cases hlast : i + 1 < cur.length
    · have h2 : cur[i + 1]? = some cur[i + 1] := List.getElem?_eq_getElem hlast
      simp [assignAt, h0, h1, h2, hpos, hlast]
    · simp [assignAt, h0, h1, hpos, hlast]
  · by_cases hlast : i + 1 < cur.length
    · have h2 : cur[i + 1]? = some cur[i + 1] := List.getElem?_eq_getElem hlast
      simp [assignAt, h0, h2, hpos, hlast]
    · simp [assignAt, h0, hpos, hlast]

theorem assign_prefix (tags : List Tag) (k : Nat) (hk : k ≤ tags.length) :
    ∃ cur, (List.range k).foldlM assignAt tags = some cur ∧
      cur.map relateTag = tags.map relateTag ∧
      ∀ i, i < k → ∃ t, cur[i]? = some t ∧
        t.Next = (if i > 0 then (tags[i - 1]?).map relateTag else none) ∧
        t.Previous = (if i + 1 < tags.length then (tags[i + 1]?).map relateTag else none) := by
  induction k with
  | zero => exact ⟨tags, rfl, rfl, fun i hi => absurd hi (Nat.not_lt_zero i)⟩
  | succ k ih =>
    obtain ⟨cur, hrun, hcore, hlinks⟩ := ih (by omega)
    have hlen : cur.length = tags.length := by
      have := congrArg List.length hcore
      simpa using this
    have hget : ∀ j : Nat, (cur[j]?).map relateTag = (tags[j]?).map relateTag := by
      intro j
      have := congrArg (fun l : List RelateTag => l[j]?) hcore
      simpa using this
    obtain ⟨t, ht, hstep⟩ := assignAt_spec cur k (by omega)
    refine ⟨cur.set k
        { t with
          Next := if k > 0 then (cur[k - 1]?).map relateTag else none
          Previous := if k + 1 < cur.length then (cur[k + 1]?).map relateTag else none },
      ?_, ?_, ?_⟩
    · rw [List.range_succ, List.foldlM_append, hrun]
      simp only [Option.bind_eq_bind, Option.some_bind, List.foldlM_cons, List.foldlM_nil, hstep]
      rfl
    · rw [← hcore]
      apply List.ext_getElem?
      intro j
      by_cases hj : j = k
      · subst hj
        simp [List.getElem?_set, hlen, ht, relateTag]
        omega
      · simp [List.getElem?_set, hj, Ne.symm hj]
    · intro i hi
      by_cases hik : i = k
      · subst hik
        have hk2 : i < cur.length := by omega
        exact ⟨_, List.getElem?_set_self hk2, by simp only [hget], by simp only [hget, hlen]⟩
      · obtain ⟨t', ht', hn, hp⟩ := hlinks i (by omega)
        refine ⟨t', ?_, hn, hp⟩
        simp [List.getElem?_set, Ne.symm hik, ht']

/-- C3: `assignPreviousAndNextTag` returns on every list of tags, without an
index out of range; afterwards the list has the same length, every tag has
its `Name`, `Subject` and `Date` unchanged at its place, `Next` is nil at
index `0` and otherwise the copy of `Name`, `Subject` and `Date` of the tag at
`i - 1`, and `Previous` is nil at the last index and otherwise the copy of
those of the tag at `i + 1`. -/
theorem assignPreviousAndNextTag_links (tags : List Tag) :
    ∃ out, assignPreviousAndNextTag tags = some out ∧ out.length = tags.length ∧
      ∀ i, i < tags.length → ∃ t t', tags[i]? = some t ∧ out[i]? = some t' ∧
        t'.Name = t.Name ∧ t'.Subject = t.Subject ∧ t'.Date = t.Date ∧
        (i = 0 → t'.Next = none) ∧
        (0 < i → ∃ p, tags[i - 1]? = some p ∧
          t'.Next = some ⟨p.Name, p.Subject, p.Date⟩) ∧
        (i + 1 = tags.length → t'.Previous = none) ∧
        (i + 1 < tags.length → ∃ q, tags[i + 1]? = some q ∧
          t'.Previous = some ⟨q.Name, q.Subject, q.Date⟩) := by
  obtain ⟨out, hrun, hcore, hlinks⟩ := assign_prefix tags tags.length (le_refl _)
  have hlen : out.length = tags.length := by
    have := congrArg List.length hcore
    simpa using this
  refine ⟨out, hrun, hlen, ?_⟩
  intro i hi
  obtain ⟨t', ht', hn, hp⟩ := hlinks i hi
  have ht : tags[i]? = some tags[i] := List.getElem?_eq_getElem hi
  have hc : (out[i]?).map relateTag = (tags[i]?).map relateTag := by
    have := congrArg (fun l : List RelateTag => l[i]?) hcore
    simpa using this
  rw [ht', ht] at hc
  simp only [Option.map_some', Option.some.injEq, relateTag, RelateTag.mk.injEq] at hc
  refine ⟨tags[i], t', ht, ht', hc.1, hc.2.1, hc.2.2, ?_, ?_, ?_, ?_⟩
  · intro h0
    simp [hn, h0]
  · intro hpos
    have h1 : tags[i - 1]? = some tags[i - 1] := List.getElem?_eq_getElem (by omega)
    refine ⟨tags[i - 1], h1, ?_⟩
    simp [hn, hpos, h1, relateTag]
  · intro hl
    have : ¬ (i + 1 < tags.length) := by omega
    simp [hp, this]
  · intro hl
    have h1 : tags[i + 1]? = some tags[i + 1] := List.getElem?_eq_getElem hl
    refine ⟨tags[i + 1], h1, ?_⟩
    simp [hp, hl, h1, relateTag]

/-! ### strings.LastIndex and the test of getTypeByCommit -/

theorem lastIndexLoop_cases (substr : GoString) (s : GoString) :
    ∀ (i : Nat) (best : Int),
      lastIndexLoop substr s i best = best ∨
      ∃ k, k ≤ s.length ∧ substr.isPrefixOf (s.drop k) = true ∧
        lastIndexLoop substr s i best = ((i + k : Nat) : Int) := by
  induction s with
  | nil =>
    intro i best
    by_cases h : substr.isPrefixOf [] = true
    · right
      exact ⟨0, le_refl _, by simpa using h, by simp [lastIndexLoop, h]⟩
    · left
      simp [lastIndexLoop, h]
  | cons c rest ih =>
    intro i best
    simp only [lastIndexLoop]
    rcases ih (i + 1) (if substr.isPrefixOf (c :: rest) = true then (i : Int) else best)
      with h | ⟨k, hk, hocc, hres⟩
    · by_cases hp : substr.isPrefixOf (c :: rest) = true
      · right
        refine ⟨0, Nat.zero_le _, by simpa using hp, ?_⟩
        rw [h]
        simp [hp]
      · left
        rw [h]
        simp [hp]
    · right
      refine ⟨k + 1, by simp; omega, by simpa using hocc, ?_⟩
      rw [hres]
      congr 1
      omega

theorem lastIndexLoop_ge (substr : GoString) (s : GoString) :
    ∀ (i : Nat) (best : Int) (k : Nat), k ≤ s.length →
      substr.isPrefixOf (s.drop k) = true →
      ((i + k : Nat) : Int) ≤ lastIndexLoop substr s i best := by
  induction s with
  | nil =>
    intro i best k hk hocc
    have hk0 : k = 0 := by simpa using hk
    subst hk0
    have h : substr.isPrefixOf [] = true := by simpa using hocc
    simp [lastIndexLoop, h]
  | cons c rest ih =>
    intro i best k hk hocc
    simp only [lastIndexLoop]
    cases k with
    | zero =>
      have hp : substr.isPrefixOf (c :: rest) = true := by simpa using hocc
      simp only [hp, if_true, Nat.add_zero]
      rcases lastIndexLoop_cases substr rest (i + 1) (i : Int) with h | ⟨k, _, _, h⟩
      · rw [h]
      · rw [h]
        have : i ≤ i + 1 + k := by omega
        exact_mod_cast this
    | succ k =>
      have := ih (i + 1) (if substr.isPrefixOf (c :: rest) = true then (i : Int) else best) k
        (by simpa using hk) (by simpa using hocc)
      have e : i + 1 + k = i + (k + 1) := by omega
      rw [e] at this
      exact this

/-- The test of `getTypeByCommit` passes exactly when the header contains
"(key)" at a position other than its start. -/
theorem keyMatches_iff (header key : GoString) :
    keyMatches header key = true ↔
      ∃ front back, front ≠ [] ∧ header = front ++ ([40] ++ key ++ [41]) ++ back := by
  simp only [keyMatches, decide_eq_true_eq, lastIndex]
  constructor
  · intro h
    rcases lastIndexLoop_cases ([40] ++ key ++ [41]) header 0 (-1) with h1 | ⟨k, hk, hocc, h1⟩
    · rw [h1] at h
      omega
    · rw [h1] at h
      have hkpos : 0 < k := by
        have : (0 : Int) < ((0 + k : Nat) : Int) := h
        omega
      obtain ⟨back, hback⟩ := List.isPrefixOf_iff_prefix.mp hocc
      refine ⟨header.take k, back, ?_, ?_⟩
      · intro e
        have hl := congrArg List.length e
        simp only [List.length_take, List.length_nil] at hl
        omega
      · rw [List.append_assoc, hback, List.take_append_drop]
  · rintro ⟨front, back, hne, rfl⟩
    have hocc : ([40] ++ key ++ [41]).isPrefixOf
        ((front ++ ([40] ++ key ++ [41]) ++ back).drop front.length) = true := by
      rw [List.isPrefixOf_iff_prefix]
      have e : front ++ ([40] ++ key ++ [41]) ++ back
          = front ++ (([40] ++ key ++ [41]) ++ back) := by
        simp only [List.append_assoc]
      rw [e, List.drop_left]
      exact List.prefix_append _ _
    have hlen : front.length ≤ (front ++ ([40] ++ key ++ [41]) ++ back).length := by
      simp only [List.length_append]
      omega
    have := lastIndexLoop_ge ([40] ++ key ++ [41]) _ 0 (-1) front.length hlen hocc
    have hpos : 0 < front.length := List.length_pos.mpr hne
    have h2 : (0 : Int) < ((0 + front.length : Nat) : Int) := by
      exact_mod_cast (by omega : 0 < 0 + front.length)
    omega

/-! ### getTypeByCommit and commitGroupTitle -/

theorem getTypeLoop_snd_false (header : GoString) (keys : List GoString)
    (h : (getTypeLoop header keys).2 = false) : getTypeLoop header keys = ([], false) := by
  induction keys with
  | nil => rfl
  | cons k rest ih =>
    by_cases hk : keyMatches header k = true
    · simp [getTypeLoop, hk] at h
    · simp only [getTypeLoop, hk] at h ⊢
      exact ih h

theorem getTypeLoop_mem (header : GoString) (keys : List GoString) (k : GoString)
    (h : getTypeLoop header keys = (k, true)) : k ∈ keys ∧ keyMatches header k = true := by
  induction keys with
  | nil => simp [getTypeLoop] at h
  | cons x rest ih =>
    by_cases hx : keyMatches header x = true
    · simp only [getTypeLoop, hx, if_true, Prod.mk.injEq, and_true] at h
      subst h
      exact ⟨List.mem_cons_self _ _, hx⟩
    · simp only [getTypeLoop, hx] at h
      exact ⟨List.mem_cons_of_mem _ (ih h).1, (ih h).2⟩

/-- The loop of `getTypeByCommit` stops at the first key that passes the
test: the keys before it fail the test. -/
theorem getTypeLoop_first (header : GoString) (keys : List GoString) (k : GoString)
    (h : getTypeLoop header keys = (k, true)) :
    ∃ before after, keys = before ++ k :: after ∧ keyMatches header k = true ∧
      ∀ x ∈ before, keyMatches header x = false := by
  induction keys with
  | nil => simp [getTypeLoop] at h
  | cons x rest ih =>
    by_cases hx : keyMatches header x = true
    · simp only [getTypeLoop, hx, if_true, Prod.mk.injEq, and_true] at h
      subst h
      exact ⟨[], rest, rfl, hx, fun _ hm => absurd hm (List.not_mem_nil _)⟩
    · simp only [getTypeLoop, hx] at h
      obtain ⟨before, after, hk, hm, hb⟩ := ih h
      refine ⟨x :: before, after, by rw [hk]; rfl, hm, ?_⟩
      intro y hy
      rcases List.mem_cons.mp hy with rfl | hy
      · simpa using hx
      · exact hb y hy

theorem goSplit_length_pos (s sep : GoString) : (goSplit s sep).length ≠ 0 := by
  have key : ∀ (s : GoString) (skip : Nat) (cur : GoString),
      (splitLoop sep skip cur s).length ≠ 0 := by
    intro s
    induction s with
    | nil => intro skip cur; cases skip <;> simp [splitLoop]
    | cons c rest ih =>
      intro skip cur
      cases skip with
      | zero =>
        by_cases hp : sep.isPrefixOf (c :: rest) = true
        · simp [splitLoop, hp]
        · simp only [splitLoop, hp]
          exact ih 0 (c :: cur)
      | succ n =>
        simp only [splitLoop]
        exact ih n cur
  exact key s 0 []

theorem getTypeByCommit_eq (commit : Commit) (prop : GoString) :
    getTypeByCommit commit prop = getTypeLoop commit.Header (goSplit prop [46]) := by
  have h := goSplit_length_pos prop [46]
  simp only [getTypeByCommit, h, if_false]

theorem getTypeByCommit_cases (commit : Commit) (prop : GoString) :
    (∃ k, getTypeByCommit commit prop = (k, true)) ∨
      getTypeByCommit commit prop = ([], false) := by
  rcases h : getTypeByCommit commit prop with ⟨k, b⟩
  cases b with
  | true => exact Or.inl ⟨k, rfl⟩
  | false =>
    right
    rw [getTypeByCommit_eq] at h
    have := getTypeLoop_snd_false commit.Header (goSplit prop [46]) (by rw [h])
    rw [← h, this]

theorem commitGroupTitle_fst (env : Env) (opts : Options) (commit : Commit) :
    (commitGroupTitle env opts commit).1 = (getTypeByCommit commit opts.CommitGroupBy).1 := by
  rcases getTypeByCommit_cases commit opts.CommitGroupBy with ⟨k, hk⟩ | hk
  · simp only [commitGroupTitle, hk]
    cases opts.CommitGroupTitleMaps.lookup k <;> rfl
  · simp [commitGroupTitle, hk]

theorem getTypeByCommit_of_raw_ne (env : Env) (opts : Options) (commit : Commit)
    (h : (commitGroupTitle env opts commit).1 ≠ []) :
    getTypeByCommit commit opts.CommitGroupBy = ((commitGroupTitle env opts commit).1, true) := by
  rw [commitGroupTitle_fst] at h ⊢
  rcases getTypeByCommit_cases commit opts.CommitGroupBy with ⟨k, hk⟩ | hk
  · rw [hk]
  · rw [hk] at h
    exact absurd rfl h

/-! ### processCommitGroups -/

theorem getElem?_append_length {α : Type} (l1 : List α) (x : α) (l2 : List α) :
    (l1 ++ x :: l2)[l1.length]? = some x := by
  rw [List.getElem?_append_right (le_refl _)]; simp

theorem set_append_length' {α : Type} (l1 : List α) (x y : α) (l2 : List α) :
    (l1 ++ x :: l2).set l1.length y = l1 ++ y :: l2 := by
  rw [List.set_append_right _ _ (le_refl _)]; simp

theorem findGroup_no_match (raw : GoString) (gs : List CommitGroup)
    (h : ∀ g ∈ gs, g.RawTitle ≠ raw) :
    ∀ (i : Nat) (group : Option Nat), findGroup raw gs i group = group := by
  induction gs with
  | nil => intro i group; rfl
  | cons g rest ih =>
    intro i group
    have hg : g.RawTitle ≠ raw := h g (List.mem_cons_self _ _)
    simp only [findGroup, hg, if_false]
    exact ih (fun x hx => h x (List.mem_cons_of_mem _ hx)) (i + 1) group

theorem findGroup_match (raw : GoString) (gs : List CommitGroup)
    (hnd : (gs.map CommitGroup.RawTitle).Nodup) (hex : ∃ g ∈ gs, g.RawTitle = raw) :
    ∀ (i : Nat) (group : Option Nat),
      ∃ l1 g l2, gs = l1 ++ g :: l2 ∧ g.RawTitle = raw ∧
        findGroup raw gs i group = some (i + l1.length) := by
  induction gs with
  | nil => obtain ⟨g, hg, _⟩ := hex; exact absurd hg (List.not_mem_nil _)
  | cons g rest ih =>
    intro i group
    simp only [List.map_cons, List.nodup_cons, List.mem_map, not_exists, not_and] at hnd
    by_cases hg : g.RawTitle = raw
    · have hrest : ∀ x ∈ rest, x.RawTitle ≠ raw := by
        intro x hx e
        exact hnd.1 x hx (e.trans hg.symm)
      refine ⟨[], g, rest, rfl, hg, ?_⟩
      simp only [findGroup, hg, if_true, List.length_nil, Nat.add_zero]
      exact findGroup_no_match raw rest hrest (i + 1) (some i)
    · have hex2 : ∃ x ∈ rest, x.RawTitle = raw := by
        obtain ⟨x, hx, hxr⟩ := hex
        rcases List.mem_cons.mp hx with rfl | hx
        · exact absurd hxr hg
        · exact ⟨x, hx, hxr⟩
      obtain ⟨l1, g2, l2, hsplit, hg2, hfind⟩ := ih hnd.2 hex2 (i + 1) group
      refine ⟨g :: l1, g2, l2, by rw [hsplit]; rfl, hg2, ?_⟩
      simp only [findGroup, hg, if_false, List.length_cons]
      rw [hfind]
      congr 1
      omega

/-- The three outcomes of `processCommitGroups` on groups with pairwise
distinct raw titles: the commit joins the one group of its raw title, or
opens a new group, or (empty raw title) is left out. -/
theorem processCommitGroups_cases (env : Env) (opts : Options) (groups : List CommitGroup)
    (commit : Commit) (hnd : (groups.map CommitGroup.RawTitle).Nodup) :
    (∃ l1 g l2, groups = l1 ++ g :: l2 ∧
        g.RawTitle = (commitGroupTitle env opts commit).1 ∧
        processCommitGroups env opts groups commit
          = l1 ++ { g with Commits := g.Commits ++ [commit] } :: l2) ∨
    ((∀ g ∈ groups, g.RawTitle ≠ (commitGroupTitle env opts commit).1) ∧
        (commitGroupTitle env opts commit).1 ≠ [] ∧
        processCommitGroups env opts groups commit
          = groups ++ [⟨(commitGroupTitle env opts commit).1,
              (commitGroupTitle env opts commit).2, [commit]⟩]) ∨
    ((∀ g ∈ groups, g.RawTitle ≠ (commitGroupTitle env opts commit).1) ∧
        (commitGroupTitle env opts commit).1 = [] ∧
        processCommitGroups env opts groups commit = groups) := by
  by_cases hex : ∃ g ∈ groups, g.RawTitle = (commitGroupTitle env opts commit).1
  · left
    obtain ⟨l1, g, l2, hsplit, hg, hfind⟩ := findGroup_match _ groups hnd hex 0 none
    refine ⟨l1, g, l2, hsplit, hg, ?_⟩
    simp only [Nat.zero_add] at hfind
    simp only [processCommitGroups, hfind]
    rw [hsplit, getElem?_append_length]
    simp only [set_append_length']
  · right
    have hno : ∀ g ∈ groups, g.RawTitle ≠ (commitGroupTitle env opts commit).1 := by
      intro g hg e
      exact hex ⟨g, hg, e⟩
    have hfind := findGroup_no_match _ groups hno 0 none
    by_cases hraw : (commitGroupTitle env opts commit).1 = []
    · right
      refine ⟨hno, hraw, ?_⟩
      simp only [processCommitGroups, hfind]
      simp [hraw]
    · left
      refine ⟨hno, hraw, ?_⟩
      simp only [processCommitGroups, hfind]
      simp [hraw]

theorem groupMembers_append (l1 l2 : List CommitGroup) :
    groupMembers (l1 ++ l2) = groupMembers l1 ++ groupMembers l2 := by
  induction l1 with
  | nil => rfl
  | cons g rest ih => simp [groupMembers, ih]

theorem mem_groupMembers (groups : List CommitGroup) (c : Commit) :
    c ∈ groupMembers groups ↔ ∃ g ∈ groups, c ∈ g.Commits := by
  induction groups with
  | nil => simp [groupMembers]
  | cons g rest ih => simp [groupMembers, ih]

theorem groupsInv_nil (opts : Options) : GroupsInv opts [] where
  nodup := List.nodup_nil
  key_ne := fun _ h => absurd h (List.not_mem_nil _)
  commits_ne := fun _ h => absurd h (List.not_mem_nil _)
  member := fun _ h => absurd h (List.not_mem_nil _)

/-- One call of `processCommitGroups` on a commit that is neither a merge nor
a revert commit keeps the invariant and adds the commit once to the members
when its raw title is not empty, and not at all otherwise. -/
theorem processCommitGroups_inv (env : Env) (opts : Options) (groups : List CommitGroup)
    (commit : Commit) (hinv : GroupsInv opts groups)
    (hm : commit.Merge = none) (hr : commit.Revert = none) :
    GroupsInv opts (processCommitGroups env opts groups commit) ∧
    (groupMembers (processCommitGroups env opts groups commit)).Perm
      (groupMembers groups ++ [commit].filter (groupable env opts)) := by
  rcases processCommitGroups_cases env opts groups commit hinv.nodup with
    ⟨l1, g, l2, hsplit, hg, hres⟩ | ⟨hno, hraw, hres⟩ | ⟨hno, hraw, hres⟩
  · have hgm : g ∈ groups := by rw [hsplit]; simp
    have hrawne : (commitGroupTitle env opts commit).1 ≠ [] := hg ▸ hinv.key_ne g hgm
    have hgroupable : groupable env opts commit = true := by
      simp [groupable, hm, hr, hrawne]
    have hmem : ∀ x, x ∈ l1 ++ { g with Commits := g.Commits ++ [commit] } :: l2 →
        (x ∈ groups ∨ x = { g with Commits := g.Commits ++ [commit] }) := by
      intro x hx
      rcases List.mem_append.mp hx with h | h
      · left; rw [hsplit]; exact List.mem_append_left _ h
      · rcases List.mem_cons.mp h with h | h
        · right; exact h
        · left; rw [hsplit]; exact List.mem_append_right _ (List.mem_cons_of_mem _ h)
    rw [hres]
    refine ⟨⟨?_, ?_, ?_, ?_⟩, ?_⟩
    · have := hinv.nodup
      rw [hsplit] at this
      simpa using this
    · intro x hx
      rcases hmem x hx with h | h
      · exact hinv.key_ne x h
      · rw [h]; exact hinv.key_ne g hgm
    · intro x hx
      rcases hmem x hx with h | h
      · exact hinv.commits_ne x h
      · rw [h]; simp
    · intro x hx c hc
      rcases hmem x hx with h | h
      · exact hinv.member x h c hc
      · rw [h] at hc ⊢
        rcases List.mem_append.mp hc with hc | hc
        · exact hinv.member g hgm c hc
        · have hc2 : c = commit := by simpa using hc
          subst hc2
          refine ⟨?_, hm, hr⟩
          have := getTypeByCommit_of_raw_ne env opts c hrawne
          rw [this, hg]
    · rw [hsplit]
      simp only [groupMembers_append, groupMembers, List.filter_cons, hgroupable, if_true,
        List.filter_nil, List.append_assoc]
      refine List.Perm.append_left _ ?_
      refine List.Perm.append_left _ ?_
      simpa using (@List.perm_append_comm Commit [commit] (groupMembers l2))
  · have hgroupable : groupable env opts commit = true := by
      simp [groupable, hm, hr, hraw]
    rw [hres]
    refine ⟨⟨?_, ?_, ?_, ?_⟩, ?_⟩
    · rw [List.map_append, List.nodup_append]
      refine ⟨hinv.nodup, by simp, ?_⟩
      intro a ha hb
      have hb2 : a = (commitGroupTitle env opts commit).1 := by simpa using hb
      obtain ⟨x, hx, hxa⟩ := List.mem_map.mp ha
      exact hno x hx (hxa.trans hb2)
    · intro x hx
      rcases List.mem_append.mp hx with h | h
      · exact hinv.key_ne x h
      · rw [List.mem_singleton.mp h]; exact hraw
    · intro x hx
      rcases List.mem_append.mp hx with h | h
      · exact hinv.commits_ne x h
      · rw [List.mem_singleton.mp h]; simp
    · intro x hx c hc
      rcases List.mem_append.mp hx with h | h
      · exact hinv.member x h c hc
      · have hx2 : x = ⟨(commitGroupTitle env opts commit).1,
            (commitGroupTitle env opts commit).2, [commit]⟩ := by simpa using h
        rw [hx2] at hc ⊢
        have hc2 : c = commit := by simpa using hc
        subst hc2
        exact ⟨getTypeByCommit_of_raw_ne env opts c hraw, hm, hr⟩
    · simp [groupMembers_append, groupMembers, hgroupable]
  · have hgroupable : groupable env opts commit = false := by
      simp [groupable, hraw]
    rw [hres]
    refine ⟨hinv, ?_⟩
    simp [hgroupable]

theorem groupable_false_of_merge (env : Env) (opts : Options) (c : Commit)
    (h : ¬ (c.Merge = none ∧ c.Revert = none)) : groupable env opts c = false := by
  simp only [groupable, decide_eq_false_iff_not]
  intro h2
  exact h ⟨h2.1, h2.2.1⟩

/-- The second loop of `Extract` keeps the invariant of the commit groups and
adds to the members exactly the groupable commits it passes. -/
theorem groupStep_fold (env : Env) (opts : Options) (l : List Commit) :
    ∀ (gs : List CommitGroup) (ns : List NoteGroup), GroupsInv opts gs →
      GroupsInv opts (l.foldl (groupStep env opts) (gs, ns)).1 ∧
      (groupMembers (l.foldl (groupStep env opts) (gs, ns)).1).Perm
        (groupMembers gs ++ l.filter (groupable env opts)) := by
  induction l with
  | nil => intro gs ns h; exact ⟨h, by simp⟩
  | cons c rest ih =>
    intro gs ns h
    simp only [List.foldl_cons]
    by_cases hc : c.Merge = none ∧ c.Revert = none
    · obtain ⟨hinv, hperm⟩ := processCommitGroups_inv env opts gs c h hc.1 hc.2
      have hstep : groupStep env opts (gs, ns) c
          = (processCommitGroups env opts gs c, processNoteGroups ns c) := by
        simp [groupStep, hc]
      rw [hstep]
      obtain ⟨hinv2, hperm2⟩ := ih _ (processNoteGroups ns c) hinv
      refine ⟨hinv2, hperm2.trans ?_⟩
      have h3 := hperm.append_right (rest.filter (groupable env opts))
      refine h3.trans ?_
      rw [List.append_assoc, ← List.filter_append]
      rfl
    · have hstep : groupStep env opts (gs, ns) c = (gs, processNoteGroups ns c) := by
        simp only [groupStep, hc, if_false]
      rw [hstep]
      obtain ⟨hinv2, hperm2⟩ := ih gs (processNoteGroups ns c) h
      refine ⟨hinv2, hperm2.trans ?_⟩
      simp [List.filter_cons, groupable_false_of_merge env opts c hc]

/-! ### The two loops and the sorting of Extract -/

theorem partition_fold (commits : List Commit) :
    ∀ (m r : List Commit),
      commits.foldl partitionStep (m, r)
        = (m ++ commits.filter (fun c => c.Merge.isSome),
           r ++ commits.filter (fun c => c.Merge.isNone && c.Revert.isSome)) := by
  induction commits with
  | nil => intro m r; simp
  | cons c rest ih =>
    intro m r
    simp only [List.foldl_cons]
    cases hm : c.Merge with
    | some x =>
      have : partitionStep (m, r) c = (m ++ [c], r) := by simp [partitionStep, hm]
      rw [this, ih]
      simp [List.filter_cons, hm]
    | none =>
      cases hr : c.Revert with
      | some y =>
        have : partitionStep (m, r) c = (m, r ++ [c]) := by simp [partitionStep, hm, hr]
        rw [this, ih]
        simp [List.filter_cons, hm, hr]
      | none =>
        have : partitionStep (m, r) c = (m, r) := by simp [partitionStep, hm, hr]
        rw [this, ih]
        simp [List.filter_cons, hm, hr]

theorem groupMembers_perm {l1 l2 : List CommitGroup} (h : l1.Perm l2) :
    (groupMembers l1).Perm (groupMembers l2) := by
  induction h with
  | nil => exact List.Perm.refl _
  | cons x _ ih => exact List.Perm.append_left _ ih
  | swap x y l =>
    simp only [groupMembers, ← List.append_assoc]
    exact List.Perm.append_right _ List.perm_append_comm
  | trans _ _ ih1 ih2 => exact ih1.trans ih2

theorem groupMembers_map_perm (f : CommitGroup → CommitGroup) (l : List CommitGroup)
    (hf : ∀ g, (f g).Commits.Perm g.Commits) :
    (groupMembers (l.map f)).Perm (groupMembers l) := by
  induction l with
  | nil => exact List.Perm.refl _
  | cons g rest ih => exact List.Perm.append (hf g) ih

/-- With a `sort.Slice` that only rearranges, `sortCommitGroups` rearranges
the groups and, inside each group, the commits: raw titles and titles stay
with their groups. -/
theorem sortCommitGroups_spec (env : Env) (opts : Options) (groups : List CommitGroup)
    (hs : SortSliceLawful env.sortSlice) :
    ((sortCommitGroups env opts groups).map CommitGroup.RawTitle).Perm
        (groups.map CommitGroup.RawTitle) ∧
    (∀ g' ∈ sortCommitGroups env opts groups, ∃ g ∈ groups,
        g'.RawTitle = g.RawTitle ∧ g'.Title = g.Title ∧ g'.Commits.Perm g.Commits) ∧
    (groupMembers (sortCommitGroups env opts groups)).Perm (groupMembers groups) := by
  refine ⟨?_, ?_, ?_⟩
  · simp only [sortCommitGroups, List.map_map]
    exact (hs.perm _ _ groups).map _
  · intro g' hg'
    simp only [sortCommitGroups, List.mem_map] at hg'
    obtain ⟨g, hg, rfl⟩ := hg'
    exact ⟨g, (hs.perm _ _ groups).subset hg, rfl, rfl, hs.perm _ _ _⟩
  · simp only [sortCommitGroups]
    exact (groupMembers_map_perm _ _ (fun g => hs.perm _ _ _)).trans
      (groupMembers_perm (hs.perm _ _ groups))

theorem sortCommitGroups_inv (env : Env) (opts : Options) (groups : List CommitGroup)
    (hs : SortSliceLawful env.sortSlice) (hinv : GroupsInv opts groups) :
    GroupsInv opts (sortCommitGroups env opts groups) := by
  obtain ⟨h1, h2, _⟩ := sortCommitGroups_spec env opts groups hs
  refine ⟨h1.nodup_iff.mpr hinv.nodup, ?_, ?_, ?_⟩
  · intro g' hg'
    obtain ⟨g, hg, hr, _, _⟩ := h2 g' hg'
    rw [hr]; exact hinv.key_ne g hg
  · intro g' hg'
    obtain ⟨g, hg, _, _, hp⟩ := h2 g' hg'
    intro e
    rw [e] at hp
    exact hinv.commits_ne g hg (List.Perm.eq_nil hp.symm)
  · intro g' hg' c hc
    obtain ⟨g, hg, hr, _, hp⟩ := h2 g' hg'
    rw [hr]
    exact hinv.member g hg c (hp.subset hc)

/-- The commit groups `Extract` returns satisfy the invariant, and their
members are, up to order, the filtered commits that are groupable. -/
theorem extract_groups (env : Env) (opts : Options) (commits : List Commit)
    (hs : SortSliceLawful env.sortSlice) :
    GroupsInv opts (Extract env opts commits).commitGroups ∧
    (groupMembers (Extract env opts commits).commitGroups).Perm
      (commits.filter (fun c => opts.CommitFilters c && groupable env opts c)) := by
  obtain ⟨hinv, hperm⟩ := groupStep_fold env opts (commitFilter commits opts.CommitFilters)
    [] [] (groupsInv_nil opts)
  refine ⟨sortCommitGroups_inv env opts _ hs hinv, ?_⟩
  refine (sortCommitGroups_spec env opts _ hs).2.2.trans (hperm.trans ?_)
  simp [groupMembers, commitFilter, List.filter_filter, Bool.and_comm]

theorem extract_merge_revert (env : Env) (opts : Options) (commits : List Commit) :
    (Extract env opts commits).mergeCommits = commits.filter (fun c => c.Merge.isSome) ∧
    (Extract env opts commits).revertCommits
      = commits.filter (fun c => c.Merge.isNone && c.Revert.isSome) := by
  simp [Extract, partition_fold]

theorem filter3_subperm {α : Type} (p q r : α → Bool) (l : List α)
    (hpq : ∀ x, p x = true → q x = false) (hpr : ∀ x, p x = true → r x = false)
    (hqr : ∀ x, q x = true → r x = false) :
    (l.filter p ++ l.filter q ++ l.filter r).Subperm l := by
  induction l with
  | nil => simp
  | cons x rest ih =>
    by_cases hp : p x = true
    · simp only [List.filter_cons, hp, hpq x hp, hpr x hp, if_true, List.cons_append]
      simp only [Bool.false_eq_true, if_false]
      exact (List.subperm_cons x).mpr ih
    · by_cases hq : q x = true
      · simp only [List.filter_cons, hp, hq, hqr x hq, if_true, if_false]
        simp only [Bool.false_eq_true, if_false]
        have hperm : (rest.filter p ++ x :: rest.filter q ++ rest.filter r).Perm
            (x :: (rest.filter p ++ rest.filter q ++ rest.filter r)) := by
          simp only [List.append_assoc, List.cons_append]
          exact List.perm_middle
        exact hperm.subperm.trans ((List.subperm_cons x).mpr ih)
      · by_cases hr : r x = true
        · simp only [List.filter_cons, hp, hq, hr, if_true, if_false]
          have hperm : (rest.filter p ++ rest.filter q ++ x :: rest.filter r).Perm
              (x :: (rest.filter p ++ rest.filter q ++ rest.filter r)) :=
            List.perm_middle
          exact hperm.subperm.trans ((List.subperm_cons x).mpr ih)
        · simp only [List.filter_cons, hp, hq, hr, if_false]
          exact ih.cons_right x

/-! ### Properties of the commit extractor -/

/-- C6 (the code misses the claim): a header that contains "(key)" at its
start and nowhere else fails the test of `getTypeByCommit`, which is
`LastIndex(...) > 0`.  So the header "(fix): x" contains "(fix)" and
`getTypeByCommit` with the priority string "fix" returns the empty key and
false; the same text one byte further to the right is found. -/
theorem getTypeByCommit_start_missed :
    (∀ key rest : GoString,
      (∀ front back : GoString, front ≠ [] →
        [40] ++ key ++ [41] ++ rest ≠ front ++ ([40] ++ key ++ [41]) ++ back) →
      keyMatches ([40] ++ key ++ [41] ++ rest) key = false) ∧
    ascii "(fix): x" = [] ++ ([40] ++ ascii "fix" ++ [41]) ++ ascii ": x" ∧
    goSplit (ascii "fix") [46] = [ascii "fix"] ∧
    lastIndex (ascii "(fix): x") ([40] ++ ascii "fix" ++ [41]) = 0 ∧
    getTypeByCommit (plainCommit (ascii "(fix): x")) (ascii "fix") = ([], false) ∧
    getTypeByCommit (plainCommit (ascii " (fix): x")) (ascii "fix") = (ascii "fix", true) := by
  refine ⟨?_, by decide, by decide, by decide, by decide, by decide⟩
  intro key rest hno
  by_contra h
  have h2 : keyMatches ([40] ++ key ++ [41] ++ rest) key = true := by simpa using h
  obtain ⟨front, back, hne, heq⟩ := (keyMatches_iff _ _).mp h2
  exact hno front back hne heq

/-- C7: with a `sort.Slice` that only rearranges, the members of the commit
groups, the merge list and the revert list of `Extract` together use every
commit of the input at most once; members of groups have neither a merge nor
a revert record, the merge list holds commits with a merge record, the revert
list commits with a revert record and no merge record, and two different
groups share no commit. -/
theorem extract_exclusive (env : Env) (opts : Options) (commits : List Commit)
    (hs : SortSliceLawful env.sortSlice) :
    (groupMembers (Extract env opts commits).commitGroups
        ++ (Extract env opts commits).mergeCommits
        ++ (Extract env opts commits).revertCommits).Subperm commits ∧
    (∀ g ∈ (Extract env opts commits).commitGroups, ∀ c ∈ g.Commits,
        c.Merge = none ∧ c.Revert = none) ∧
    (∀ c ∈ (Extract env opts commits).mergeCommits, c.Merge ≠ none) ∧
    (∀ c ∈ (Extract env opts commits).revertCommits, c.Merge = none ∧ c.Revert ≠ none) ∧
    (Extract env opts commits).commitGroups.Pairwise
      (fun g h => ∀ c ∈ g.Commits, c ∉ h.Commits) := by
  obtain ⟨hinv, hperm⟩ := extract_groups env opts commits hs
  obtain ⟨hmerge, hrevert⟩ := extract_merge_revert env opts commits
  refine ⟨?_, ?_, ?_, ?_, ?_⟩
  · rw [hmerge, hrevert]
    have h3 := filter3_subperm
      (fun c => opts.CommitFilters c && groupable env opts c)
      (fun c : Commit => c.Merge.isSome)
      (fun c : Commit => c.Merge.isNone && c.Revert.isSome) commits
      (by
        intro x hx
        simp only [groupable, Bool.and_eq_true, decide_eq_true_eq] at hx
        simp [hx.2.1])
      (by
        intro x hx
        simp only [groupable, Bool.and_eq_true, decide_eq_true_eq] at hx
        simp [hx.2.2.1])
      (by
        intro x hx
        cases hm : x.Merge <;> simp [hm] at hx ⊢)
    exact ((hperm.append_right _).append_right _).subperm.trans h3
  · intro g hg c hc
    exact (hinv.member g hg c hc).2
  · intro c hc
    rw [hmerge] at hc
    have := (List.mem_filter.mp hc).2
    intro e
    simp [e] at this
  · intro c hc
    rw [hrevert] at hc
    have := (List.mem_filter.mp hc).2
    simp only [Bool.and_eq_true, Option.isNone_iff_eq_none] at this
    refine ⟨this.1, ?_⟩
    intro e
    simp [e] at this
  · have hnd := hinv.nodup
    rw [List.Nodup, List.pairwise_map] at hnd
    refine hnd.imp_of_mem ?_
    intro g h hg hh hne c hcg hch
    have h1 := (hinv.member g hg c hcg).1
    have h2 := (hinv.member h hh c hch).1
    rw [h1] at h2
    exact hne (Prod.mk.inj h2).1

/-- Witness for C7: a merge commit whose header carries the key "fix", and a
plain commit with that key. -/
theorem extract_exclusive_witness :
    (∀ g ∈ (Extract sampleEnv defaultOptions
          [mergeFixCommit, plainCommit (ascii "a (fix)")]).commitGroups,
        ∀ c ∈ g.Commits, c.Merge = none ∧ c.Revert = none) ∧
    (Extract sampleEnv defaultOptions
        [mergeFixCommit, plainCommit (ascii "a (fix)")]).mergeCommits = [mergeFixCommit] :=
  ⟨(extract_exclusive sampleEnv defaultOptions
      [mergeFixCommit, plainCommit (ascii "a (fix)")] insertionSortSlice_lawful).2.1,
    by decide⟩

/-- C8 (amended): whatever the commit filter and the other options, the merge
list of `Extract` is the sub-list, in input order, of the input commits with a
merge record, and the revert list is the sub-list, in input order, of the
input commits with a revert record and no merge record. -/
theorem extract_merge_revert_lists (env : Env) (opts : Options) (commits : List Commit) :
    (Extract env opts commits).mergeCommits = commits.filter (fun c => c.Merge.isSome) ∧
    (Extract env opts commits).revertCommits
      = commits.filter (fun c => c.Merge.isNone && c.Revert.isSome) ∧
    (∀ (env2 : Env) (opts2 : Options),
      (Extract env2 opts2 commits).mergeCommits = (Extract env opts commits).mergeCommits ∧
      (Extract env2 opts2 commits).revertCommits = (Extract env opts commits).revertCommits) := by
  obtain ⟨h1, h2⟩ := extract_merge_revert env opts commits
  refine ⟨h1, h2, ?_⟩
  intro env2 opts2
  obtain ⟨h3, h4⟩ := extract_merge_revert env2 opts2 commits
  exact ⟨h3.trans h1.symm, h4.trans h2.symm⟩

/-- C8 as stated fails: a commit with both a merge and a revert record is an
input commit with a non-nil `Revert`, and the revert list of `Extract` on it
is empty; the commit is in the merge list only. -/
theorem extract_revert_not_all :
    mergeRevertCommit.Revert ≠ none ∧
    [mergeRevertCommit].filter (fun c => c.Revert.isSome) = [mergeRevertCommit] ∧
    (Extract sampleEnv defaultOptions [mergeRevertCommit]).revertCommits = [] ∧
    (Extract sampleEnv defaultOptions [mergeRevertCommit]).mergeCommits
      = [mergeRevertCommit] := by
  decide

theorem getTypeLoop_of_first (header : GoString) (before : List GoString) (k : GoString)
    (after : List GoString) (hk : keyMatches header k = true)
    (hb : ∀ x ∈ before, keyMatches header x = false) :
    getTypeLoop header (before ++ k :: after) = (k, true) := by
  induction before with
  | nil => simp [getTypeLoop, hk]
  | cons x rest ih =>
    have hx : keyMatches header x = false := hb x (List.mem_cons_self _ _)
    simp only [List.cons_append, getTypeLoop, hx, Bool.false_eq_true, if_false]
    exact ih (fun y hy => hb y (List.mem_cons_of_mem _ hy))

theorem getTypeLoop_of_none (header : GoString) (keys : List GoString)
    (h : ∀ x ∈ keys, keyMatches header x = false) :
    getTypeLoop header keys = ([], false) := by
  induction keys with
  | nil => rfl
  | cons x rest ih =>
    have hx : keyMatches header x = false := h x (List.mem_cons_self _ _)
    simp only [getTypeLoop, hx, Bool.false_eq_true, if_false]
    exact ih (fun y hy => h y (List.mem_cons_of_mem _ hy))

/-- The invariants of the commit groups `Extract` returns, with a
`sort.Slice` that only rearranges: the raw keys are pairwise distinct; every
raw key is not empty and is one of the keys of the priority string; every group
has a member; for every member the group's raw key is what `getTypeByCommit`
returns for it, that is, the first key, in the order of the priority string,
that passes the test of `getTypeByCommit` on the member's header; and a commit
whose header passes the test for no key is in no group. -/
theorem extract_groups_classified (env : Env) (opts : Options) (commits : List Commit)
    (hs : SortSliceLawful env.sortSlice) :
    ((Extract env opts commits).commitGroups.map CommitGroup.RawTitle).Nodup ∧
    (∀ g ∈ (Extract env opts commits).commitGroups,
      g.RawTitle ≠ [] ∧ g.RawTitle ∈ goSplit opts.CommitGroupBy [46] ∧ g.Commits ≠ [] ∧
      ∀ c ∈ g.Commits,
        getTypeByCommit c opts.CommitGroupBy = (g.RawTitle, true) ∧
        ∃ before after, goSplit opts.CommitGroupBy [46] = before ++ g.RawTitle :: after ∧
          keyMatches c.Header g.RawTitle = true ∧
          ∀ k ∈ before, keyMatches c.Header k = false) ∧
    (∀ c : Commit, (∀ k ∈ goSplit opts.CommitGroupBy [46], keyMatches c.Header k = false) →
      ∀ g ∈ (Extract env opts commits).commitGroups, c ∉ g.Commits) := by
  obtain ⟨hinv, _⟩ := extract_groups env opts commits hs
  have hmember : ∀ g ∈ (Extract env opts commits).commitGroups, ∀ c ∈ g.Commits,
      getTypeLoop c.Header (goSplit opts.CommitGroupBy [46]) = (g.RawTitle, true) := by
    intro g hg c hc
    rw [← getTypeByCommit_eq]
    exact (hinv.member g hg c hc).1
  refine ⟨hinv.nodup, ?_, ?_⟩
  · intro g hg
    have hne := hinv.commits_ne g hg
    obtain ⟨c0, hc0⟩ := List.exists_mem_of_ne_nil _ hne
    refine ⟨hinv.key_ne g hg, (getTypeLoop_mem _ _ _ (hmember g hg c0 hc0)).1, hne, ?_⟩
    intro c hc
    exact ⟨(hinv.member g hg c hc).1, getTypeLoop_first _ _ _ (hmember g hg c hc)⟩
  · intro c hall g hg hc
    have h1 := hmember g hg c hc
    rw [getTypeLoop_of_none _ _ hall] at h1
    have := (Prod.mk.inj h1).2
    cases this

/-- The invariants of the commit groups on two commits with the key "fix" and
one with "feat". -/
theorem extract_groups_classified_witness :
    ((Extract sampleEnv defaultOptions
        [plainCommit (ascii "a (fix)"), plainCommit (ascii "b (feat)"),
          plainCommit (ascii "c (fix)")]).commitGroups.map CommitGroup.RawTitle).Nodup ∧
    (Extract sampleEnv defaultOptions
        [plainCommit (ascii "a (fix)"), plainCommit (ascii "b (feat)"),
          plainCommit (ascii "c (fix)")]).commitGroups
      = [⟨ascii "fix", ascii "Bugfix",
            [plainCommit (ascii "a (fix)"), plainCommit (ascii "c (fix)")]⟩,
          ⟨ascii "feat", ascii "Feature", [plainCommit (ascii "b (feat)")]⟩] :=
  ⟨(extract_groups_classified sampleEnv defaultOptions _ insertionSortSlice_lawful).1,
    by decide⟩

/-- C9 (the code misses the claim): with the priority string "feat.fix", the
header "(feat) x (fix)" contains "(feat)" and "(fix)", so the first key in
priority order that it matches is "feat"; `Extract` puts the commit in a group
whose raw key is "fix", because `getTypeByCommit` does not count the
occurrence of "(feat)" at the start of the header. -/
theorem extract_group_key_not_first :
    goSplit scenarioOptions.CommitGroupBy [46] = [ascii "feat", ascii "fix"] ∧
    ascii "(feat) x (fix)" = [] ++ ([40] ++ ascii "feat" ++ [41]) ++ ascii " x (fix)" ∧
    keyMatches (ascii "(feat) x (fix)") (ascii "feat") = false ∧
    getTypeByCommit (plainCommit (ascii "(feat) x (fix)")) scenarioOptions.CommitGroupBy
      = (ascii "fix", true) ∧
    (Extract sampleEnv scenarioOptions [plainCommit (ascii "(feat) x (fix)")]).commitGroups
      = [⟨ascii "fix", ascii "Bugfix", [plainCommit (ascii "(feat) x (fix)")]⟩] := by
  decide

theorem asciiTitleLoop_word (s : GoString) :
    ∀ prev : Nat, isWordByte prev = true → (∀ x ∈ s, isWordByte x = true) →
      asciiTitleLoop prev s = s := by
  induction s with
  | nil => intro prev _ _; rfl
  | cons b rest ih =>
    intro prev hprev hall
    simp only [asciiTitleLoop, hprev, if_true]
    rw [ih b (hall b (List.mem_cons_self _ _))
      (fun x hx => hall x (List.mem_cons_of_mem _ hx))]

theorem asciiTitle_word (b : Nat) (rest : GoString)
    (hall : ∀ x ∈ b :: rest, isWordByte x = true) :
    asciiTitle (b :: rest) = capitalizeFirst (b :: rest) := by
  have h32 : isWordByte 32 = false := by decide
  simp only [asciiTitle, asciiTitleLoop, h32, capitalizeFirst, Bool.false_eq_true, if_false]
  rw [asciiTitleLoop_word rest b (hall b (List.mem_cons_self _ _))
    (fun x hx => hall x (List.mem_cons_of_mem _ hx))]

/-- C10 (amended): when `getTypeByCommit` returns the key `k` for the commit,
that is, when `k` is the first key of the priority string that passes its test
on the commit's header, `commitGroupTitle` returns the raw title `k` and, as
display title, the entry of the override map for `k` when there is one and
`strings.Title(k)` otherwise; when no key passes the test it returns two empty
strings.  `strings.Title` upper-cases the first letter of every word: on a key
made of letters, digits and underscores only it upper-cases the first letter.
With the priority string "feat.fix" and the overrides of `NewChangeLogger`, the
header "fix(core): x (fix)" gives raw title "fix" and display title "Bugfix",
and the commit lands in a group with that raw key and title; the key "hotfix",
which has no override, gets the display title "Hotfix". -/
theorem commitGroupTitle_spec (env : Env) (opts : Options) (commit : Commit) :
    (∀ k : GoString, getTypeByCommit commit opts.CommitGroupBy = (k, true) →
      (∀ t, opts.CommitGroupTitleMaps.lookup k = some t →
        commitGroupTitle env opts commit = (k, t)) ∧
      (opts.CommitGroupTitleMaps.lookup k = none →
        commitGroupTitle env opts commit = (k, env.title k))) ∧
    (∀ (k : GoString) (before after : List GoString),
      goSplit opts.CommitGroupBy [46] = before ++ k :: after →
      keyMatches commit.Header k = true →
      (∀ x ∈ before, keyMatches commit.Header x = false) →
      getTypeByCommit commit opts.CommitGroupBy = (k, true)) ∧
    ((∀ x ∈ goSplit opts.CommitGroupBy [46], keyMatches commit.Header x = false) →
      commitGroupTitle env opts commit = ([], [])) ∧
    (∀ (b : Nat) (rest : GoString), (∀ x ∈ b :: rest, isWordByte x = true) →
      asciiTitle (b :: rest) = capitalizeFirst (b :: rest)) ∧
    commitGroupTitle sampleEnv scenarioOptions (plainCommit (ascii "fix(core): x (fix)"))
      = (ascii "fix", ascii "Bugfix") ∧
    (Extract sampleEnv scenarioOptions [plainCommit (ascii "fix(core): x (fix)")]).commitGroups
      = [⟨ascii "fix", ascii "Bugfix", [plainCommit (ascii "fix(core): x (fix)")]⟩] ∧
    commitGroupTitle sampleEnv defaultOptions (plainCommit (ascii "x (hotfix)"))
      = (ascii "hotfix", ascii "Hotfix") := by
  refine ⟨?_, ?_, ?_, asciiTitle_word, by decide, by decide, by decide⟩
  · intro k h
    refine ⟨?_, ?_⟩
    · intro t ht
      simp only [commitGroupTitle, h, ht]
    · intro ht
      simp only [commitGroupTitle, h, ht]
  · intro k before after hsplit hk hb
    rw [getTypeByCommit_eq, hsplit]
    exact getTypeLoop_of_first _ _ _ _ hk hb
  · intro hall
    have h : getTypeByCommit commit opts.CommitGroupBy = ([], false) := by
      rw [getTypeByCommit_eq]
      exact getTypeLoop_of_none _ _ hall
    simp only [commitGroupTitle, h]

/-- Witness for C10 on the options of `NewChangeLogger`: for the header
"x (feat)" the key is "feat", which has the override "Feature". -/
theorem commitGroupTitle_spec_witness :
    commitGroupTitle sampleEnv defaultOptions (plainCommit (ascii "x (feat)"))
      = (ascii "feat", ascii "Feature") :=
  ((commitGroupTitle_spec sampleEnv defaultOptions (plainCommit (ascii "x (feat)"))).1
    (ascii "feat") (by decide)).1 (ascii "Feature") (by decide)

/-- C10 as stated fails: for the key "hot-fix", which has no override, the
display title is "Hot-Fix", as `strings.Title` upper-cases the first letter of
every word, and not "Hot-fix", the key with its first letter upper-cased. -/
theorem commitGroupTitle_title_every_word :
    getTypeByCommit (plainCommit (ascii "x (hot-fix)")) hyphenOptions.CommitGroupBy
      = (ascii "hot-fix", true) ∧
    hyphenOptions.CommitGroupTitleMaps.lookup (ascii "hot-fix") = none ∧
    capitalizeFirst (ascii "hot-fix") = ascii "Hot-fix" ∧
    commitGroupTitle sampleEnv hyphenOptions (plainCommit (ascii "x (hot-fix)"))
      = (ascii "hot-fix", ascii "Hot-Fix") ∧
    commitGroupTitle sampleEnv hyphenOptions (plainCommit (ascii "x (hot-fix)"))
      ≠ (ascii "hot-fix", capitalizeFirst (ascii "hot-fix")) := by
  decide

/-! ### readVersions -/

theorem readVersionsLoop_calls (env : Env) (opts : Options)
    (parse : GoString → Except GoError (List Commit)) (tags : List Tag) (first : GoString)
    (rest : List Tag) :
    ∀ (i : Nat) (versions : List Version) (calls : List GoString),
      (readVersionsLoop env opts parse tags first i rest versions calls).calls
        = calls ++ cutAtFailure parse (rangesFrom tags first i rest) := by
  induction rest with
  | nil => intro i versions calls; simp [readVersionsLoop, rangesFrom, cutAtFailure]
  | cons tag rest ih =>
    intro i versions calls
    cases hp : parse (revisionRange tags first i tag) with
    | error err => simp [readVersionsLoop, rangesFrom, cutAtFailure, hp]
    | ok commits =>
      simp only [readVersionsLoop, rangesFrom, cutAtFailure, hp]
      rw [ih]
      simp

theorem readVersionsLoop_error (env : Env) (opts : Options)
    (parse : GoString → Except GoError (List Commit)) (tags : List Tag) (first : GoString)
    (rest : List Tag) :
    ∀ (i : Nat) (versions : List Version) (calls : List GoString),
      cutAtFailure parse (rangesFrom tags first i rest) ≠ rangesFrom tags first i rest →
      ∃ r e, (cutAtFailure parse (rangesFrom tags first i rest)).getLast? = some r ∧
        parse r = .error e ∧
        (readVersionsLoop env opts parse tags first i rest versions calls).result = .error e := by
  induction rest with
  | nil => intro i versions calls h; exact absurd rfl h
  | cons tag rest ih =>
    intro i versions calls h
    cases hp : parse (revisionRange tags first i tag) with
    | error err =>
      refine ⟨revisionRange tags first i tag, err, ?_, hp, ?_⟩
      · simp [rangesFrom, cutAtFailure, hp]
      · simp [readVersionsLoop, hp]
    | ok commits =>
      simp only [rangesFrom, cutAtFailure, hp, ne_eq, List.cons.injEq, true_and] at h
      obtain ⟨r, e, hlast, hr, hres⟩ := ih (i + 1)
        (versions ++ [mkVersion env opts tag commits])
        (calls ++ [revisionRange tags first i tag]) h
      refine ⟨r, e, ?_, hr, ?_⟩
      · simp only [rangesFrom, cutAtFailure, hp]
        rw [List.getLast?_cons, hlast]
        rfl
      · simp only [readVersionsLoop, hp]
        exact hres

theorem rangesFrom_length (tags : List Tag) (first : GoString) (rest : List Tag) :
    ∀ i, (rangesFrom tags first i rest).length = rest.length := by
  induction rest with
  | nil => intro i; rfl
  | cons t rest ih => intro i; simp [rangesFrom, ih]

theorem rangesFrom_getElem? (tags : List Tag) (first : GoString) (rest : List Tag) :
    ∀ (i j : Nat), (rangesFrom tags first i rest)[j]?
      = (rest[j]?).map (revisionRange tags first (i + j)) := by
  induction rest with
  | nil => intro i j; simp [rangesFrom]
  | cons t rest ih =>
    intro i j
    cases j with
    | zero => simp [rangesFrom]
    | succ j =>
      simp only [rangesFrom, List.getElem?_cons_succ, ih]
      have : i + 1 + j = i + (j + 1) := by omega
      rw [this]

theorem cutAtFailure_prefix (parse : GoString → Except GoError (List Commit))
    (l : List GoString) : cutAtFailure parse l <+: l := by
  induction l with
  | nil => exact List.prefix_refl _
  | cons r rest ih =>
    cases hp : parse r with
    | error err =>
      simp only [cutAtFailure, hp]
      exact ⟨rest, rfl⟩
    | ok commits =>
      simp only [cutAtFailure, hp]
      exact (List.prefix_cons_inj r).mpr ih

theorem cutAtFailure_all_ok (parse : GoString → Except GoError (List Commit))
    (l : List GoString) (h : ∀ r ∈ l, ∃ c, parse r = .ok c) : cutAtFailure parse l = l := by
  induction l with
  | nil => rfl
  | cons r rest ih =>
    obtain ⟨c, hc⟩ := h r (List.mem_cons_self _ _)
    simp only [cutAtFailure, hc]
    rw [ih (fun x hx => h x (List.mem_cons_of_mem _ hx))]

theorem cutAtFailure_dropLast_ok (parse : GoString → Except GoError (List Commit))
    (l : List GoString) : ∀ r ∈ (cutAtFailure parse l).dropLast, ∃ c, parse r = .ok c := by
  induction l with
  | nil => intro r hr; simp [cutAtFailure] at hr
  | cons x rest ih =>
    intro r hr
    cases hp : parse x with
    | error err => simp [cutAtFailure, hp] at hr
    | ok commits =>
      simp only [cutAtFailure, hp] at hr
      cases hc : cutAtFailure parse rest with
      | nil => simp [hc] at hr
      | cons y ys =>
        rw [hc, List.dropLast_cons₂] at hr
        rcases List.mem_cons.mp hr with h | h
        · exact ⟨commits, h ▸ hp⟩
        · exact ih r (hc ▸ h)

theorem revisionRange_next (tags : List Tag) (first : GoString) (i : Nat) (t u : Tag)
    (h : tags[i + 1]? = some u) :
    revisionRange tags first i t = u.Name ++ ascii ".." ++ t.Name := by
  have hlt : i + 1 < tags.length := by
    by_contra hn
    rw [List.getElem?_eq_none (by omega)] at h
    cases h
  have hu : tags[i + 1] = u := by
    rw [List.getElem?_eq_getElem hlt] at h
    exact Option.some.inj h
  simp [revisionRange, hlt, hu]

theorem revisionRange_last (tags : List Tag) (first : GoString) (i : Nat) (t : Tag)
    (h : tags[i + 1]? = none) :
    revisionRange tags first i t
      = if first ≠ [] then first ++ ascii ".." ++ t.Name else t.Name := by
  have hlt : ¬ (i + 1 < tags.length) := by
    intro hn
    rw [List.getElem?_eq_getElem hn] at h
    cases h
  simp [revisionRange, hlt]

theorem readVersionsLoop_ok (env : Env) (opts : Options)
    (parse : GoString → Except GoError (List Commit)) (tags : List Tag) (first : GoString)
    (rest : List Tag) :
    ∀ (i : Nat) (versions : List Version) (calls : List GoString),
      (∀ (j : Nat) (t : Tag), rest[j]? = some t →
        ∃ c, parse (revisionRange tags first (i + j) t) = .ok c) →
      ∃ vs, (readVersionsLoop env opts parse tags first i rest versions calls).result
          = .ok (versions ++ vs) ∧
        vs.length = rest.length ∧
        ∀ (j : Nat) (t : Tag), rest[j]? = some t →
          ∃ c, parse (revisionRange tags first (i + j) t) = .ok c ∧
            vs[j]? = some (mkVersion env opts t c) := by
  induction rest with
  | nil =>
    intro i versions calls _
    exact ⟨[], by simp [readVersionsLoop], rfl, fun j t h => by simp at h⟩
  | cons tag rest ih =>
    intro i versions calls hok
    obtain ⟨c0, hc0⟩ := hok 0 tag (by simp)
    simp only [Nat.add_zero] at hc0
    have hok2 : ∀ (j : Nat) (t : Tag), rest[j]? = some t →
        ∃ c, parse (revisionRange tags first (i + 1 + j) t) = .ok c := by
      intro j t ht
      have := hok (j + 1) t (by simpa using ht)
      have e : i + (j + 1) = i + 1 + j := by omega
      rw [e] at this
      exact this
    obtain ⟨vs, hres, hlen, hpt⟩ := ih (i + 1) (versions ++ [mkVersion env opts tag c0])
      (calls ++ [revisionRange tags first i tag]) hok2
    refine ⟨mkVersion env opts tag c0 :: vs, ?_, by simp [hlen], ?_⟩
    · simp only [readVersionsLoop, hc0]
      rw [hres]
      simp
    · intro j t ht
      cases j with
      | zero =>
        have : tag = t := by simpa using ht
        subst this
        exact ⟨c0, hc0, by simp⟩
      | succ j =>
        obtain ⟨c, hc, hv⟩ := hpt j t (by simpa using ht)
        have e : i + (j + 1) = i + 1 + j := by omega
        rw [e]
        exact ⟨c, hc, by simpa using hv⟩

theorem readVersionsLoop_first_failure (env : Env) (opts : Options)
    (parse : GoString → Except GoError (List Commit)) (tags : List Tag) (first : GoString)
    (rest : List Tag) :
    ∀ (i : Nat) (versions : List Version) (calls : List GoString) (k : Nat) (t : Tag)
      (e : GoError),
      rest[k]? = some t → parse (revisionRange tags first (i + k) t) = .error e →
      (∀ (j : Nat) (u : Tag), j < k → rest[j]? = some u →
        ∃ cs, parse (revisionRange tags first (i + j) u) = .ok cs) →
      (readVersionsLoop env opts parse tags first i rest versions calls).result = .error e := by
  induction rest with
  | nil => intro i versions calls k t e hk; simp at hk
  | cons tag rest ih =>
    intro i versions calls k t e hk herr hbefore
    cases k with
    | zero =>
      have : tag = t := by simpa using hk
      subst this
      simp only [Nat.add_zero] at herr
      simp [readVersionsLoop, herr]
    | succ k =>
      obtain ⟨cs, hcs⟩ := hbefore 0 tag (Nat.succ_pos k) (by simp)
      simp only [Nat.add_zero] at hcs
      simp only [readVersionsLoop, hcs]
      have e1 : i + (k + 1) = i + 1 + k := by omega
      rw [e1] at herr
      refine ih (i + 1) _ _ k t e (by simpa using hk) herr ?_
      intro j u hj hu
      have := hbefore (j + 1) u (by omega) (by simpa using hu)
      have e2 : i + (j + 1) = i + 1 + j := by omega
      rw [e2] at this
      exact this

theorem cutAtFailure_first_failure (parse : GoString → Except GoError (List Commit))
    (l : List GoString) :
    ∀ (k : Nat) (r : GoString) (e : GoError), l[k]? = some r → parse r = .error e →
      (∀ (j : Nat) (x : GoString), j < k → l[j]? = some x → ∃ c, parse x = .ok c) →
      cutAtFailure parse l = l.take (k + 1) := by
  induction l with
  | nil => intro k r e hk; simp at hk
  | cons y rest ih =>
    intro k r e hk herr hbefore
    cases k with
    | zero =>
      have : y = r := by simpa using hk
      subst this
      simp [cutAtFailure, herr]
    | succ k =>
      obtain ⟨c, hc⟩ := hbefore 0 y (Nat.succ_pos k) (by simp)
      simp only [cutAtFailure, hc, List.take_succ_cons]
      rw [ih k r e (by simpa using hk) herr
        (fun j x hj hx => hbefore (j + 1) x (by omega) (by simpa using hx))]

/-- C4 (amended): there is a list of revision ranges, one per tag in list
order, the range for index `i` being the name of the tag at `i + 1`, "..",
and the name of the tag at `i` when there is a tag at `i + 1`, and for the
last index the boundary, "..", and the name when the boundary is not empty
and the name alone when it is empty.  The ranges `readVersions` hands to the
commit parser are an initial segment of that list: all of it when the parser
fails on none, and then `readVersions` returns one version per tag; otherwise
the ranges up to and including the first one on which the parser fails, whose
error is what `readVersions` returns, whichever index that range has, the last
included. -/
theorem readVersions_ranges (env : Env) (opts : Options)
    (parse : GoString → Except GoError (List Commit)) (tags : List Tag) (first : GoString) :
    ∃ ranges : List GoString, ranges.length = tags.length ∧
      (∀ (i : Nat) (t : Tag), tags[i]? = some t →
        (∀ u, tags[i + 1]? = some u →
          ranges[i]? = some (u.Name ++ ascii ".." ++ t.Name)) ∧
        (tags[i + 1]? = none → first ≠ [] →
          ranges[i]? = some (first ++ ascii ".." ++ t.Name)) ∧
        (tags[i + 1]? = none → first = [] → ranges[i]? = some t.Name)) ∧
      (readVersions env opts parse tags first).calls <+: ranges ∧
      ((∀ r ∈ ranges, ∃ c, parse r = .ok c) →
        (readVersions env opts parse tags first).calls = ranges ∧
        ∃ vs, (readVersions env opts parse tags first).result = .ok vs ∧
          vs.length = tags.length) ∧
      (∀ r ∈ (readVersions env opts parse tags first).calls.dropLast,
        ∃ c, parse r = .ok c) ∧
      (∀ (k : Nat) (r : GoString) (e : GoError), ranges[k]? = some r →
        parse r = .error e →
        (∀ (j : Nat) (x : GoString), j < k → ranges[j]? = some x → ∃ c, parse x = .ok c) →
        (readVersions env opts parse tags first).calls = ranges.take (k + 1) ∧
        (readVersions env opts parse tags first).calls.getLast? = some r ∧
        (readVersions env opts parse tags first).result = .error e) ∧
      ((readVersions env opts parse tags first).calls ≠ ranges →
        ∃ r e, (readVersions env opts parse tags first).calls.getLast? = some r ∧
          parse r = .error e ∧
          (readVersions env opts parse tags first).result = .error e) := by
  have hcalls : (readVersions env opts parse tags first).calls
      = cutAtFailure parse (rangesFrom tags first 0 tags) := by
    simp [readVersions, readVersionsLoop_calls]
  have hrange : ∀ (j : Nat) (x : GoString), (rangesFrom tags first 0 tags)[j]? = some x →
      ∃ t, tags[j]? = some t ∧ x = revisionRange tags first (0 + j) t := by
    intro j x hx
    rw [rangesFrom_getElem?] at hx
    rcases ht : tags[j]? with _ | t
    · rw [ht] at hx
      simp at hx
    · rw [ht] at hx
      exact ⟨t, rfl, by simpa using hx.symm⟩
  refine ⟨rangesFrom tags first 0 tags, rangesFrom_length tags first tags 0,
    ?_, ?_, ?_, ?_, ?_, ?_⟩
  · intro i t ht
    have hr : (rangesFrom tags first 0 tags)[i]? = some (revisionRange tags first i t) := by
      rw [rangesFrom_getElem?, ht]
      simp
    refine ⟨?_, ?_, ?_⟩
    · intro u hu
      rw [hr, revisionRange_next tags first i t u hu]
    · intro hn hf
      rw [hr, revisionRange_last tags first i t hn]
      simp [hf]
    · intro hn hf
      rw [hr, revisionRange_last tags first i t hn]
      simp [hf]
  · rw [hcalls]
    exact cutAtFailure_prefix parse _
  · intro hall
    refine ⟨by rw [hcalls]; exact cutAtFailure_all_ok parse _ hall, ?_⟩
    have hok : ∀ (j : Nat) (t : Tag), tags[j]? = some t →
        ∃ c, parse (revisionRange tags first (0 + j) t) = .ok c := by
      intro j t ht
      apply hall
      apply List.mem_iff_getElem?.mpr
      exact ⟨j, by rw [rangesFrom_getElem?, ht]; rfl⟩
    obtain ⟨vs, hres, hlen, -⟩ := readVersionsLoop_ok env opts parse tags first tags 0 [] [] hok
    exact ⟨vs, by simpa [readVersions] using hres, hlen⟩
  · rw [hcalls]
    exact cutAtFailure_dropLast_ok parse _
  · intro k r e hk herr hbefore
    have hcut := cutAtFailure_first_failure parse (rangesFrom tags first 0 tags) k r e hk herr
      hbefore
    obtain ⟨t, ht, hr⟩ := hrange k r hk
    refine ⟨by rw [hcalls, hcut], ?_, ?_⟩
    · rw [hcalls, hcut, List.getLast?_eq_getElem?]
      have hklt : k < (rangesFrom tags first 0 tags).length := by
        by_contra hn
        rw [List.getElem?_eq_none (by omega)] at hk
        cases hk
      rw [List.length_take, Nat.min_eq_left (by omega), Nat.add_sub_cancel,
        List.getElem?_take_of_lt (Nat.lt_succ_self k)]
      exact hk
    · apply readVersionsLoop_first_failure env opts parse tags first tags 0 [] [] k t e ht
      · rw [← hr]
        exact herr
      · intro j u hj hu
        apply hbefore j _ hj
        rw [rangesFrom_getElem?, hu]
        rfl
  · rw [hcalls]
    intro hne
    exact readVersionsLoop_error env opts parse tags first tags 0 [] [] hne

/-- C4 as stated fails: with two tags and a commit parser that fails,
`readVersions` hands one revision range to the parser, not two. -/
theorem readVersions_stops_at_failure :
    [plainTag (ascii "v2"), plainTag (ascii "v1")].length = 2 ∧
    (readVersions sampleEnv defaultOptions (fun _ => .error (ascii "no commits"))
      [plainTag (ascii "v2"), plainTag (ascii "v1")] []).calls = [ascii "v1..v2"] ∧
    (readVersions sampleEnv defaultOptions (fun _ => .error (ascii "no commits"))
      [plainTag (ascii "v2"), plainTag (ascii "v1")] []).calls.length ≠ 2 := by
  decide

/-- C5: when the commit parser succeeds on the revision range of every tag,
`readVersions` returns a list of as many versions as there are tags, and the
version at index `i` has the tag at index `i`, the commit list the parser
returned for that tag's range, unfiltered, and the four results of `Extract`
on that commit list. -/
theorem readVersions_versions (env : Env) (opts : Options)
    (parse : GoString → Except GoError (List Commit)) (tags : List Tag) (first : GoString)
    (hok : ∀ (i : Nat) (t : Tag), tags[i]? = some t →
      ∃ c, parse (revisionRange tags first i t) = .ok c) :
    ∃ versions, (readVersions env opts parse tags first).result = .ok versions ∧
      versions.length = tags.length ∧
      ∀ (i : Nat) (t : Tag), tags[i]? = some t →
        ∃ commits v, parse (revisionRange tags first i t) = .ok commits ∧
          versions[i]? = some v ∧ v.Tag = t ∧ v.Commits = commits ∧
          v.CommitGroups = (Extract env opts commits).commitGroups ∧
          v.MergeCommits = (Extract env opts commits).mergeCommits ∧
          v.RevertCommits = (Extract env opts commits).revertCommits ∧
          v.NoteGroups = (Extract env opts commits).noteGroups := by
  obtain ⟨vs, hres, hlen, hpt⟩ := readVersionsLoop_ok env opts parse tags first tags 0 [] []
    (by intro j t ht; simpa using hok j t ht)
  refine ⟨vs, by simpa [readVersions] using hres, hlen, ?_⟩
  intro i t ht
  obtain ⟨c, hc, hv⟩ := hpt i t ht
  simp only [Nat.zero_add] at hc
  exact ⟨c, mkVersion env opts t c, hc, hv, rfl, rfl, rfl, rfl, rfl, rfl⟩

/-- Witness for C5: two tags and a parser that returns one commit for every
range. -/
theorem readVersions_versions_witness :
    ∃ versions, (readVersions sampleEnv defaultOptions
        (fun _ => .ok [plainCommit (ascii "a (fix)")])
        [plainTag (ascii "v2"), plainTag (ascii "v1")] []).result = .ok versions ∧
      versions.length = [plainTag (ascii "v2"), plainTag (ascii "v1")].length :=
  (readVersions_versions sampleEnv defaultOptions
    (fun _ => .ok [plainCommit (ascii "a (fix)")])
    [plainTag (ascii "v2"), plainTag (ascii "v1")] []
    (fun _ _ _ => ⟨_, rfl⟩)).imp (fun _ h => ⟨h.1, h.2.1⟩)

/-! ### VersionOrdinal: leading zeros, long runs, index accesses -/

theorem absRun_endsNonDigit_eq (p : GoString) (hp : EndsNonDigit p) :
    absRun ⟨[], none⟩ p = ⟨absEncode p, none⟩ := by
  have hrun := absRun_endsNonDigit p hp
  simp only [absEncode]
  rcases h : absRun ⟨[], none⟩ p with ⟨pre, r⟩
  rw [h] at hrun
  simp only at hrun
  subst hrun
  rfl

theorem absRun_zero_then_digit (a : List Nat) (d : Nat) (t : GoString)
    (hd : ¬ (48 > d ∨ d > 57)) :
    absRun ⟨a, none⟩ (48 :: d :: t) = absRun ⟨a, none⟩ (d :: t) := by
  have h48 : ¬ (48 > 48 ∨ 48 > 57) := by decide
  simp [absRun, absStep, hd, h48]

/-- C19: for a text `p` that is empty or ends in a non-digit and a text `r`
that starts with a digit, `VersionOrdinal (p ++ "0" ++ r)` is
`VersionOrdinal (p ++ r)`; so a run of zeros, whatever follows it, encodes
like a single zero in its place.  The names "v01" and "v1" are distinct and
have the same encoding: `VersionOrdinal` is not injective. -/
theorem versionOrdinal_leading_zero (p r : GoString) (hp : EndsNonDigit p)
    (hr : ∃ d t, r = d :: t ∧ ¬ (48 > d ∨ d > 57)) :
    VersionOrdinal (p ++ [48] ++ r) = VersionOrdinal (p ++ r) ∧
    (∀ (n : Nat) (s : GoString),
      VersionOrdinal (p ++ List.replicate (n + 1) 48 ++ s) = VersionOrdinal (p ++ [48] ++ s)) ∧
    VersionOrdinal (ascii "v01") = VersionOrdinal (ascii "v1") ∧
    ascii "v01" ≠ ascii "v1" ∧
    ¬ Function.Injective VersionOrdinal := by
  have key : ∀ (d : Nat) (t : GoString), ¬ (48 > d ∨ d > 57) →
      VersionOrdinal (p ++ [48] ++ d :: t) = VersionOrdinal (p ++ d :: t) := by
    intro d t hd
    have h1 : absRun ⟨[], none⟩ (p ++ [48] ++ d :: t)
        = absRun ⟨absEncode p, none⟩ (48 :: d :: t) := by
      rw [List.append_assoc, absRun_append, absRun_endsNonDigit_eq p hp]
      rfl
    have h2 : absRun ⟨[], none⟩ (p ++ d :: t) = absRun ⟨absEncode p, none⟩ (d :: t) := by
      rw [absRun_append, absRun_endsNonDigit_eq p hp]
    rw [VersionOrdinal_eq, VersionOrdinal_eq, h1, h2, absRun_zero_then_digit _ d t hd]
  refine ⟨?_, ?_, by decide, by decide, ?_⟩
  · obtain ⟨d, t, rfl, hd⟩ := hr
    exact key d t hd
  · intro n s
    induction n with
    | zero => rfl
    | succ n ih =>
      have e : p ++ List.replicate (n + 1 + 1) 48 ++ s
          = p ++ [48] ++ 48 :: (List.replicate n 48 ++ s) := by
        simp [List.replicate_succ]
      have e2 : p ++ List.replicate (n + 1) 48 ++ s
          = p ++ 48 :: (List.replicate n 48 ++ s) := by
        simp [List.replicate_succ]
      rw [e, key 48 _ (by decide), ← e2, ih]
  · intro hinj
    have h : ascii "v01" = ascii "v1" := hinj (by decide)
    exact absurd h (by decide)

/-- Witness for C19 at `p = "v"` and `r = "7"`. -/
theorem versionOrdinal_leading_zero_witness :
    VersionOrdinal (ascii "v" ++ [48] ++ ascii "7") = VersionOrdinal (ascii "v" ++ ascii "7") :=
  (versionOrdinal_leading_zero (ascii "v") (ascii "7")
    (Or.inr ⟨[], 118, by decide, by decide⟩) ⟨55, [], by decide, by decide⟩).1

theorem absRun_grow_mod (pre : List Nat) (d : Nat) (hd : d ≠ 48) (ds2 : GoString) :
    ∀ (k : Nat) (ds : List Nat), AllDigits ds2 →
      absRun ⟨pre, some ⟨k, d, ds⟩⟩ ds2
        = ⟨pre, some ⟨if ds2 = [] then k else (k + ds2.length) % 256, d, ds ++ ds2⟩⟩ := by
  induction ds2 with
  | nil => intro k ds _; simp [absRun]
  | cons b bs ih =>
    intro k ds hall
    have hb : ¬ (48 > b ∨ b > 57) := hall b (List.mem_cons_self _ _)
    have hall2 : AllDigits bs := fun x hx => hall x (List.mem_cons_of_mem _ hx)
    have hstep : absStep ⟨pre, some ⟨k, d, ds⟩⟩ b
        = ⟨pre, some ⟨(k + 1) % 256, d, ds ++ [b]⟩⟩ := by
      simp [absStep, hb, hd]
    have := ih ((k + 1) % 256) (ds ++ [b]) hall2
    simp only [absRun, List.foldl_cons, hstep] at this ⊢
    rw [this]
    by_cases hbs : bs = []
    · subst hbs
      simp
    · have e : ((k + 1) % 256 + bs.length) % 256 = (k + (bs.length + 1)) % 256 := by
        rw [Nat.add_mod, Nat.mod_mod, ← Nat.add_mod]
        congr 1
        omega
      simp [hbs, e]

/-- A run of digits that starts with a digit other than zero is stored behind
the number of its digits modulo 256. -/
theorem VersionOrdinal_long_run (d : Nat) (rest : GoString) (hd : d ≠ 48)
    (hall : AllDigits (d :: rest)) :
    VersionOrdinal (d :: rest) = .ok (((d :: rest).length % 256) :: d :: rest) := by
  have hdd : ¬ (48 > d ∨ d > 57) := hall d (List.mem_cons_self _ _)
  have hall2 : AllDigits rest := fun x hx => hall x (List.mem_cons_of_mem _ hx)
  have hstep : absStep ⟨[], none⟩ d = ⟨[], some ⟨1, d, []⟩⟩ := by simp [absStep, hdd]
  rw [VersionOrdinal_eq]
  have := absRun_grow_mod [] d hd rest 1 [] hall2
  simp only [absRun, List.foldl_cons, hstep] at this ⊢
  rw [this]
  by_cases hr : rest = []
  · subst hr; simp [AbsState.out, DigitRun.bytes]
  · simp [AbsState.out, DigitRun.bytes, hr, Nat.add_comm]

/-- C14 (the code misses the claim): `VersionOrdinal` returns an encoding on
every input and never reaches its panic, because the test `vo[j]+1 > maxByte`
is computed in the type `byte`.  On the run "1" followed by 255 zeros, 256
digits, it returns the run behind the length byte 0, an encoding that is
byte-wise below that of "2". -/
theorem versionOrdinal_no_panic :
    (∀ version : GoString, ∃ out, VersionOrdinal version = .ok out) ∧
    (∀ c : Nat, ¬ ((c + 1) % 256 > maxByte)) ∧
    (49 :: List.replicate 255 48).length = 256 ∧
    AllDigits (49 :: List.replicate 255 48) ∧
    VersionOrdinal (49 :: List.replicate 255 48)
      = .ok (0 :: 49 :: List.replicate 255 48) ∧
    VersionOrdinal (ascii "2") = .ok [1, 50] ∧
    bytesLt (0 :: 49 :: List.replicate 255 48) [1, 50] = true := by
  have hall : AllDigits (49 :: List.replicate 255 48) := by
    intro b hb
    rcases List.mem_cons.mp hb with rfl | hb
    · decide
    · rw [List.eq_of_mem_replicate hb]
      decide
  refine ⟨fun version => ⟨_, VersionOrdinal_eq version⟩, ?_,
    by simp only [List.length_cons, List.length_replicate], hall, ?_, by decide,
    by rw [bytesLt]; rfl⟩
  · intro c
    have h : (c + 1) % 256 < 256 := Nat.mod_lt _ (by norm_num)
    have hm : maxByte = 255 := by decide
    omega
  · rw [VersionOrdinal_long_run 49 _ (by decide) hall]
    simp only [List.length_cons, List.length_replicate]

theorem absStep_first_digit (a : AbsState) (b : Nat)
    (h : ∀ r, a.run = some r → 48 ≤ r.first ∧ r.first ≤ 57) :
    ∀ r, (absStep a b).run = some r → 48 ≤ r.first ∧ r.first ≤ 57 := by
  intro r hr
  by_cases hb : 48 > b ∨ b > 57
  · simp [absStep, hb] at hr
  · have hbd : 48 ≤ b ∧ b ≤ 57 := by omega
    rcases a with ⟨pre, _ | r0⟩
    · simp only [absStep, hb, if_false, Option.some.injEq] at hr
      rw [← hr]; exact hbd
    · have h0 := h r0 rfl
      by_cases hz : r0.count = 1 ∧ r0.first = 48
      · simp only [absStep, hb, hz, if_false, and_self, if_true, Option.some.injEq] at hr
        rw [← hr]; exact hbd
      · simp only [absStep, hb, hz, if_false, Option.some.injEq] at hr
        rw [← hr]; exact h0

theorem absRun_first_digit (version : GoString) :
    ∀ a : AbsState, (∀ r, a.run = some r → 48 ≤ r.first ∧ r.first ≤ 57) →
      ∀ r, (absRun a version).run = some r → 48 ≤ r.first ∧ r.first ≤ 57 := by
  induction version with
  | nil => intro a h; exact h
  | cons b rest ih =>
    intro a h
    exact ih (absStep a b) (absStep_first_digit a b h)

/-- C20: on every input `VersionOrdinal` returns without an index out of
range.  At every position of the input, the state reached is defined, the
iteration on the next byte succeeds, and either `j` is `-1` or `vo[j]` and
`vo[j+1]` are in range, `vo[j+1]` being a digit stored earlier. -/
theorem versionOrdinal_index_in_range (version : GoString) :
    (∃ out, VersionOrdinal version = .ok out) ∧
    ∀ (pre : GoString) (b : Nat) (post : GoString), version = pre ++ b :: post →
      ∃ st st', voRun ⟨[], -1⟩ pre = .ok st ∧ voStep st b = .ok st' ∧
        (st.j = -1 ∨ ∃ c d, byteAt st.vo st.j = .ok c ∧
          byteAt st.vo (st.j + 1) = .ok d ∧ 48 ≤ d ∧ d ≤ 57) := by
  refine ⟨⟨_, VersionOrdinal_eq version⟩, ?_⟩
  intro pre b post _
  have hrun := voRun_conc pre ⟨[], none⟩
  have hc : (⟨[], none⟩ : AbsState).conc = ⟨[], -1⟩ := rfl
  rw [hc] at hrun
  refine ⟨_, _, hrun, voStep_conc _ b, ?_⟩
  have hdig := absRun_first_digit pre ⟨[], none⟩ (by intro r hr; cases hr)
  rcases h : absRun ⟨[], none⟩ pre with ⟨p, _ | r⟩
  · left; rfl
  · right
    rw [h] at hdig
    have hd := hdig r rfl
    refine ⟨r.count, r.first, ?_, ?_, hd.1, hd.2⟩
    · simp only [AbsState.conc, DigitRun.bytes]
      rw [byteAt_natCast, get?_append_length]
    · simp only [AbsState.conc, DigitRun.bytes]
      rw [byteAt_natCast_succ, get?_append_length_succ]

/-! ### Note groups -/

theorem noteMembers_append (l1 l2 : List NoteGroup) :
    noteMembers (l1 ++ l2) = noteMembers l1 ++ noteMembers l2 := by
  induction l1 with
  | nil => rfl
  | cons g rest ih => simp [noteMembers, ih]

theorem noteMembers_perm {l1 l2 : List NoteGroup} (h : l1.Perm l2) :
    (noteMembers l1).Perm (noteMembers l2) := by
  induction h with
  | nil => exact List.Perm.refl _
  | cons x _ ih => exact List.Perm.append_left _ ih
  | swap x y l =>
    simp only [noteMembers, ← List.append_assoc]
    exact List.Perm.append_right _ List.perm_append_comm
  | trans _ _ ih1 ih2 => exact ih1.trans ih2

theorem noteMembers_map_perm (f : NoteGroup → NoteGroup) (l : List NoteGroup)
    (hf : ∀ g, (f g).Notes.Perm g.Notes) :
    (noteMembers (l.map f)).Perm (noteMembers l) := by
  induction l with
  | nil => exact List.Perm.refl _
  | cons g rest ih => exact List.Perm.append (hf g) ih

theorem notesInv_nil : NotesInv [] where
  nodup := List.nodup_nil
  member := fun _ h => absurd h (List.not_mem_nil _)

theorem appendNote_map_no_match (groups : List NoteGroup) (note : Note)
    (h : ∀ g ∈ groups, g.Title ≠ note.Title) :
    groups.map (fun g =>
      if g.Title = note.Title then { g with Notes := g.Notes ++ [note] } else g) = groups := by
  induction groups with
  | nil => rfl
  | cons g rest ih =>
    have hg : g.Title ≠ note.Title := h g (List.mem_cons_self _ _)
    simp only [List.map_cons, hg, if_false]
    rw [ih (fun x hx => h x (List.mem_cons_of_mem _ hx))]

theorem appendNote_map_match (groups : List NoteGroup) (note : Note)
    (hnd : (groups.map NoteGroup.Title).Nodup) (hex : ∃ g ∈ groups, g.Title = note.Title) :
    (noteMembers (groups.map (fun g =>
      if g.Title = note.Title then { g with Notes := g.Notes ++ [note] } else g))).Perm
      (noteMembers groups ++ [note]) := by
  induction groups with
  | nil => obtain ⟨g, hg, _⟩ := hex; exact absurd hg (List.not_mem_nil _)
  | cons g rest ih =>
    simp only [List.map_cons, List.nodup_cons, List.mem_map, not_exists, not_and] at hnd
    by_cases hg : g.Title = note.Title
    · have hrest : ∀ x ∈ rest, x.Title ≠ note.Title := by
        intro x hx e
        exact hnd.1 x hx (e.trans hg.symm)
      simp only [List.map_cons, hg, if_true, noteMembers]
      rw [appendNote_map_no_match rest note hrest]
      simp only [List.append_assoc]
      exact List.Perm.append_left _ List.perm_append_comm
    · have hex2 : ∃ x ∈ rest, x.Title = note.Title := by
        obtain ⟨x, hx, hxr⟩ := hex
        rcases List.mem_cons.mp hx with rfl | hx
        · exact absurd hxr hg
        · exact ⟨x, hx, hxr⟩
      simp only [List.map_cons, hg, if_false, noteMembers, List.append_assoc]
      exact List.Perm.append_left _ (ih hnd.2 hex2)

/-- One call of `appendNoteToNoteGroups` keeps the invariant of the note
groups and adds the note once. -/
theorem appendNote_inv (groups : List NoteGroup) (note : Note) (hinv : NotesInv groups) :
    NotesInv (appendNoteToNoteGroups groups note) ∧
    (noteMembers (appendNoteToNoteGroups groups note)).Perm (noteMembers groups ++ [note]) := by
  have htitles : (groups.map (fun g =>
      if g.Title = note.Title then { g with Notes := g.Notes ++ [note] } else g)).map
        NoteGroup.Title = groups.map NoteGroup.Title := by
    rw [List.map_map]
    apply List.map_congr_left
    intro g _
    by_cases hg : g.Title = note.Title <;> simp [hg]
  have hmember : ∀ g' ∈ groups.map (fun g =>
      if g.Title = note.Title then { g with Notes := g.Notes ++ [note] } else g),
      ∀ n ∈ g'.Notes, n.Title = g'.Title := by
    intro g' hg' n hn
    obtain ⟨g, hg, rfl⟩ := List.mem_map.mp hg'
    by_cases ht : g.Title = note.Title
    · simp only [ht, if_true] at hn ⊢
      rcases List.mem_append.mp hn with h | h
      · exact (hinv.member g hg n h).trans ht
      · rw [List.mem_singleton.mp h]
    · simp only [ht, if_false] at hn ⊢
      exact hinv.member g hg n hn
  by_cases hex : ∃ g ∈ groups, g.Title = note.Title
  · have hany : groups.any (fun g => decide (g.Title = note.Title)) = true := by
      simpa using hex
    simp only [appendNoteToNoteGroups, hany, if_true]
    exact ⟨⟨htitles ▸ hinv.nodup, hmember⟩, appendNote_map_match groups note hinv.nodup hex⟩
  · have hno : ∀ g ∈ groups, g.Title ≠ note.Title := fun g hg e => hex ⟨g, hg, e⟩
    have hany : groups.any (fun g => decide (g.Title = note.Title)) = false := by
      simpa using hno
    simp only [appendNoteToNoteGroups, hany, Bool.false_eq_true, if_false]
    rw [appendNote_map_no_match groups note hno]
    refine ⟨⟨?_, ?_⟩, ?_⟩
    · rw [List.map_append, List.nodup_append]
      refine ⟨hinv.nodup, by simp, ?_⟩
      intro a ha hb
      have hb2 : a = note.Title := by simpa using hb
      obtain ⟨x, hx, hxa⟩ := List.mem_map.mp ha
      exact hno x hx (hxa.trans hb2)
    · intro g hg n hn
      rcases List.mem_append.mp hg with h | h
      · exact hinv.member g h n hn
      · rw [List.mem_singleton.mp h] at hn ⊢
        rw [List.mem_singleton.mp hn]
    · simp [noteMembers_append, noteMembers]

theorem processNoteGroups_inv (commit : Commit) :
    ∀ groups : List NoteGroup, NotesInv groups →
      NotesInv (processNoteGroups groups commit) ∧
      (noteMembers (processNoteGroups groups commit)).Perm
        (noteMembers groups ++ commit.Notes) := by
  have key : ∀ (notes : List Note) (groups : List NoteGroup), NotesInv groups →
      NotesInv (notes.foldl appendNoteToNoteGroups groups) ∧
      (noteMembers (notes.foldl appendNoteToNoteGroups groups)).Perm
        (noteMembers groups ++ notes) := by
    intro notes
    induction notes with
    | nil => intro groups h; exact ⟨h, by simp⟩
    | cons n rest ih =>
      intro groups h
      obtain ⟨h1, p1⟩ := appendNote_inv groups n h
      obtain ⟨h2, p2⟩ := ih _ h1
      refine ⟨h2, p2.trans ?_⟩
      have := p1.append_right rest
      simpa using this
  exact key commit.Notes

/-- The second loop of `Extract` keeps the invariant of the note groups and
adds the notes of every commit it passes. -/
theorem groupStep_fold_notes (env : Env) (opts : Options) (l : List Commit) :
    ∀ (gs : List CommitGroup) (ns : List NoteGroup), NotesInv ns →
      NotesInv (l.foldl (groupStep env opts) (gs, ns)).2 ∧
      (noteMembers (l.foldl (groupStep env opts) (gs, ns)).2).Perm
        (noteMembers ns ++ commitNotes l) := by
  induction l with
  | nil => intro gs ns h; exact ⟨h, by simp [commitNotes]⟩
  | cons c rest ih =>
    intro gs ns h
    obtain ⟨h1, p1⟩ := processNoteGroups_inv c ns h
    obtain ⟨h2, p2⟩ := ih (groupStep env opts (gs, ns) c).1 (processNoteGroups ns c) h1
    have hstep : groupStep env opts (gs, ns) c
        = ((groupStep env opts (gs, ns) c).1, processNoteGroups ns c) := rfl
    rw [List.foldl_cons, hstep]
    refine ⟨h2, p2.trans ?_⟩
    have := p1.append_right (commitNotes rest)
    simpa [commitNotes] using this

/-- With a `sort.Slice` that only rearranges, `sortNoteGroups` rearranges the
groups and, inside each group, the notes; titles stay with their groups. -/
theorem sortNoteGroups_spec (env : Env) (groups : List NoteGroup)
    (hs : SortSliceLawful env.sortSlice) :
    ((sortNoteGroups env groups).map NoteGroup.Title).Perm (groups.map NoteGroup.Title) ∧
    (∀ g' ∈ sortNoteGroups env groups, ∃ g ∈ groups,
        g'.Title = g.Title ∧ g'.Notes.Perm g.Notes) ∧
    (noteMembers (sortNoteGroups env groups)).Perm (noteMembers groups) := by
  refine ⟨?_, ?_, ?_⟩
  · simp only [sortNoteGroups, List.map_map]
    exact (hs.perm _ _ groups).map _
  · intro g' hg'
    simp only [sortNoteGroups, List.mem_map] at hg'
    obtain ⟨g, hg, rfl⟩ := hg'
    exact ⟨g, (hs.perm _ _ groups).subset hg, rfl, hs.perm _ _ _⟩
  · simp only [sortNoteGroups]
    exact (noteMembers_map_perm _ _ (fun g => hs.perm _ _ _)).trans
      (noteMembers_perm (hs.perm _ _ groups))

/-- C11: with a `sort.Slice` that only rearranges, the note groups `Extract`
returns have pairwise distinct titles, every note of a group has the group's
title, and the notes of all groups together are, as a multiset, the notes of
all commits that pass the commit filter, merge and revert commits and
commits without a classification key included. -/
theorem extract_note_groups (env : Env) (opts : Options) (commits : List Commit)
    (hs : SortSliceLawful env.sortSlice) :
    ((Extract env opts commits).noteGroups.map NoteGroup.Title).Nodup ∧
    (∀ g ∈ (Extract env opts commits).noteGroups, ∀ n ∈ g.Notes, n.Title = g.Title) ∧
    (noteMembers (Extract env opts commits).noteGroups).Perm
      (commitNotes (commitFilter commits opts.CommitFilters)) := by
  obtain ⟨hinv, hperm⟩ := groupStep_fold_notes env opts
    (commitFilter commits opts.CommitFilters) [] [] notesInv_nil
  obtain ⟨h1, h2, h3⟩ := sortNoteGroups_spec env
    ((commitFilter commits opts.CommitFilters).foldl (groupStep env opts) ([], [])).2 hs
  refine ⟨h1.nodup_iff.mpr hinv.nodup, ?_, ?_⟩
  · intro g' hg' n hn
    obtain ⟨g, hg, ht, hp⟩ := h2 g' hg'
    rw [ht]
    exact hinv.member g hg n (hp.subset hn)
  · exact h3.trans (by simpa [noteMembers] using hperm)

/-- Witness for C11: a plain commit with two notes and a merge commit with
one note. -/
theorem extract_note_groups_witness :
    (noteMembers (Extract sampleEnv defaultOptions
        [notedCommit, notedMergeCommit]).noteGroups).Perm
      (commitNotes (commitFilter [notedCommit, notedMergeCommit]
        defaultOptions.CommitFilters)) ∧
    commitNotes (commitFilter [notedCommit, notedMergeCommit] defaultOptions.CommitFilters)
      = [⟨ascii "BREAKING CHANGE", ascii "x"⟩, ⟨ascii "Note", ascii "y"⟩,
          ⟨ascii "breaking change", ascii "z"⟩] :=
  ⟨(extract_note_groups sampleEnv defaultOptions [notedCommit, notedMergeCommit]
      insertionSortSlice_lawful).2.2, by decide⟩

theorem strictWeakOrder_key {α : Type} (key : α → GoString) :
    StrictWeakOrder (fun a b => bytesLt (key a) (key b)) where
  irrefl := fun a => bytesLt_irrefl _
  trans := fun a b c h1 h2 => bytesLt_trans _ _ _ h1 h2
  incomp_trans := fun a b c h1 h2 => by
    by_contra h3
    have h3 : bytesLt (key a) (key c) = true := by simpa using h3
    by_cases e : key a = key b
    · rw [e] at h3; rw [h3] at h2; cases h2
    · rcases bytesLt_connex _ _ e with h | h
      · rw [h] at h1; cases h1
      · have := bytesLt_trans _ _ _ h h3
        rw [this] at h2; cases h2

/-- C13: with a `sort.Slice` that keeps the library's promise, the note
groups `Extract` returns are in ascending order of their lower-cased titles:
in every adjacent pair the lower-cased title of the later group is not below
that of the earlier one, so the earlier one is below or equal.  They are the
note groups built before sorting, rearranged: same titles, same notes, same
number of groups. -/
theorem extract_note_groups_sorted (env : Env) (opts : Options) (commits : List Commit)
    (hs : SortSliceLawful env.sortSlice) :
    List.Chain' (fun a b => bytesLt (env.toLower b.Title) (env.toLower a.Title) = false)
      (Extract env opts commits).noteGroups ∧
    List.Chain' (fun a b => bytesLt (env.toLower a.Title) (env.toLower b.Title) = true ∨
        env.toLower a.Title = env.toLower b.Title)
      (Extract env opts commits).noteGroups ∧
    (Extract env opts commits).noteGroups = sortNoteGroups env (notesBeforeSort env opts commits) ∧
    ((Extract env opts commits).noteGroups.map NoteGroup.Title).Perm
      ((notesBeforeSort env opts commits).map NoteGroup.Title) ∧
    (noteMembers (Extract env opts commits).noteGroups).Perm
      (noteMembers (notesBeforeSort env opts commits)) ∧
    (Extract env opts commits).noteGroups.length = (notesBeforeSort env opts commits).length := by
  have hdef : (Extract env opts commits).noteGroups
      = sortNoteGroups env (notesBeforeSort env opts commits) := rfl
  obtain ⟨h1, _, h3⟩ := sortNoteGroups_spec env (notesBeforeSort env opts commits) hs
  have hsorted : (Extract env opts commits).noteGroups.Pairwise
      (fun a b => bytesLt (env.toLower b.Title) (env.toLower a.Title) = false) := by
    rw [hdef]
    simp only [sortNoteGroups, List.pairwise_map]
    exact hs.sorted NoteGroup _ _ (strictWeakOrder_key (fun g => env.toLower g.Title))
  refine ⟨hsorted.chain', ?_, hdef, hdef ▸ h1, hdef ▸ h3, ?_⟩
  · refine (hsorted.imp ?_).chain'
    intro a b h
    by_cases e : env.toLower a.Title = env.toLower b.Title
    · right; exact e
    · left
      rcases bytesLt_connex _ _ e with h2 | h2
      · exact h2
      · rw [h2] at h; cases h
  · have := h1.length_eq
    simpa [hdef] using this

/-- Witness for C13: the titles "Note", "breaking change" and "BREAKING
CHANGE" come out with the lower-cased titles in ascending order. -/
theorem extract_note_groups_sorted_witness :
    List.Chain' (fun a b => bytesLt (sampleEnv.toLower b.Title)
        (sampleEnv.toLower a.Title) = false)
      (Extract sampleEnv defaultOptions [notedCommit, notedMergeCommit]).noteGroups ∧
    (Extract sampleEnv defaultOptions [notedCommit, notedMergeCommit]).noteGroups.map
        NoteGroup.Title
      = [ascii "BREAKING CHANGE", ascii "breaking change", ascii "Note"] :=
  ⟨(extract_note_groups_sorted sampleEnv defaultOptions [notedCommit, notedMergeCommit]
      insertionSortSlice_lawful).1, by decide⟩

/-! ### Sorting of the commit groups -/

theorem orderedInsert_sorted_on {α : Type} (r : α → α → Prop) [DecidableRel r]
    (S : α → Prop) (htot : ∀ a b, S a → S b → r a b ∨ r b a)
    (htr : ∀ a b c, S a → S b → S c → r a b → r b c → r a c) (a : α) (ha : S a) :
    ∀ l : List α, (∀ x ∈ l, S x) → l.Sorted r → (l.orderedInsert r a).Sorted r := by
  intro l
  induction l with
  | nil => intro _ _; exact List.sorted_singleton a
  | cons b l ih =>
    intro hS hsorted
    have hb : S b := hS b (List.mem_cons_self _ _)
    have hl : ∀ x ∈ l, S x := fun x hx => hS x (List.mem_cons_of_mem _ hx)
    obtain ⟨hbl, hsl⟩ := List.sorted_cons.mp hsorted
    by_cases hab : r a b
    · simp only [List.orderedInsert, hab, if_true]
      refine List.sorted_cons.mpr ⟨?_, hsorted⟩
      intro y hy
      rcases List.mem_cons.mp hy with rfl | hy
      · exact hab
      · exact htr a b y ha hb (hl y hy) hab (hbl y hy)
    · simp only [List.orderedInsert, hab, if_false]
      have hba : r b a := (htot a b ha hb).resolve_left hab
      refine List.sorted_cons.mpr ⟨?_, ih hl hsl⟩
      intro y hy
      rcases (List.mem_orderedInsert r).mp hy with rfl | hy
      · exact hba
      · exact hbl y hy

theorem insertionSort_sorted_on {α : Type} (r : α → α → Prop) [DecidableRel r]
    (S : α → Prop) (htot : ∀ a b, S a → S b → r a b ∨ r b a)
    (htr : ∀ a b c, S a → S b → S c → r a b → r b c → r a c) :
    ∀ l : List α, (∀ x ∈ l, S x) → (l.insertionSort r).Sorted r := by
  intro l
  induction l with
  | nil => intro _; exact List.sorted_nil
  | cons a l ih =>
    intro hS
    have hl : ∀ x ∈ l, S x := fun x hx => hS x (List.mem_cons_of_mem _ hx)
    simp only [List.insertionSort]
    refine orderedInsert_sorted_on r S htot htr a (hS a (List.mem_cons_self _ _)) _ ?_ (ih hl)
    intro x hx
    exact hl x ((List.perm_insertionSort r l).subset hx)

theorem insertionSortSlice_lawfulOn : SortSliceLawfulOn insertionSortSlice where
  perm := fun _ less xs => List.perm_insertionSort (fun a b => less b a = false) xs
  sorted := by
    intro α less xs h
    refine insertionSort_sorted_on (fun a b => less b a = false) (fun a => a ∈ xs) ?_ ?_ xs
      (fun x hx => hx)
    · intro a b ha hb
      by_cases hba : less b a = true
      · right
        by_contra hab
        have hab2 : less a b = true := by simpa using hab
        have := h.trans a ha b hb a ha hab2 hba
        rw [h.irrefl a ha] at this
        cases this
      · left; simpa using hba
    · intro a b c ha hb hc hab hbc
      exact h.incomp_trans c hc b hb a ha hbc hab

theorem StrictWeakOrder.on {α : Type} {less : α → α → Bool} (h : StrictWeakOrder less)
    (xs : List α) : StrictWeakOrderOn less xs where
  irrefl := fun a _ => h.irrefl a
  trans := fun a _ b _ c _ => h.trans a b c
  incomp_trans := fun a _ b _ c _ => h.incomp_trans a b c

theorem SortSliceLawfulOn.lawful {sortSlice : SortSlice} (h : SortSliceLawfulOn sortSlice) :
    SortSliceLawful sortSlice where
  perm := h.perm
  sorted := fun α less xs hl => h.sorted α less xs (hl.on xs)

/-- C12: with a `sort.Slice` that keeps the library's promise, when the group
sort key resolves on every commit group to values that `compare` compares
without an error and orders (and does not depend on the order of a group's
commits), and the commit sort key does so on the commits of every group,
`Extract` returns the commit groups in ascending order of the group sort key
(no later group's key is less than an earlier group's key, for adjacent and
for all pairs) and, inside every group, the commits in ascending order of the
commit sort key.  The groups are those built before sorting, rearranged, each
with its raw title, its title and a rearrangement of its commits. -/
theorem extract_commit_groups_sorted (env : Env) (opts : Options) (commits : List Commit)
    (hs : SortSliceLawfulOn env.sortSlice)
    (hg : SortKeyOrdered env (fun g => env.dotGetGroup g opts.CommitGroupSortBy)
      (groupsBeforeSort env opts commits))
    (hstable : ∀ g ∈ groupsBeforeSort env opts commits, ∀ cs : List Commit,
      cs.Perm g.Commits →
      env.dotGetGroup { g with Commits := cs } opts.CommitGroupSortBy
        = env.dotGetGroup g opts.CommitGroupSortBy)
    (hc : ∀ g ∈ groupsBeforeSort env opts commits,
      SortKeyOrdered env (fun c => env.dotGetCommit c opts.CommitSortBy) g.Commits) :
    (Extract env opts commits).commitGroups.Pairwise
      (fun a b => groupLess env opts b a = false) ∧
    List.Chain' (fun a b => groupLess env opts b a = false)
      (Extract env opts commits).commitGroups ∧
    (∀ g ∈ (Extract env opts commits).commitGroups,
      g.Commits.Pairwise (fun a b => commitLess env opts b a = false)) ∧
    (Extract env opts commits).commitGroups
      = sortCommitGroups env opts (groupsBeforeSort env opts commits) ∧
    ((Extract env opts commits).commitGroups.map CommitGroup.RawTitle).Perm
      ((groupsBeforeSort env opts commits).map CommitGroup.RawTitle) ∧
    (∀ g' ∈ (Extract env opts commits).commitGroups,
      ∃ g ∈ groupsBeforeSort env opts commits,
        g'.RawTitle = g.RawTitle ∧ g'.Title = g.Title ∧ g'.Commits.Perm g.Commits) ∧
    (Extract env opts commits).commitGroups.length
      = (groupsBeforeSort env opts commits).length := by
  have hdef : (Extract env opts commits).commitGroups
      = sortCommitGroups env opts (groupsBeforeSort env opts commits) := rfl
  obtain ⟨h1, h2, _⟩ := sortCommitGroups_spec env opts (groupsBeforeSort env opts commits)
    hs.lawful
  have hsortedPre : (env.sortSlice CommitGroup (groupLess env opts)
      (groupsBeforeSort env opts commits)).Pairwise
        (fun a b => groupLess env opts b a = false) :=
    hs.sorted CommitGroup (groupLess env opts) _ hg.order
  have hsub : ∀ g ∈ env.sortSlice CommitGroup (groupLess env opts)
      (groupsBeforeSort env opts commits), g ∈ groupsBeforeSort env opts commits :=
    fun g hgm => (hs.perm _ _ _).subset hgm
  have hpair : (Extract env opts commits).commitGroups.Pairwise
      (fun a b => groupLess env opts b a = false) := by
    rw [hdef]
    simp only [sortCommitGroups, List.pairwise_map]
    refine hsortedPre.imp_of_mem ?_
    intro a b ha hb hab
    have ka := hstable a (hsub a ha) _ (hs.perm Commit (commitLess env opts) a.Commits)
    have kb := hstable b (hsub b hb) _ (hs.perm Commit (commitLess env opts) b.Commits)
    simp only [groupLess] at hab ⊢
    rw [← hab]
    exact congrArg₂ (lessBy env) kb ka
  refine ⟨hpair, hpair.chain', ?_, hdef, hdef ▸ h1, hdef ▸ h2, ?_⟩
  · intro g' hg'
    rw [hdef] at hg'
    simp only [sortCommitGroups, List.mem_map] at hg'
    obtain ⟨g, hgm, rfl⟩ := hg'
    exact hs.sorted Commit (commitLess env opts) g.Commits (hc g (hsub g hgm)).order
  · have := h1.length_eq
    simpa [hdef] using this

theorem sampleEnv_group_key (g : CommitGroup) :
    sampleEnv.dotGetGroup g sortOptions.CommitGroupSortBy = some (.str g.RawTitle) := by
  simp [sampleEnv, sortOptions]

theorem sampleEnv_commit_key (c : Commit) :
    sampleEnv.dotGetCommit c sortOptions.CommitSortBy = some (.str c.Header) := by
  simp [sampleEnv, sortOptions]

theorem sampleEnv_lessBy_str (x y : GoString) :
    lessBy sampleEnv (some (.str x)) (some (.str y)) = bytesLt x y := by
  simp [lessBy, sampleEnv]

theorem sampleEnv_groups_ordered (xs : List CommitGroup) :
    SortKeyOrdered sampleEnv
      (fun g => sampleEnv.dotGetGroup g sortOptions.CommitGroupSortBy) xs where
  resolves := fun a _ => ⟨_, sampleEnv_group_key a⟩
  comparable := by
    intro a _ b _ x y hx hy
    rw [sampleEnv_group_key] at hx hy
    cases hx; cases hy
    exact ⟨_, rfl⟩
  order := by
    have h : (fun a b : CommitGroup =>
        lessBy sampleEnv (sampleEnv.dotGetGroup a sortOptions.CommitGroupSortBy)
          (sampleEnv.dotGetGroup b sortOptions.CommitGroupSortBy))
        = (fun a b => bytesLt a.RawTitle b.RawTitle) := by
      funext a b
      rw [sampleEnv_group_key, sampleEnv_group_key, sampleEnv_lessBy_str]
    rw [h]
    exact (strictWeakOrder_key CommitGroup.RawTitle).on xs

theorem sampleEnv_commits_ordered (xs : List Commit) :
    SortKeyOrdered sampleEnv
      (fun c => sampleEnv.dotGetCommit c sortOptions.CommitSortBy) xs where
  resolves := fun a _ => ⟨_, sampleEnv_commit_key a⟩
  comparable := by
    intro a _ b _ x y hx hy
    rw [sampleEnv_commit_key] at hx hy
    cases hx; cases hy
    exact ⟨_, rfl⟩
  order := by
    have h : (fun a b : Commit =>
        lessBy sampleEnv (sampleEnv.dotGetCommit a sortOptions.CommitSortBy)
          (sampleEnv.dotGetCommit b sortOptions.CommitSortBy))
        = (fun a b => bytesLt a.Header b.Header) := by
      funext a b
      rw [sampleEnv_commit_key, sampleEnv_commit_key, sampleEnv_lessBy_str]
    rw [h]
    exact (strictWeakOrder_key Commit.Header).on xs

/-- Witness for C12: groups sorted by `RawTitle`, commits by `Header`, on the
commits "c (fix)", "b (feat)", "a (fix)". -/
theorem extract_commit_groups_sorted_witness :
    (Extract sampleEnv sortOptions
        [plainCommit (ascii "c (fix)"), plainCommit (ascii "b (feat)"),
          plainCommit (ascii "a (fix)")]).commitGroups.Pairwise
      (fun a b => groupLess sampleEnv sortOptions b a = false) ∧
    (Extract sampleEnv sortOptions
        [plainCommit (ascii "c (fix)"), plainCommit (ascii "b (feat)"),
          plainCommit (ascii "a (fix)")]).commitGroups
      = [⟨ascii "feat", ascii "Feature", [plainCommit (ascii "b (feat)")]⟩,
          ⟨ascii "fix", ascii "Bugfix",
            [plainCommit (ascii "a (fix)"), plainCommit (ascii "c (fix)")]⟩] :=
  ⟨(extract_commit_groups_sorted sampleEnv sortOptions _ insertionSortSlice_lawfulOn
      (sampleEnv_groups_ordered _)
      (fun g _ cs _ => by rw [sampleEnv_group_key, sampleEnv_group_key])
      (fun g _ => sampleEnv_commits_ordered _)).1,
    by decide⟩

/-! ### GetChangeLog and GetVersionChangeLog -/

/-- C15: when the tag reader succeeds with an empty tag list,
`GetChangeLog` returns the error "git-tag does not exist" and no version
list, for every query, selector and parser. -/
theorem getChangeLog_no_tags (c : ChangeLogger) (query : GoString)
    (h : c.readAll = .ok []) :
    getTags c query = .error (ascii "git-tag does not exist") ∧
    GetChangeLog c query = .error (ascii "git-tag does not exist") := by
  have h1 : getTags c query = .error (ascii "git-tag does not exist") := by
    simp [getTags, h]
  exact ⟨h1, by simp only [GetChangeLog, h1]⟩

/-- Witness for C15. -/
theorem getChangeLog_no_tags_witness :
    GetChangeLog (sampleLogger (.ok [])) (ascii "v1")
      = .error (ascii "git-tag does not exist") :=
  (getChangeLog_no_tags (sampleLogger (.ok [])) (ascii "v1") rfl).2

/-- C16: when `ReadAll` has returned a tag list that is not empty, an error
of the tag selector on a non-empty query is what `GetChangeLog` returns; and
when the commit parser returns an error for the range of a tag of the selected
list, after succeeding on the ranges of the tags before it, that error is what
`GetChangeLog` returns.  In both cases no version list is returned. -/
theorem getChangeLog_propagates (c : ChangeLogger) (query : GoString) (tags : List Tag)
    (hread : c.readAll = .ok tags) (hne : tags ≠ []) :
    (∀ e, query ≠ [] → c.select tags query = .error e →
      GetChangeLog c query = .error e) ∧
    (∀ (selected : List Tag) (first : GoString) (k : Nat) (t : Tag) (e : GoError),
      getTags c query = .ok (selected, first) →
      selected[k]? = some t →
      c.parse (revisionRange selected first k t) = .error e →
      (∀ (j : Nat) (u : Tag), j < k → selected[j]? = some u →
        ∃ cs, c.parse (revisionRange selected first j u) = .ok cs) →
      GetChangeLog c query = .error e) ∧
    (query = [] → getTags c query = .ok (tags, [])) ∧
    (∀ selected first, query ≠ [] → c.select tags query = .ok (selected, first) →
      getTags c query = .ok (selected, first)) := by
  have hlen : ¬ (tags.length = 0) := by
    intro h
    exact hne (List.length_eq_zero.mp h)
  refine ⟨?_, ?_, ?_, ?_⟩
  · intro e hq hsel
    have h1 : getTags c query = .error e := by
      simp [getTags, hread, hlen, hq, hsel]
    simp only [GetChangeLog, h1]
  · intro selected first k t e hget hk herr hbefore
    have hres := readVersionsLoop_first_failure c.env c.opts c.parse selected first selected
      0 [] [] k t e hk (by simpa using herr)
      (by intro j u hj hu; simpa using hbefore j u hj hu)
    have hres2 : (readVersions c.env c.opts c.parse selected first).result = .error e := hres
    simp only [GetChangeLog, hget, hres2]
  · intro hq
    simp [getTags, hread, hlen, hq]
  · intro selected first hq hsel
    simp [getTags, hread, hlen, hq, hsel]

/-- Witness for C16: the parser succeeds on the range of the first tag and
fails on that of the second. -/
theorem getChangeLog_propagates_witness :
    GetChangeLog failingLogger (ascii "v") = .error (ascii "bad revision") :=
  (getChangeLog_propagates failingLogger (ascii "v")
    [plainTag (ascii "v2"), plainTag (ascii "v1")] rfl (by decide)).2.1
    [plainTag (ascii "v2"), plainTag (ascii "v1")] [] 1 (plainTag (ascii "v1"))
    (ascii "bad revision") (by decide) (by decide) (by decide)
    (by
      intro j u hj hu
      have hj0 : j = 0 := by omega
      subst hj0
      have : plainTag (ascii "v2") = u := by simpa using hu
      subst this
      exact ⟨[], by decide⟩)

theorem readVersionsLoop_tags (env : Env) (opts : Options)
    (parse : GoString → Except GoError (List Commit)) (tags : List Tag) (first : GoString)
    (rest : List Tag) :
    ∀ (i : Nat) (versions : List Version) (calls : List GoString) (vs : List Version),
      (readVersionsLoop env opts parse tags first i rest versions calls).result = .ok vs →
      vs.map Version.Tag = versions.map Version.Tag ++ rest := by
  induction rest with
  | nil =>
    intro i versions calls vs h
    simp only [readVersionsLoop, Except.ok.injEq] at h
    simp [h]
  | cons tag rest ih =>
    intro i versions calls vs h
    cases hp : parse (revisionRange tags first i tag) with
    | error err => simp [readVersionsLoop, hp] at h
    | ok commits =>
      simp only [readVersionsLoop, hp] at h
      have := ih (i + 1) _ _ vs h
      rw [this]
      simp [mkVersion]

/-- C17: `GetVersionChangeLog` passes on the error of `GetChangeLog`, reports
"Version <query> not found" when `GetChangeLog` returns an empty list, and
otherwise returns the first element of the list, which is the version of the
first tag of the selected list; it returns an error in the first two cases
only.  With an empty query, `getTags` returns all tags and an empty boundary. -/
theorem getVersionChangeLog_spec (c : ChangeLogger) (query : GoString) :
    (∀ e, GetChangeLog c query = .error e → GetVersionChangeLog c query = .error e) ∧
    (GetChangeLog c query = .ok [] →
      GetVersionChangeLog c query
        = .error (ascii "Version " ++ query ++ ascii " not found")) ∧
    (∀ v rest, GetChangeLog c query = .ok (v :: rest) →
      GetVersionChangeLog c query = .ok v) ∧
    ((∃ e, GetVersionChangeLog c query = .error e) ↔
      ((∃ e, GetChangeLog c query = .error e) ∨ GetChangeLog c query = .ok [])) ∧
    (∀ selected first vs, getTags c query = .ok (selected, first) →
      GetChangeLog c query = .ok vs → vs.map Version.Tag = selected) ∧
    (∀ tags, c.readAll = .ok tags → tags ≠ [] →
      getTags c [] = .ok (tags, []) ∧
      GetChangeLog c [] = (readVersions c.env c.opts c.parse tags []).result) := by
  refine ⟨?_, ?_, ?_, ?_, ?_, ?_⟩
  · intro e h
    simp only [GetVersionChangeLog, h]
  · intro h
    simp only [GetVersionChangeLog, h]
  · intro v rest h
    simp only [GetVersionChangeLog, h]
  · constructor
    · rintro ⟨e, he⟩
      rcases h : GetChangeLog c query with e2 | vs
      · exact Or.inl ⟨e2, rfl⟩
      · cases vs with
        | nil => exact Or.inr rfl
        | cons v rest => simp [GetVersionChangeLog, h] at he
    · rintro (⟨e, he⟩ | h)
      · exact ⟨e, by simp only [GetVersionChangeLog, he]⟩
      · exact ⟨ascii "Version " ++ query ++ ascii " not found",
          by simp only [GetVersionChangeLog, h]⟩
  · intro selected first vs hget h
    simp only [GetChangeLog, hget] at h
    rcases hr : (readVersions c.env c.opts c.parse selected first).result with e | vs2
    · simp [hr] at h
    · simp only [hr, Except.ok.injEq] at h
      subst h
      have := readVersionsLoop_tags c.env c.opts c.parse selected first selected 0 [] [] vs2 hr
      simpa using this
  · intro tags hread hne
    have hlen : ¬ (tags.length = 0) := fun h => hne (List.length_eq_zero.mp h)
    have h1 : getTags c [] = .ok (tags, []) := by simp [getTags, hread, hlen]
    refine ⟨h1, ?_⟩
    simp only [GetChangeLog, h1]
    rcases (readVersions c.env c.opts c.parse tags []).result with e | vs <;> rfl

/-! ### ReadAll -/

theorem parseRefname_leading (s : GoString) : parseRefname (ascii "refs/tags/" ++ s) = s := by
  have h : ascii "refs/tags/" = [114, 101, 102, 115, 47, 116, 97, 103, 115, 47] := by decide
  simp [parseRefname, h, replaceFirst, List.isPrefixOf]

theorem list_length_four {α : Type} (l : List α) (h : l.length = 4) :
    ∃ a b c d, l = [a, b, c, d] := by
  match l, h with
  | [a, b, c, d], _ => exact ⟨a, b, c, d, rfl⟩

theorem readAllLine_not_four (env : TagEnv) (r : tagReader) (line : GoString)
    (h : (goSplit line r.separator).length ≠ 4) :
    readAllLine env r line = .ok none ∧ lineTag env r.separator line = none := by
  rcases hs : goSplit line r.separator with
    _ | ⟨a, _ | ⟨b, _ | ⟨c, _ | ⟨d, _ | ⟨e, l⟩⟩⟩⟩⟩
  all_goals first
    | (exfalso; apply h; rw [hs]; rfl)
    | (constructor <;> simp only [readAllLine, lineTag, hs])

theorem readAllLine_four (env : TagEnv) (r : tagReader) (line a b c d : GoString)
    (hs : goSplit line r.separator = [a, b, c, d]) :
    lineTag env r.separator line
      = (lineDate env c d).map (fun t => ⟨parseRefname a, env.trimSpace b, t⟩) ∧
    (∀ t, lineDate env c d = some t →
      readAllLine env r line
        = .ok (if accepts r (parseRefname a) = true
            then some ⟨parseRefname a, env.trimSpace b, t, none, none⟩ else none)) ∧
    (lineDate env c d = none →
      ∃ e, env.timeParse d = .error e ∧ readAllLine env r line = .error e) := by
  refine ⟨by simp only [lineTag, hs], ?_, ?_⟩
  · intro t ht
    have hdate : (match parseDate env c with
           | .ok date => Except.ok date
           | .error _ => parseDate env d) = .ok t := by
      simp only [lineDate, parseDate] at ht ⊢
      rcases hc : env.timeParse c with e | tc
      · rcases hd : env.timeParse d with e2 | td
        · simp [hc, hd] at ht
        · simp only [hc, hd, Option.some.injEq] at ht
          simp [hc, hd, ht]
      · simp only [hc, Option.some.injEq] at ht
        simp [hc, ht]
    simp only [readAllLine, hs, hdate, parseSubject, accepts]
    cases r with
    | mk ex sep f =>
      cases f with
      | none => simp
      | some f => cases hfa : f (parseRefname a) <;> simp [hfa]
  · intro hnone
    simp only [lineDate] at hnone
    rcases hc : env.timeParse c with e | tc
    · rcases hd : env.timeParse d with e2 | td
      · exact ⟨e2, rfl, by simp [readAllLine, hs, parseDate, hc, hd]⟩
      · simp [hc, hd] at hnone
    · simp [hc] at hnone

/-- The tags the lines stand for, in order, those the filter lets through. -/
theorem readAllLoop_ok (env : TagEnv) (r : tagReader) (lines : List GoString)
    (hdates : ∀ line ∈ lines, ∀ a b c d, goSplit line r.separator = [a, b, c, d] →
      ∃ t, lineDate env c d = some t) :
    ∀ acc, readAllLoop env r lines acc
      = .ok (acc ++ (((lines.filterMap (lineTag env r.separator)).filter
          (fun t => accepts r t.Name)).map tagOf)) := by
  induction lines with
  | nil => intro acc; simp [readAllLoop]
  | cons line rest ih =>
    intro acc
    have ihr := ih (fun l hl => hdates l (List.mem_cons_of_mem _ hl))
    by_cases h4 : (goSplit line r.separator).length = 4
    · obtain ⟨a, b, c, d, hs⟩ := list_length_four _ h4
      obtain ⟨t, ht⟩ := hdates line (List.mem_cons_self _ _) a b c d hs
      obtain ⟨hline, hok, -⟩ := readAllLine_four env r line a b c d hs
      have hlt : lineTag env r.separator line
          = some ⟨parseRefname a, env.trimSpace b, t⟩ := by rw [hline, ht]; rfl
      by_cases hacc : accepts r (parseRefname a) = true
      · simp only [readAllLoop, hok t ht, hacc, if_true, ihr]
        simp [List.filterMap_cons, hlt, List.filter_cons, hacc, tagOf]
      · simp only [readAllLoop, hok t ht, hacc, if_false, ihr]
        simp [List.filterMap_cons, hlt, List.filter_cons, hacc]
    · obtain ⟨hline, hlt⟩ := readAllLine_not_four env r line h4
      simp only [readAllLoop, hline, ihr]
      simp [List.filterMap_cons, hlt]

theorem readAllLoop_error (env : TagEnv) (r : tagReader) (lines : List GoString)
    (hbad : ∃ line ∈ lines, ∃ a b c d, goSplit line r.separator = [a, b, c, d] ∧
      lineDate env c d = none) :
    ∀ acc, ∃ line ∈ lines, ∃ a b c d e, goSplit line r.separator = [a, b, c, d] ∧
      env.timeParse d = .error e ∧ readAllLoop env r lines acc = .error e := by
  induction lines with
  | nil => obtain ⟨l, hl, _⟩ := hbad; simp at hl
  | cons line rest ih =>
    intro acc
    rcases hres : readAllLine env r line with e | res
    · -- this line ends the loop: it has four fields and no date
      by_cases h4 : (goSplit line r.separator).length = 4
      · obtain ⟨a, b, c, d, hs⟩ := list_length_four _ h4
        obtain ⟨-, hok, herr⟩ := readAllLine_four env r line a b c d hs
        rcases hd : lineDate env c d with _ | t
        · obtain ⟨e2, he2, hl2⟩ := herr hd
          rw [hres] at hl2
          have : e = e2 := by simpa using hl2
          subst this
          exact ⟨line, List.mem_cons_self _ _, a, b, c, d, e, hs, he2,
            by simp only [readAllLoop, hres]⟩
        · rw [hok t hd] at hres
          simp at hres
      · rw [(readAllLine_not_four env r line h4).1] at hres
        simp at hres
    · -- the line is passed; the failing line is among the rest
      have hrest : ∃ l ∈ rest, ∃ a b c d, goSplit l r.separator = [a, b, c, d] ∧
          lineDate env c d = none := by
        obtain ⟨l, hl, a, b, c, d, hs, hd⟩ := hbad
        rcases List.mem_cons.mp hl with rfl | hl
        · obtain ⟨-, -, herr⟩ := readAllLine_four env r l a b c d hs
          obtain ⟨e2, -, hl2⟩ := herr hd
          rw [hres] at hl2
          simp at hl2
        · exact ⟨l, hl, a, b, c, d, hs, hd⟩
      cases res with
      | none =>
        obtain ⟨l, hl, a, b, c, d, e, hs, he, hrun⟩ := ih hrest acc
        exact ⟨l, List.mem_cons_of_mem _ hl, a, b, c, d, e, hs, he,
          by simp only [readAllLoop, hres, hrun]⟩
      | some tag =>
        obtain ⟨l, hl, a, b, c, d, e, hs, he, hrun⟩ := ih hrest (acc ++ [tag])
        exact ⟨l, List.mem_cons_of_mem _ hl, a, b, c, d, e, hs, he,
          by simp only [readAllLoop, hres, hrun]⟩

theorem readAll_spec (env : TagEnv) (r : tagReader) (out : GoString)
    (hs : SortSliceLawful env.sortSlice) (hexec : r.exec = .ok out) :
    ((∀ line ∈ goSplit out [10], ∀ a b c d, goSplit line r.separator = [a, b, c, d] →
        ∃ t, lineDate env c d = some t) →
      ∃ tags, ReadAll env r = some (.ok tags) ∧
        (tags.map relateTag).Perm
          (((goSplit out [10]).filterMap (lineTag env r.separator)).filter
            (fun t => accepts r t.Name))) ∧
    ((∃ line ∈ goSplit out [10], ∃ a b c d, goSplit line r.separator = [a, b, c, d] ∧
        lineDate env c d = none) →
      ∃ line ∈ goSplit out [10], ∃ a b c d e, goSplit line r.separator = [a, b, c, d] ∧
        env.timeParse d = .error e ∧ ReadAll env r = some (.error e)) := by
  constructor
  · intro hdates
    have hloop := readAllLoop_ok env r (goSplit out [10]) hdates []
    obtain ⟨cur, hrun, hcore, -⟩ := assign_prefix
      (sortTags env.sortSlice ((((goSplit out [10]).filterMap (lineTag env r.separator)).filter
        (fun t => accepts r t.Name)).map tagOf)) _ (Nat.le_refl _)
    refine ⟨cur, ?_, ?_⟩
    · simp only [ReadAll, hexec, hloop, List.nil_append, assignPreviousAndNextTag, hrun,
        Option.map_some']
    · rw [hcore]
      have hperm := (hs.perm Tag tagLess ((((goSplit out [10]).filterMap
        (lineTag env r.separator)).filter (fun t => accepts r t.Name)).map tagOf)).map relateTag
      have hid : ∀ l : List RelateTag, (l.map tagOf).map relateTag = l := by
        intro l
        induction l with
        | nil => rfl
        | cons x xs ih => simp only [List.map_cons, ih]; rfl
      rw [hid] at hperm
      exact hperm
  · intro hbad
    obtain ⟨line, hl, a, b, c, d, e, hsplit, he, hrun⟩ :=
      readAllLoop_error env r (goSplit out [10]) hbad []
    exact ⟨line, hl, a, b, c, d, e, hsplit, he, by simp only [ReadAll, hexec, hrun]⟩

/-- C18: on every output text, `ReadAll` of a reader made by `newTagReader`
passes over every line that does not split on "@@__CHGLOG__@@" into exactly
four fields; a line of four fields stands for the tag named by the first
field without "refs/tags/", with the trimmed second field as subject and, as
date, the parsed tagger date when it parses and otherwise the parsed author
date.  When every line of four fields has a date, `ReadAll` returns exactly
the tags of these lines (as a multiset) that the name filter lets through,
which is all of them for a pattern matching every name; when a line of four
fields has no date, `ReadAll` returns the error of parsing its author date
and no tags. -/
theorem readAll_lines (env : TagEnv) (matchString : GoString → Bool) (out : GoString)
    (hs : SortSliceLawful env.sortSlice) :
    (∀ s, parseRefname (ascii "refs/tags/" ++ s) = s) ∧
    (∀ line, (goSplit line (ascii "@@__CHGLOG__@@")).length ≠ 4 →
      readAllLine env (newTagReader (.ok out) matchString) line = .ok none ∧
      lineTag env (ascii "@@__CHGLOG__@@") line = none) ∧
    (∀ line a b c d, goSplit line (ascii "@@__CHGLOG__@@") = [a, b, c, d] →
      (∀ t, env.timeParse c = .ok t →
        lineTag env (ascii "@@__CHGLOG__@@") line
          = some ⟨parseRefname a, env.trimSpace b, t⟩) ∧
      (∀ e t, env.timeParse c = .error e → env.timeParse d = .ok t →
        lineTag env (ascii "@@__CHGLOG__@@") line
          = some ⟨parseRefname a, env.trimSpace b, t⟩) ∧
      (lineDate env c d = none ↔
        (∃ e, env.timeParse c = .error e) ∧ (∃ e, env.timeParse d = .error e))) ∧
    ((∀ line ∈ goSplit out [10], ∀ a b c d,
        goSplit line (ascii "@@__CHGLOG__@@") = [a, b, c, d] →
        ∃ t, lineDate env c d = some t) →
      ∃ tags, ReadAll env (newTagReader (.ok out) matchString) = some (.ok tags) ∧
        (tags.map relateTag).Perm
          (((goSplit out [10]).filterMap (lineTag env (ascii "@@__CHGLOG__@@"))).filter
            (fun t => matchString t.Name)) ∧
        ((∀ name, matchString name = true) →
          (tags.map relateTag).Perm
            ((goSplit out [10]).filterMap (lineTag env (ascii "@@__CHGLOG__@@"))))) ∧
    ((∃ line ∈ goSplit out [10], ∃ a b c d,
        goSplit line (ascii "@@__CHGLOG__@@") = [a, b, c, d] ∧ lineDate env c d = none) →
      ∃ line ∈ goSplit out [10], ∃ a b c d e,
        goSplit line (ascii "@@__CHGLOG__@@") = [a, b, c, d] ∧
        env.timeParse d = .error e ∧
        ReadAll env (newTagReader (.ok out) matchString) = some (.error e)) := by
  have hspec := readAll_spec env (newTagReader (.ok out) matchString) out hs rfl
  refine ⟨parseRefname_leading, ?_, ?_, ?_, hspec.2⟩
  · intro line h4
    exact readAllLine_not_four env (newTagReader (.ok out) matchString) line h4
  · intro line a b c d hsplit
    have hline : lineTag env (ascii "@@__CHGLOG__@@") line
        = (lineDate env c d).map (fun t => ⟨parseRefname a, env.trimSpace b, t⟩) := by
      simp only [lineTag, hsplit]
    refine ⟨?_, ?_, ?_⟩
    · intro t ht
      rw [hline]
      simp [lineDate, ht]
    · intro e t he ht
      rw [hline]
      simp [lineDate, he, ht]
    · simp only [lineDate]
      rcases hc : env.timeParse c with e | tc
      · rcases hd : env.timeParse d with e2 | td <;> simp
      · simp
  · intro hdates
    obtain ⟨tags, hrun, hperm⟩ := hspec.1 hdates
    refine ⟨tags, hrun, hperm, ?_⟩
    intro hall
    have hfil : (((goSplit out [10]).filterMap (lineTag env (ascii "@@__CHGLOG__@@"))).filter
        (fun t => matchString t.Name))
        = (goSplit out [10]).filterMap (lineTag env (ascii "@@__CHGLOG__@@")) := by
      apply List.filter_eq_self.mpr
      intro t _
      exact hall t.Name
    have hperm2 : (tags.map relateTag).Perm
        (((goSplit out [10]).filterMap (lineTag env (ascii "@@__CHGLOG__@@"))).filter
          (fun t => matchString t.Name)) := hperm
    rw [hfil] at hperm2
    exact hperm2

/-- Witness for C18: an output of two tag lines and an empty line, read with
the pattern that matches every name. -/
theorem readAll_lines_witness :
    SortSliceLawful sampleTagEnv.sortSlice ∧
    ∃ tags, ReadAll sampleTagEnv (newTagReader (.ok sampleOutput) (fun _ => true))
        = some (.ok tags) ∧
      (tags.map relateTag).Perm
        [⟨ascii "v1", ascii "first", ⟨1704067200⟩⟩,
         ⟨ascii "v2", ascii "second", ⟨1704067200⟩⟩] := by
  have hdates : ∀ line ∈ goSplit sampleOutput [10], ∀ a b c d,
      goSplit line (ascii "@@__CHGLOG__@@") = [a, b, c, d] →
      ∃ t, lineDate sampleTagEnv c d = some t := by
    have hall : ∀ line ∈ goSplit sampleOutput [10],
        (goSplit line (ascii "@@__CHGLOG__@@")).length ≠ 4 ∨
        (lineTag sampleTagEnv (ascii "@@__CHGLOG__@@") line).isSome = true := by decide
    intro line hl a b c d hsplit
    rcases hall line hl with h | h
    · rw [hsplit] at h
      exact absurd rfl h
    · simp only [lineTag, hsplit] at h
      rcases hd : lineDate sampleTagEnv c d with _ | t
      · rw [hd] at h
        simp at h
      · exact ⟨t, rfl⟩
  obtain ⟨tags, hrun, -, hperm⟩ :=
    (readAll_lines sampleTagEnv (fun _ => true) sampleOutput insertionSortSlice_lawful).2.2.2.1
      hdates
  refine ⟨insertionSortSlice_lawful, tags, hrun, ?_⟩
  have hlist : (goSplit sampleOutput [10]).filterMap
      (lineTag sampleTagEnv (ascii "@@__CHGLOG__@@"))
      = [⟨ascii "v1", ascii "first", ⟨1704067200⟩⟩,
         ⟨ascii "v2", ascii "second", ⟨1704067200⟩⟩] := by decide
  rw [← hlist]
  exact hperm (fun _ => rfl)

end Changelogger
